import Mathlib

/-!
Huffman archiver: shallow embedding

The C sources `huffman_tree.c`, `file_handler.c` and `huffman_compression.c` are
embedded as pure functions.

Conventions of the embedding.
* `unsigned char` is `Byte = Fin 256`.
* A `HuffmanNode*` is a value of the inductive type `HuffmanNode`: `null`, or a
  `node` with the five fields of the C struct (the children are pointers again).
  `malloc` is assumed to succeed.
* `int`/`long` values that hold sizes, counts and depths are `Nat`; values that can
  become negative (`frequency`, `padding`, `encoded_size`, header fields) are `Int`.
  The two places where the program adds `int` values, the counter increment of
  `calculate_frequencies` and the merged frequency of `build_huffman_tree`, use
  `int_add`: a 32-bit `int` whose sum leaves `INT_MIN .. INT_MAX` wraps around modulo
  `2^32`. `build_huffman_tree_unbounded` is the same algorithm with exact addition.
* Behaviour that C leaves undefined (a store outside a buffer, a load outside a
  buffer, dereferencing `NULL`) is the result `none` of an `Option`.
* Loops whose trip count is not syntactically bounded carry a fuel argument that the
  caller sets from the loop variant; the fuel lemmas show that it never runs out.
-/

namespace Archiver

/-- The C type `unsigned char`. -/
abbrev Byte := Fin 256

/-- `MAX_FILENAME_LENGTH` of `huffman_compression.h`. -/
def MAX_FILENAME_LENGTH : Nat := 256

/-- `MAX_FILES` of `huffman_compression.h`. -/
def MAX_FILES : Nat := 100

/-- `MAX_TREE_SIZE` of `huffman_compression.h`. -/
def MAX_TREE_SIZE : Nat := 512

/-- A `HuffmanNode*`: `NULL`, or a pointer to a node holding `character`, `frequency`,
`left`, `right` and `is_leaf`. -/
inductive HuffmanNode where
  | null : HuffmanNode
  | node (character : Byte) (frequency : Int) (left right : HuffmanNode) (is_leaf : Bool) :
      HuffmanNode
  deriving DecidableEq, Inhabited

/-- Field `frequency` (read through a non-null pointer). -/
def HuffmanNode.frequency : HuffmanNode → Int
  | .null => 0
  | .node _ f _ _ _ => f

/-- Field `character` (read through a non-null pointer). -/
def HuffmanNode.character : HuffmanNode → Byte
  | .null => 0
  | .node c _ _ _ _ => c

/-- Field `left` (read through a non-null pointer). -/
def HuffmanNode.left : HuffmanNode → HuffmanNode
  | .null => .null
  | .node _ _ l _ _ => l

/-- Field `right` (read through a non-null pointer). -/
def HuffmanNode.right : HuffmanNode → HuffmanNode
  | .null => .null
  | .node _ _ _ r _ => r

/-- Field `is_leaf` (read through a non-null pointer). -/
def HuffmanNode.is_leaf : HuffmanNode → Bool
  | .null => false
  | .node _ _ _ _ b => b

/-- The array-backed queue `MinHeap`: `nodes` holds the slots `0 .. size-1`. -/
structure MinHeap where
  nodes : List HuffmanNode
  capacity : Nat
  deriving DecidableEq

/-- Field `size` of `MinHeap`. -/
def MinHeap.size (heap : MinHeap) : Nat := heap.nodes.length

/-- `create_min_heap`. -/
def create_min_heap (capacity : Nat) : MinHeap := { nodes := [], capacity := capacity }

/-- `swap_nodes(&nodes[a], &nodes[b])`. -/
def swap_nodes (nodes : List HuffmanNode) (a b : Nat) : List HuffmanNode :=
  (nodes.set a (nodes.getD b .null)).set b (nodes.getD a .null)

/-- Recursion of `heapify_up`; every call moves `index` to its parent, so `index`
units of fuel are enough. -/
def heapify_up_fuel : Nat → List HuffmanNode → Nat → List HuffmanNode
  | 0, nodes, _ => nodes
  | fuel + 1, nodes, index =>
    if index = 0 then nodes
    else
      let parent := (index - 1) / 2
      if (nodes.getD parent .null).frequency > (nodes.getD index .null).frequency then
        heapify_up_fuel fuel (swap_nodes nodes parent index) parent
      else nodes

/-- `heapify_up(heap, index)` on the slots of the heap. -/
def heapify_up (nodes : List HuffmanNode) (index : Nat) : List HuffmanNode :=
  heapify_up_fuel index nodes index

/-- Index `smallest` computed by one call of `heapify_down`. -/
def heapify_down_smallest (nodes : List HuffmanNode) (index : Nat) : Nat :=
  let left := 2 * index + 1
  let right := 2 * index + 2
  let smallest := index
  let smallest :=
    if left < nodes.length ∧
        (nodes.getD left .null).frequency < (nodes.getD smallest .null).frequency
    then left else smallest
  let smallest :=
    if right < nodes.length ∧
        (nodes.getD right .null).frequency < (nodes.getD smallest .null).frequency
    then right else smallest
  smallest

/-- Recursion of `heapify_down`; every call moves `index` to a child, so `size`
units of fuel are enough. -/
def heapify_down_fuel : Nat → List HuffmanNode → Nat → List HuffmanNode
  | 0, nodes, _ => nodes
  | fuel + 1, nodes, index =>
    let smallest := heapify_down_smallest nodes index
    if smallest ≠ index then
      heapify_down_fuel fuel (swap_nodes nodes index smallest) smallest
    else nodes

/-- `heapify_down(heap, index)` on the slots of the heap. -/
def heapify_down (nodes : List HuffmanNode) (index : Nat) : List HuffmanNode :=
  heapify_down_fuel nodes.length nodes index

/-- `heap_insert`: silently returns when the heap is full. -/
def heap_insert (heap : MinHeap) (node : HuffmanNode) : MinHeap :=
  if heap.size ≥ heap.capacity then heap
  else { heap with nodes := heapify_up (heap.nodes ++ [node]) heap.size }

/-- `heap_extract_min`: the returned pointer (`null` on an empty heap) and the heap
afterwards. -/
def heap_extract_min (heap : MinHeap) : HuffmanNode × MinHeap :=
  if heap.size = 0 then (.null, heap)
  else
    let min_node := heap.nodes.getD 0 .null
    let nodes := (heap.nodes.set 0 (heap.nodes.getD (heap.size - 1) .null)).dropLast
    let nodes := if nodes.length > 0 then heapify_down nodes 0 else nodes
    (min_node, { heap with nodes := nodes })

/-- `create_node`. -/
def create_node (character : Byte) (frequency : Int) (is_leaf : Bool) : HuffmanNode :=
  .node character frequency .null .null is_leaf

/-- `INT_MAX` for the 32-bit `int` of the program. -/
def INT_MAX : Int := 2147483647

/-- The `int` that results when a computation on `int` values has the mathematical
value `x`: a value outside `-2^31 .. 2^31 - 1` wraps around modulo `2^32`, which is
what the two's-complement targets of the program do on signed overflow. -/
def int_wrap (x : Int) : Int := (x + 2147483648) % 4294967296 - 2147483648

/-- The sum `a + b` of two `int` values. -/
def int_add (a b : Int) : Int := int_wrap (a + b)

/-- The merge loop `while (heap->size > 1)` of `build_huffman_tree`, with `add` for the
addition in `left->frequency + right->frequency`; every completed iteration shrinks
the heap by one node, so `size` units of fuel are enough. -/
def merge_loop_with (add : Int → Int → Int) : Nat → MinHeap → MinHeap
  | 0, heap => heap
  | fuel + 1, heap =>
    if heap.size > 1 then
      let r1 := heap_extract_min heap
      let r2 := heap_extract_min r1.2
      let left := r1.1
      let right := r2.1
      if left = .null ∨ right = .null then r2.2
      else
        let merged := HuffmanNode.node 0 (add left.frequency right.frequency) left right false
        merge_loop_with add fuel (heap_insert r2.2 merged)
    else heap

/-- The merge loop of `build_huffman_tree`: the frequencies are added as `int`. -/
def merge_loop : Nat → MinHeap → MinHeap := merge_loop_with int_add

/-- The values of `i` in the loops `for (int i = 0; i < 256; i++)`. -/
@[irreducible]
def all_bytes : List Byte := List.finRange 256

/-- The loop that inserts one leaf per symbol with a positive count. -/
def insert_leaves (frequencies : Byte → Int) (heap : MinHeap) : MinHeap :=
  all_bytes.foldl
    (fun h i =>
      if frequencies i > 0 then heap_insert h (create_node i (frequencies i) true) else h)
    heap

/-- The body of `build_huffman_tree`, with `add` for the addition of two
frequencies in the merge loop. -/
def build_huffman_tree_with (add : Int → Int → Int) (frequencies : Byte → Int) :
    HuffmanNode :=
  let char_count := (all_bytes.filter (fun i => frequencies i > 0)).length
  if char_count = 0 then .null
  else
    let single :=
      if char_count = 1 then all_bytes.find? (fun i => frequencies i > 0)
      else none
    match single with
    | some i =>
      .node 0 (frequencies i) (create_node i (frequencies i) true) .null false
    | none =>
      let heap := create_min_heap char_count
      let heap := insert_leaves frequencies heap
      let heap := merge_loop_with add heap.size heap
      if heap.size > 0 then heap.nodes.getD 0 .null else .null

/-- `build_huffman_tree`: frequencies are added as `int`. -/
def build_huffman_tree (frequencies : Byte → Int) : HuffmanNode :=
  build_huffman_tree_with int_add frequencies

/-- The algorithm of `build_huffman_tree` with the frequencies taken as unbounded
integers: the merged frequency is the exact sum. -/
def build_huffman_tree_unbounded (frequencies : Byte → Int) : HuffmanNode :=
  build_huffman_tree_with (fun a b => a + b) frequencies

/-- The struct `HuffmanCode`: the buffer `code[256]` and `length`. -/
structure HuffmanCode where
  code : List Char
  length : Nat
  deriving DecidableEq

/-- A store `buf[i] = v`; outside the buffer it is undefined. -/
def store {α : Type} (buf : List α) (i : Nat) (v : α) : Option (List α) :=
  if i < buf.length then some (buf.set i v) else none

/-- The C string held in a buffer: the characters before the first NUL, when there
is one. -/
def c_string (buf : List Char) : Option (List Char) :=
  let s := buf.takeWhile (fun c => c ≠ '\x00')
  if s.length < buf.length then some s else none

/-- `strcpy(dst, src)`: copies the string of `src` and its NUL; the rest of `dst`
stays. -/
def strcpy (dst src : List Char) : Option (List Char) :=
  match c_string src with
  | none => none
  | some s =>
    if s.length + 1 ≤ dst.length then some (s ++ '\x00' :: dst.drop (s.length + 1))
    else none

/-- The zeroed table of `memset(code_table, 0, sizeof(code_table))`. -/
def zero_code_table : Byte → HuffmanCode :=
  fun _ => { code := List.replicate 256 '\x00', length := 0 }

/-- The buffer `char current_code[256] = {0}`. -/
def zero_current_code : List Char := List.replicate 256 '\x00'

/-- `generate_codes(root, codes, current_code, depth)`: the table and the scratch
buffer afterwards. -/
def generate_codes :
    HuffmanNode → (Byte → HuffmanCode) → List Char → Nat →
      Option ((Byte → HuffmanCode) × List Char)
  | .null, codes, current_code, _ => some (codes, current_code)
  | .node character _ left right is_leaf, codes, current_code, depth =>
    if is_leaf then
      if depth = 0 then
        (strcpy (codes character).code ['0', '\x00']).map fun c =>
          (Function.update codes character { code := c, length := 1 }, current_code)
      else
        (strcpy (codes character).code current_code).map fun c =>
          (Function.update codes character { code := c, length := depth }, current_code)
    else
      let afterLeft :=
        if left = .null then some (codes, current_code)
        else
          (store current_code depth '0').bind fun b =>
            (store b (depth + 1) '\x00').bind fun b =>
              generate_codes left codes b (depth + 1)
      afterLeft.bind fun st =>
        let afterRight :=
          if right = .null then some st
          else
            (store st.2 depth '1').bind fun b =>
              (store b (depth + 1) '\x00').bind fun b =>
                generate_codes right st.1 b (depth + 1)
        afterRight.bind fun st =>
          (store st.2 depth '\x00').map fun b => (st.1, b)

/-- `calculate_frequencies`: `frequencies[data[i]]++` on `int` counters. -/
def calculate_frequencies (data : List Byte) (frequencies : Byte → Int) : Byte → Int :=
  data.foldl (fun f b => Function.update f b (int_add (f b) 1)) frequencies

/-- The histogram `int frequencies[256] = {0}`. -/
def zero_frequencies : Byte → Int := fun _ => 0

/-- Conversion of an `int` to `unsigned char`. -/
def toByte (n : Nat) : Byte := ⟨n % 256, Nat.mod_lt _ (by decide)⟩

/-- The local variables of the packing loop of `encode_data`. -/
structure BitWriter where
  bit_pos : Nat
  current_byte : Nat
  byte_index : Nat
  encoded : List Byte
  deriving DecidableEq

/-- Body of the loop over `j`: one character of a code. -/
def encode_char (w : BitWriter) (c : Char) : Option BitWriter :=
  let current_byte :=
    if c = '1' then (w.current_byte ||| (1 <<< (7 - w.bit_pos))) % 256 else w.current_byte
  let bit_pos := w.bit_pos + 1
  if bit_pos = 8 then
    (store w.encoded w.byte_index (toByte current_byte)).map fun e =>
      { bit_pos := 0, current_byte := 0, byte_index := w.byte_index + 1, encoded := e }
  else some { w with bit_pos := bit_pos, current_byte := current_byte }

/-- The loop `for (j = 0; j < code_len; j++)` for one input byte. -/
def encode_symbol (code : HuffmanCode) (w : BitWriter) : Option BitWriter :=
  (List.range code.length).foldlM
    (fun w j => (code.code.get? j).bind fun c => encode_char w c) w

/-- Result of `encode_data`: the returned byte count and the two out-parameters. -/
structure Encoded where
  encoded_bytes : Nat
  encoded_data : List Byte
  padding : Nat
  deriving DecidableEq

/-- `encode_data`; the table is the global `code_table`. On the early return the
out-parameters keep the values the caller initialised them with. -/
def encode_data (data : List Byte) (code_table : Byte → HuffmanCode) : Option Encoded :=
  let total_bits := (data.map fun b => (code_table b).length).sum
  if total_bits = 0 then some { encoded_bytes := 0, encoded_data := [], padding := 0 }
  else
    let padding := (8 - total_bits % 8) % 8
    let total_bits_padded := total_bits + padding
    let encoded_bytes := total_bits_padded / 8
    let w0 : BitWriter :=
      { bit_pos := 0, current_byte := 0, byte_index := 0,
        encoded := List.replicate encoded_bytes 0 }
    (data.foldlM (fun w b => encode_symbol (code_table b) w) w0).bind fun w =>
      let last :=
        if w.bit_pos > 0 then store w.encoded w.byte_index (toByte w.current_byte)
        else some w.encoded
      last.map fun e =>
        { encoded_bytes := encoded_bytes, encoded_data := e, padding := padding }

/-- The local variables of the loop of `decode_data`: the bytes written so far
(`decoded_count` is their number) and `current_node`. -/
structure Cursor where
  decoded : List Byte
  current_node : HuffmanNode
  deriving DecidableEq

/-- Body of the inner loop of `decode_data` after the `break` test, for one bit.
Reading `current_node->is_leaf` through `NULL` and the unguarded store past
`max_decoded_size` are undefined. -/
def decode_bit (tree : HuffmanNode) (max_decoded_size : Int) (s : Cursor) (bit : Nat) :
    Option Cursor :=
  if s.current_node = .null then none
  else
    let s1 : Option Cursor :=
      if s.current_node.is_leaf then
        if (s.decoded.length : Int) < max_decoded_size then
          some { decoded := s.decoded ++ [s.current_node.character], current_node := tree }
        else none
      else some s
    s1.bind fun s =>
      if s.current_node = .null then none
      else
        let next := if bit = 0 then s.current_node.left else s.current_node.right
        if next ≠ .null ∧ next.is_leaf then
          if (s.decoded.length : Int) < max_decoded_size then
            some { decoded := s.decoded ++ [next.character], current_node := tree }
          else some { decoded := s.decoded, current_node := tree }
        else some { decoded := s.decoded, current_node := next }

/-- The inner loop `for (bit_idx = 7; bit_idx >= 0; bit_idx--)` of `decode_data`,
over the remaining values of `bit_idx`, with its `break`. -/
def decode_byte (tree : HuffmanNode) (total_bits : Int) (byte_idx : Nat) (current_byte : Byte) :
    List Nat → Cursor → Option Cursor
  | [], s => some s
  | bit_idx :: rest, s =>
    let processed_bits : Int := (byte_idx : Int) * 8 + (7 - (bit_idx : Int))
    if processed_bits ≥ total_bits then some s
    else
      (decode_bit tree total_bits s ((current_byte.val >>> bit_idx) &&& 1)).bind fun s =>
        decode_byte tree total_bits byte_idx current_byte rest s

/-- `decode_data`: the bytes written to `*decoded_data`; the returned `decoded_count`
is their number. The early returns leave the buffer empty and return 0. -/
def decode_data (encoded_data : List Byte) (encoded_size : Int) (tree : HuffmanNode)
    (padding : Int) : Option (List Byte) :=
  if tree = .null ∨ encoded_size = 0 then some []
  else
    let total_bits := encoded_size * 8 - padding
    if total_bits ≤ 0 then some []
    else
      ((List.range encoded_size.toNat).foldlM
        (fun s byte_idx =>
          (encoded_data.get? byte_idx).bind fun current_byte =>
            decode_byte tree total_bits byte_idx current_byte [7, 6, 5, 4, 3, 2, 1, 0] s)
        { decoded := [], current_node := tree }).map fun s => s.decoded

/-- `serialize_tree(root, buffer, pos)`: the buffer and `*pos` afterwards. -/
def serialize_tree : HuffmanNode → List Byte → Nat → Option (List Byte × Nat)
  | .null, buffer, pos => (store buffer pos 0).map fun b => (b, pos + 1)
  | .node character _ left right is_leaf, buffer, pos =>
    if is_leaf then
      (store buffer pos 1).bind fun b =>
        (store b (pos + 1) character).map fun b => (b, pos + 2)
    else
      (store buffer pos 2).bind fun b =>
        (serialize_tree left b (pos + 1)).bind fun st =>
          serialize_tree right st.1 st.2

/-- Recursion of `deserialize_tree`: the returned pointer and `*pos` afterwards.
Every call reads at least one byte, so `length - pos + 1` units of fuel are enough. -/
def deserialize_tree_fuel : Nat → List Byte → Nat → Option (HuffmanNode × Nat)
  | 0, _, _ => none
  | fuel + 1, buffer, pos =>
    (buffer.get? pos).bind fun marker =>
      if marker = 0 then some (.null, pos + 1)
      else if marker = 1 then
        (buffer.get? (pos + 1)).map fun character => (create_node character 0 true, pos + 2)
      else if marker = 2 then
        (deserialize_tree_fuel fuel buffer (pos + 1)).bind fun l =>
          (deserialize_tree_fuel fuel buffer l.2).map fun r =>
            (HuffmanNode.node 0 0 l.1 r.1 false, r.2)
      else some (.null, pos + 1)

/-- `deserialize_tree(buffer, pos)`. -/
def deserialize_tree (buffer : List Byte) (pos : Nat) : Option (HuffmanNode × Nat) :=
  deserialize_tree_fuel (buffer.length + 1 - pos) buffer pos

/-- Frequency stored in slot `i` of the heap array. -/
def slot_frequency (l : List HuffmanNode) (i : Nat) : Int := (l.getD i .null).frequency

/-- The heap-order invariant on the slots `0 .. size-1`. -/
def HeapOrder (l : List HuffmanNode) : Prop :=
  ∀ i, 0 < i → i < l.length → slot_frequency l ((i - 1) / 2) ≤ slot_frequency l i

/-- The symbols with a positive count, in increasing order. -/
def symbols (frequencies : Byte → Int) : List Byte :=
  all_bytes.filter (fun i => frequencies i > 0)

/-- The node that one completed iteration of the merge loop creates when the
frequencies are taken as unbounded integers. -/
def merge_nodes (a b : HuffmanNode) : HuffmanNode :=
  .node 0 (a.frequency + b.frequency) a b false

/-- The node that one completed iteration of the merge loop of `build_huffman_tree`
creates: the frequencies are added as `int`. -/
def merge_nodes_int (a b : HuffmanNode) : HuffmanNode :=
  .node 0 (int_add a.frequency b.frequency) a b false

/-- The characters of the leaves, left to right (a node flagged `is_leaf` is a leaf
whatever its child pointers hold). -/
def leaves : HuffmanNode → List Byte
  | .null => []
  | .node c _ l r leaf => if leaf then [c] else leaves l ++ leaves r

/-- The shape of the trees that the merge loop builds: a leaf has no children, an
internal node has character 0 and two children of that shape. -/
def Proper : HuffmanNode → Prop
  | .null => False
  | .node c _ l r leaf => if leaf then l = .null ∧ r = .null else c = 0 ∧ Proper l ∧ Proper r

/-- The number of edges on the longest path from a node down to a leaf or to a
childless node. -/
def height : HuffmanNode → Nat
  | .null => 0
  | .node _ _ l r leaf => if leaf then 0 else 1 + max (height l) (height r)

/-- The leaves with the path that leads to each: `false` is a step to `left`,
`true` a step to `right`. -/
def paths : HuffmanNode → List (Byte × List Bool)
  | .null => []
  | .node c _ l r leaf =>
    if leaf then [(c, [])]
    else (paths l).map (fun x => (x.1, false :: x.2)) ++
      (paths r).map (fun x => (x.1, true :: x.2))

/-- The queued nodes are well-shaped trees whose leaves are the symbols with a
positive count, each once. -/
def ForestOf (frequencies : Byte → Int) (F : List HuffmanNode) : Prop :=
  (∀ t ∈ F, Proper t) ∧ (F.flatMap leaves).Perm (symbols frequencies)

/-- The character that `generate_codes` writes for a step: `'0'` to the left,
`'1'` to the right. -/
def bit_char (b : Bool) : Char := if b then '1' else '0'

/-- A path as the characters of a code. -/
def code_chars (p : List Bool) : List Char := p.map bit_char

/-- The scratch buffer holds the path `p` in its first `depth` cells, followed by a
NUL. -/
def Scratch (current_code : List Char) (depth : Nat) (p : List Bool) : Prop :=
  current_code.length = 256 ∧ p.length = depth ∧
    current_code.take depth = code_chars p ∧ current_code[depth]? = some '\x00'

/-- What a call of `generate_codes` on `t` guarantees: it stays inside its buffers,
restores the scratch buffer, touches only the entries of the leaves of `t`, and gives
each leaf the path that leads to it. -/
def GenSpec (t : HuffmanNode) : Prop :=
  ∀ (codes : Byte → HuffmanCode) (cc : List Char) (d : Nat) (p : List Bool),
    Scratch cc d p → d + height t ≤ 255 → (∀ c, (codes c).code.length = 256) →
    (t.is_leaf = true → d ≠ 0) → (leaves t).Nodup →
    ∃ codes' cc', generate_codes t codes cc d = some (codes', cc') ∧
      Scratch cc' d p ∧ (∀ c, (codes' c).code.length = 256) ∧
      (∀ c, c ∉ leaves t → codes' c = codes c) ∧
      (∀ c q, (c, q) ∈ paths t →
        c_string (codes' c).code = some (code_chars (p ++ q)) ∧
        (codes' c).length = d + q.length)

/-- The node reached from `t` along a path: `false` follows `left`, `true` follows
`right`. -/
def descend : HuffmanNode → List Bool → HuffmanNode
  | t, [] => t
  | t, b :: q => descend (if b then t.right else t.left) q

/-- The shape facts about the tree that the rest of the development uses. -/
structure Built (frequencies : Byte → Int) (t : HuffmanNode) : Prop where
  ne_null : t ≠ .null
  not_leaf : t.is_leaf = false
  leaves_perm : (leaves t).Perm (symbols frequencies)
  height_le : height t ≤ 255

/-- The bits of a byte, most significant first. -/
def byte_bits (b : Byte) : List Bool :=
  [7, 6, 5, 4, 3, 2, 1, 0].map fun i => b.val.testBit i

/-- A byte array read as a bit sequence, most significant bit first in each byte. -/
def bits_of (bytes : List Byte) : List Bool := bytes.flatMap byte_bits

/-- The bit string of a table entry: its first `length` characters, `'1'` being a
set bit. -/
def code_bits (h : HuffmanCode) : List Bool :=
  (h.code.take h.length).map fun c => decide (c = '1')

/-- The number `total_bits` that `encode_data` computes. -/
def total_bits (data : List Byte) (code_table : Byte → HuffmanCode) : Nat :=
  (data.map fun b => (code_table b).length).sum

/-- Every `length` of the table fits the buffer `code` of its entry. -/
def TableFits (code_table : Byte → HuffmanCode) : Prop :=
  ∀ c, (code_table c).length ≤ (code_table c).code.length

/-- The loop over the characters of a code, as a fold over the characters. -/
def encode_chars (cs : List Char) (w : BitWriter) : Option BitWriter :=
  cs.foldlM (fun w c => encode_char w c) w

/-- The state of the packing loop after the bits `bs` have been appended to a
buffer of `N` bytes. -/
structure PackInv (N : Nat) (w : BitWriter) (bs : List Bool) : Prop where
  hbp : w.bit_pos < 8
  hcur : w.current_byte < 256
  hlen : w.encoded.length = N
  hbi : w.byte_index ≤ N
  hbits : bits_of (w.encoded.take w.byte_index) ++
    (byte_bits (toByte w.current_byte)).take w.bit_pos = bs
  hzero : (byte_bits (toByte w.current_byte)).drop w.bit_pos =
    List.replicate (8 - w.bit_pos) false

/-- The value of `(current_byte >> bit_idx) & 1` for a bit. -/
def bit_value (b : Bool) : Nat := if b then 1 else 0

/-- The loop body of `decode_data` run over a bit sequence. -/
def decode_stream (tree : HuffmanNode) (max_decoded_size : Int) (bits : List Bool)
    (s : Cursor) : Option Cursor :=
  bits.foldlM (fun s b => decode_bit tree max_decoded_size s (bit_value b)) s

/-- The values `m-1, ..., 1, 0` of `bit_idx`. -/
def bit_indices (m : Nat) : List Nat := (List.range m).reverse

/-- The path that leads to the leaf of a symbol (empty when the tree has no such
leaf). -/
def path_of (t : HuffmanNode) (c : Byte) : List Bool :=
  match (paths t).find? (fun x => x.1 = c) with
  | some x => x.2
  | none => []

/-- A path or file name: the characters of a C string. -/
abbrev Path := List Char

/-- The files that `fopen(path, "rb")` can open, with their content. -/
abbrev FileSystem := Path → Option (List Byte)

/-- The struct `FileBoundary`; `filename` is the string held in `filename[256]`. -/
structure FileBoundary where
  filename : Path
  start_pos : Int
  size : Int
  deriving DecidableEq

/-- The struct `CompressionHeader`; `file_boundaries` holds the entries of the array
that have been assigned. -/
structure CompressionHeader where
  num_files : Int
  padding : Int
  tree_size : Int
  data_size : Int
  file_boundaries : List FileBoundary
  deriving DecidableEq

/-- A container file: the `int` written first, the header block, and the bytes that
follow it (serialized tree, then packed data). -/
structure CompressedFile where
  header_size : Int
  header : CompressionHeader
  payload : List Byte
  deriving DecidableEq

/-- `sizeof(int)`. -/
def sizeof_int : Nat := 4

/-- `sizeof(CompressionHeader)` on an LP64 target: three `int`, alignment, one `long`
and `MAX_FILES` boundaries of `256 + 8 + 8` bytes. -/
def sizeof_CompressionHeader : Nat := 27224

/-- The size of a container file in bytes, as `ftell` reports it. -/
def file_size (file : CompressedFile) : Int :=
  sizeof_int + sizeof_CompressionHeader + file.payload.length

/-- The text after the last occurrence of `c` (the result of `strrchr` advanced by
one), when `c` occurs. -/
def after_last (c : Char) (s : Path) : Option Path :=
  if c ∈ s then some (s.reverse.takeWhile (fun x => x ≠ c)).reverse else none

/-- The file name without its directory part, as `read_files` and
`generate_compressed_filename` compute it. -/
def base_name (path : Path) : Path :=
  match after_last '/' path with
  | some f => f
  | none =>
    match after_last '\\' path with
    | some f => f
    | none => path

/-- The first loop of `read_files` over the remaining paths: `i` is the loop
counter, `total_size` the running total, `boundaries` the entries written so far.
The result is `none` when a boundary is stored past `boundaries[MAX_FILES - 1]`;
otherwise the flag tells whether every `fopen` succeeded. -/
def read_files_sizes (fs : FileSystem) :
    List Path → Nat → Nat → List FileBoundary → Option (Bool × Nat × List FileBoundary)
  | [], _, total_size, boundaries => some (true, total_size, boundaries)
  | path :: rest, i, total_size, boundaries =>
    match fs path with
    | none => some (false, total_size, boundaries)
    | some content =>
      if i < MAX_FILES then
        let boundary : FileBoundary :=
          { filename := (base_name path).take (MAX_FILENAME_LENGTH - 1),
            start_pos := total_size, size := content.length }
        read_files_sizes fs rest (i + 1) (total_size + content.length)
          (boundaries ++ [boundary])
      else none

/-- The second loop of `read_files`: the concatenated content, or `none` when a file
cannot be opened. -/
def read_files_data (fs : FileSystem) : List Path → Option (List Byte)
  | [] => some []
  | path :: rest =>
    match fs path with
    | none => none
    | some content => (read_files_data fs rest).map fun d => content ++ d

/-- `read_files`: the returned total size, `*combined_data` and the boundaries. The
outer `none` is undefined behaviour. -/
def read_files (fs : FileSystem) (file_paths : List Path) :
    Option (Nat × List Byte × List FileBoundary) :=
  (read_files_sizes fs file_paths 0 0 []).map fun r =>
    if r.1 = false then (0, [], r.2.2)
    else if r.2.1 = 0 then (0, [], r.2.2)
    else
      match read_files_data fs file_paths with
      | none => (0, [], r.2.2)
      | some d => (r.2.1, d, r.2.2)

/-- `generate_compressed_filename`. -/
def generate_compressed_filename (first_file : Path) : Path :=
  let base := base_name first_file
  let temp_name :=
    if '.' ∈ base then
      (base.reverse.dropWhile (fun x => x ≠ '.')).tail.reverse
    else base
  temp_name ++ ['.', 'c', 'm', 'p']

/-- `write_compressed_file`: the file written. The call
`serialize_tree(tree, &tree_buffer, &tree_pos)` passes the address of the array
`tree_buffer` where `serialize_tree` expects the address of a pointer, so `*buffer` is
read from the first bytes of the uninitialised array and designates no buffer
(`dereferenced`); the first store `(*buffer)[(*pos)++] = ...`, which every call of
`serialize_tree` performs, is undefined, and so is the file. The result is also `none`
when more than `MAX_FILES` boundaries are copied into the header. -/
def write_compressed_file (encoded_data : List Byte) (encoded_size : Nat)
    (tree : HuffmanNode) (padding : Int) (boundaries : List FileBoundary) (num_files : Nat) :
    Option CompressedFile :=
  if num_files > MAX_FILES then none
  else
    let dereferenced : Option (List Byte) := none
    (dereferenced.bind fun buffer => serialize_tree tree buffer 0).map fun st =>
      { header_size := sizeof_CompressionHeader,
        header :=
          { num_files := num_files, padding := padding, tree_size := st.2,
            data_size := encoded_size, file_boundaries := boundaries.take num_files },
        payload := st.1.take st.2 ++ encoded_data.take encoded_size }

/-- What `read_compressed_file` hands back: the return value and the out-parameters. -/
structure ReadResult where
  num_files : Int
  encoded_data : List Byte
  tree : HuffmanNode
  padding : Int
  boundaries : List FileBoundary
  deriving DecidableEq

/-- The result of `read_compressed_file` on its error paths. -/
def read_failed : ReadResult :=
  { num_files := 0, encoded_data := [], tree := .null, padding := 0, boundaries := [] }

/-- `read_compressed_file` on an existing file. The result is `none` when the header
names more than `MAX_FILES` boundaries or more tree bytes than the tree buffer holds,
or when `deserialize_tree` reads past the bytes that were read into the buffer. -/
def read_compressed_file (file : CompressedFile) : Option ReadResult :=
  let header := file.header
  if header.num_files > MAX_FILES then none
  else if header.tree_size < 0 ∨ header.tree_size > MAX_TREE_SIZE * 3 then none
  else if file.payload.length < header.tree_size.toNat then some read_failed
  else
    let tree_buffer := file.payload.take header.tree_size.toNat
    (deserialize_tree tree_buffer 0).map fun r =>
      if r.1 = .null then read_failed
      else if header.data_size < 0 then read_failed
      else
        let rest := file.payload.drop header.tree_size.toNat
        if rest.length < header.data_size.toNat then read_failed
        else
          { num_files := header.num_files,
            encoded_data := rest.take header.data_size.toNat,
            tree := r.1, padding := header.padding,
            boundaries := header.file_boundaries.take header.num_files.toNat }

/-- The output path that `extract_files` builds for a file name. -/
def output_path (output_dir : Path) (filename : Path) : Path :=
  if output_dir = ['.'] then filename else output_dir ++ '/' :: filename

/-- `extract_files`: the files written, in order. Reading outside the decoded bytes
is undefined. -/
def extract_files (decoded_data : List Byte) (output_dir : Path) :
    List FileBoundary → Option (List (Path × List Byte))
  | [] => some []
  | b :: rest =>
    if b.start_pos < 0 ∨ b.size < 0 ∨ b.start_pos + b.size > decoded_data.length then none
    else
      (extract_files decoded_data output_dir rest).map fun fs =>
        (output_path output_dir b.filename,
          (decoded_data.drop b.start_pos.toNat).take b.size.toNat) :: fs

/-- The value of the local `encoded_size` that `decompress_file` computes and passes
to `decode_data`. -/
def decompress_encoded_size (file : CompressedFile) : Int :=
  file_size file - sizeof_CompressionHeader - 1024

/-- What `compress_files` leaves behind: the exit status and the container it wrote,
with its path. -/
structure CompressResult where
  status : Int
  written : Option (Path × CompressedFile)
  deriving DecidableEq

/-- `compress_files`. The outer `none` is undefined behaviour. -/
def compress_files (fs : FileSystem) (file_paths : List Path) : Option CompressResult :=
  if file_paths.any (fun p => (fs p).isNone) then some { status := 1, written := none }
  else
    (read_files fs file_paths).bind fun r =>
      let original_size := r.1
      let combined_data := r.2.1
      let boundaries := r.2.2
      if original_size = 0 then some { status := 0, written := none }
      else
        let frequencies := calculate_frequencies combined_data zero_frequencies
        let tree := build_huffman_tree frequencies
        if tree = .null then some { status := 1, written := none }
        else
          (generate_codes tree zero_code_table zero_current_code 0).bind fun g =>
            (encode_data combined_data g.1).bind fun e =>
              if e.encoded_bytes = 0 then some { status := 1, written := none }
              else
                (write_compressed_file e.encoded_data e.encoded_bytes tree e.padding
                  boundaries file_paths.length).map fun file =>
                  { status := 0,
                    written := some (generate_compressed_filename (file_paths.headD []), file) }

/-- What `decompress_file` leaves behind: the exit status and the files it wrote. -/
structure DecompressResult where
  status : Int
  files : List (Path × List Byte)
  deriving DecidableEq

/-- `decompress_file` on the container stored at `compressed_path` (`none` when there
is no such file). The outer `none` is undefined behaviour. -/
def decompress_file (compressed : Option CompressedFile) (output_dir : Path) :
    Option DecompressResult :=
  match compressed with
  | none => some { status := 1, files := [] }
  | some file =>
    (read_compressed_file file).bind fun r =>
      if r.num_files = 0 then some { status := 1, files := [] }
      else
        let encoded_size := decompress_encoded_size file
        (decode_data r.encoded_data encoded_size r.tree r.padding).bind fun decoded =>
          if decoded.length = 0 then some { status := 1, files := [] }
          else
            (extract_files decoded output_dir r.boundaries).map fun fs =>
              { status := 0, files := fs }

/-- The bytes that `serialize_tree` emits for a tree. -/
def tree_bytes : HuffmanNode → List Byte
  | .null => [0]
  | .node c _ l r leaf => if leaf then [1, c] else 2 :: (tree_bytes l ++ tree_bytes r)

/-- The tree that `deserialize_tree` rebuilds: frequencies are 0, a leaf has no
children and an internal node has character 0. -/
def strip : HuffmanNode → HuffmanNode
  | .null => .null
  | .node c _ l r leaf =>
    if leaf then .node c 0 .null .null true else .node 0 0 (strip l) (strip r) false

/-- Two trees have the same left/right shape, the same `is_leaf` flags and the same
character at every leaf. -/
def same_shape : HuffmanNode → HuffmanNode → Prop
  | .null, .null => True
  | .node c1 _ l1 r1 leaf1, .node c2 _ l2 r2 leaf2 =>
    leaf1 = leaf2 ∧ (leaf1 = true → c1 = c2) ∧ same_shape l1 l2 ∧ same_shape r1 r2
  | _, _ => False

/-- Every node flagged `is_leaf` has two null child pointers. -/
def Clean : HuffmanNode → Prop
  | .null => True
  | .node _ _ l r leaf => if leaf then l = .null ∧ r = .null else Clean l ∧ Clean r

/-- The buffer `buf` with the cells from `pos` on overwritten by `xs`. -/
def splice (buf : List Byte) (pos : Nat) (xs : List Byte) : List Byte :=
  buf.take pos ++ xs ++ buf.drop (pos + xs.length)

/-- The cost of giving depth `d s` to every item `(s, w)` of a list of weighted
symbols: the sum of `w * d s`. -/
def depth_cost (L : List (Byte × Int)) (d : Byte → Nat) : Int :=
  (L.map fun x => x.2 * (d x.1 : Int)).sum

/-- The Kraft sum of a depth assignment, scaled by `2 ^ H`. -/
def kraft_sum (L : List (Byte × Int)) (d : Byte → Nat) (H : Nat) : Nat :=
  (L.map fun x => 2 ^ (H - d x.1)).sum

/-- Kraft's inequality for the depths that `d` gives to the symbols of `L`, none of
them above `H`. -/
def Kraft (L : List (Byte × Int)) (d : Byte → Nat) (H : Nat) : Prop :=
  (∀ x ∈ L, d x.1 ≤ H) ∧ kraft_sum L d H ≤ 2 ^ H

/-- The depth assignment `d` with the depths of `a` and `b` exchanged. -/
def swap_depth (d : Byte → Nat) (a b : Byte) : Byte → Nat :=
  fun s => if s = a then d b else if s = b then d a else d s

/-- The weighted path length of a tree: the sum over its leaves of the count of the
leaf symbol times the depth of the leaf. -/
def weighted_path_length (frequencies : Byte → Int) (t : HuffmanNode) : Int :=
  ((paths t).map fun x => frequencies x.1 * (x.2.length : Int)).sum

/-- The sum of the counts of the leaf symbols of a tree. -/
def leaf_weight (frequencies : Byte → Int) (t : HuffmanNode) : Int :=
  ((leaves t).map frequencies).sum

/-- The first leaf symbol of a tree, which stands for the tree among the queued
nodes. -/
def representative (t : HuffmanNode) : Byte := (leaves t).headD 0

/-- The queued nodes as weighted symbols: representative and `frequency`. -/
def items (F : List HuffmanNode) : List (Byte × Int) :=
  F.map fun t => (representative t, t.frequency)

/-- The symbols with a positive count, weighted by their counts. -/
def symbol_items (frequencies : Byte → Int) : List (Byte × Int) :=
  (symbols frequencies).map fun s => (s, frequencies s)

/-- The depth of the leaf of a symbol in a tree. -/
def depth_in (t : HuffmanNode) (c : Byte) : Nat := (path_of t c).length

/-- A lower bound for the queued nodes, taken as weighted symbols, gives a lower bound
for the symbols themselves once the path lengths inside the queued trees are added. -/
def Transfer (frequencies : Byte → Int) (F : List HuffmanNode) : Prop :=
  ∀ c : Int, (∀ d H, Kraft (items F) d H → c ≤ depth_cost (items F) d) →
    ∀ d H, Kraft (symbol_items frequencies) d H →
      c + (F.map (weighted_path_length frequencies)).sum ≤
        depth_cost (symbol_items frequencies) d

/-- The invariant of the merge loop that carries the optimality argument. -/
def OptInv (frequencies : Byte → Int) (F : List HuffmanNode) : Prop :=
  ForestOf frequencies F ∧ (∀ t ∈ F, t.frequency = leaf_weight frequencies t) ∧
    Transfer frequencies F

/-- The check that a decode-alignment error would need: when the cursor is not back at
the root after the last data bit, `decode_data` reports failure by returning 0
bytes. -/
def AlignmentChecked (tree : HuffmanNode) (P : List Byte) (padding : Int) : Prop :=
  ∀ s, decode_stream tree ((P.length : Int) * 8 - padding)
      ((bits_of P).take ((P.length : Int) * 8 - padding).toNat)
      { decoded := [], current_node := tree } = some s →
    s.current_node ≠ tree → decode_data P P.length tree padding = some []

/-- The tree built for the three symbols `A`, `B`, `C` with one occurrence each. -/
def abc_tree : HuffmanNode :=
  build_huffman_tree (calculate_frequencies [65, 66, 67] zero_frequencies)

/-- A file system with the single file `a.txt`, which holds the byte `A`. -/
def single_file_system : FileSystem :=
  fun p => if p = ['a', '.', 't', 'x', 't'] then some [65] else none

/-- A container `a.cmp` that holds the single file `a.txt` with content `A`: the header,
the serialized tree `02 01 41 00` of the single-symbol tree and the packed byte `00`. -/
def single_container : CompressedFile :=
  { header_size := 27224,
    header :=
      { num_files := 1, padding := 7, tree_size := 4, data_size := 1,
        file_boundaries := [{ filename := ['a', '.', 't', 'x', 't'], start_pos := 0, size := 1 }] },
    payload := [2, 1, 65, 0, 0] }

/-- A histogram with the two positive entries `A ↦ 1` and `B ↦ 2`. -/
def pair_histogram : Byte → Int :=
  Function.update (Function.update zero_frequencies 65 1) 66 2

/-- A table in which every symbol has the one-bit code `1`. -/
def one_bit_table : Byte → HuffmanCode :=
  fun _ => { code := ['1', '\x00'], length := 1 }

/-- A histogram with the two positive entries `A ↦ 1` and `B ↦ 2`. -/
def two_symbol_histogram : Byte → Int :=
  Function.update (Function.update zero_frequencies 65 1) 66 2

/-- The number of nodes of a tree that are not flagged `is_leaf`. -/
def internal_nodes : HuffmanNode → Nat
  | .null => 0
  | .node _ _ l r leaf => if leaf then 0 else 1 + internal_nodes l + internal_nodes r

/-- The sizes of the files named by `file_paths`, in order. -/
def file_sizes (fs : FileSystem) (file_paths : List Path) : List Nat :=
  file_paths.map fun p => ((fs p).getD []).length

/-- The boundary entries for the files named by `file_paths` when the first of them
starts at offset `start`: each file starts where the one before it ends. -/
def boundary_table (fs : FileSystem) : List Path → Nat → List FileBoundary
  | [], _ => []
  | p :: rest, start =>
    { filename := (base_name p).take (MAX_FILENAME_LENGTH - 1), start_pos := start,
      size := ((fs p).getD []).length } ::
      boundary_table fs rest (start + ((fs p).getD []).length)

/-- A heap of three leaves with frequencies 1, 3 and 2. -/
def three_heap : MinHeap :=
  { nodes := [create_node 65 1 true, create_node 66 3 true, create_node 67 2 true],
    capacity := 3 }

/-- A container for one file `a.txt` of one byte whose serialized tree is `tree`,
followed by the packed byte 0 with 6 padding bits. -/
def marker_container (tree : List Byte) : CompressedFile :=
  { header_size := 27224,
    header :=
      { num_files := 1, padding := 6, tree_size := tree.length, data_size := 1,
        file_boundaries := [{ filename := ['a', '.', 't', 'x', 't'], start_pos := 0, size := 1 }] },
    payload := tree ++ [0] }

/-- What a rejected truncation would be: `deserialize_tree` returns NULL, the value
that `read_compressed_file` reports as a failed deserialization, without a read
outside the bytes of the buffer. -/
def TruncationRejected (buffer : List Byte) : Prop :=
  ∃ pos, deserialize_tree buffer 0 = some (.null, pos)

/-- A table entry for a file `f` of one byte. -/
def one_boundary : FileBoundary :=
  { filename := ['f'], start_pos := 0, size := 1 }

/-- The tree that `build_huffman_tree` returns for the single symbol `A`. -/
def single_tree : HuffmanNode :=
  .node 0 1 (.node 65 1 .null .null true) .null false

/-- A file system with the empty file `e` and the file `a`, which holds the byte `A`. -/
def empty_first_system : FileSystem :=
  fun p => if p = ['e'] then some [] else if p = ['a'] then some [65] else none

/-- A heap of two leaves with frequencies 2 and 5 and room for a third node. -/
def two_heap : MinHeap :=
  { nodes := [create_node 65 2 true, create_node 66 5 true], capacity := 3 }

/-- Whether the walk of `decode_data` over the given bits, started at the non-leaf
node `current_node`, assigns NULL to `current_node`: each bit moves to the left or
right child, and a child flagged `is_leaf` sends the walk back to the root. -/
def reaches_absent_child (tree : HuffmanNode) : HuffmanNode → List Bool → Bool
  | _, [] => false
  | current_node, bit :: rest =>
    let next := if bit then current_node.right else current_node.left
    if next = .null then true
    else if next.is_leaf then reaches_absent_child tree tree rest
    else reaches_absent_child tree next rest

/-- Every node that is not flagged `is_leaf` has two children, which are such trees
again. -/
def Full : HuffmanNode → Prop
  | .null => False
  | .node _ _ l r leaf => if leaf then True else Full l ∧ Full r

/-- A root with the two leaves `A` (left) and `B` (right). -/
def ab_tree : HuffmanNode :=
  .node 0 2 (.node 65 1 .null .null true) (.node 66 1 .null .null true) false

/-- A tree that is a single leaf `A`, as `deserialize_tree` returns it for the bytes
`01 41`. -/
def leaf_root : HuffmanNode := .node 65 0 .null .null true

/-- The heap of `build_huffman_tree` together with three counters that the C code does
not keep: how many calls of `heap_insert` returned at the test `size >= capacity`
without storing the node, the largest `size` seen after an insertion, and the number
of completed iterations of the merge loop. -/
structure BuildTrace where
  heap : MinHeap
  dropped : Nat
  peak : Nat
  iterations : Nat

/-- `heap_insert` with the counters kept. -/
def heap_insert_traced (t : BuildTrace) (node : HuffmanNode) : BuildTrace :=
  { t with
    heap := heap_insert t.heap node,
    dropped := if t.heap.size ≥ t.heap.capacity then t.dropped + 1 else t.dropped,
    peak := max t.peak (heap_insert t.heap node).size }

/-- The loop that inserts one leaf per symbol with a positive count, with the counters
kept. -/
def insert_leaves_traced (frequencies : Byte → Int) (t : BuildTrace) : BuildTrace :=
  all_bytes.foldl
    (fun t i =>
      if frequencies i > 0 then heap_insert_traced t (create_node i (frequencies i) true)
      else t)
    t

/-- The merge loop `while (heap->size > 1)` of `build_huffman_tree`, with the counters
kept. -/
def merge_loop_traced : Nat → BuildTrace → BuildTrace
  | 0, t => t
  | fuel + 1, t =>
    if t.heap.size > 1 then
      let r1 := heap_extract_min t.heap
      let r2 := heap_extract_min r1.2
      let left := r1.1
      let right := r2.1
      if left = .null ∨ right = .null then { t with heap := r2.2 }
      else
        let merged :=
          HuffmanNode.node 0 (int_add left.frequency right.frequency) left right false
        let t1 := heap_insert_traced { t with heap := r2.2 } merged
        merge_loop_traced fuel { t1 with iterations := t1.iterations + 1 }
    else t

/-- The heap part of `build_huffman_tree` (two or more symbols), with the counters
kept: the heap is created with capacity `char_count`, the leaves are inserted, and the
merge loop runs. -/
def build_trace (frequencies : Byte → Int) : BuildTrace :=
  let char_count := (all_bytes.filter (fun i => frequencies i > 0)).length
  let t := insert_leaves_traced frequencies
    { heap := create_min_heap char_count, dropped := 0, peak := 0, iterations := 0 }
  merge_loop_traced t.heap.size t

/-- A histogram with the four positive entries `0, 1, 2, 3 ↦ 2^30`. -/
def quarter_histogram : Byte → Int :=
  fun c => if c.val < 4 then 1073741824 else 0

theorem swap_nodes_length (l : List HuffmanNode) (a b : Nat) :
    (swap_nodes l a b).length = l.length := by
  simp [swap_nodes]

theorem swap_nodes_eq (l : List HuffmanNode) (a b : Nat) (ha : a < l.length)
    (hb : b < l.length) : swap_nodes l a b = (l.set a l[b]).set b l[a] := by
  unfold swap_nodes
  rw [List.getD_eq_getElem _ _ ha, List.getD_eq_getElem _ _ hb]

theorem swap_nodes_perm (l : List HuffmanNode) (a b : Nat) (ha : a < l.length)
    (hb : b < l.length) : (swap_nodes l a b).Perm l := by
  rw [List.perm_iff_count]
  intro x
  rw [swap_nodes_eq l a b ha hb]
  rw [List.count_set _ _ _ _ (by simpa using hb), List.count_set _ _ _ _ ha]
  have h1 := List.count_pos_iff.2 (List.getElem_mem ha)
  have h2 := List.count_pos_iff.2 (List.getElem_mem hb)
  by_cases hab : a = b
  · subst hab
    simp only [List.getElem_set_self]
    by_cases hx : l[a] = x
    · subst hx; simp
    · simp [hx]
  · rw [List.getElem_set_ne hab]
    by_cases hxa : l[a] = x <;> by_cases hxb : l[b] = x
    · simp [hxa, hxb]; rw [hxa] at h1; omega
    · simp [hxa, hxb]; rw [hxa] at h1; omega
    · simp [hxa, hxb]
    · simp [hxa, hxb]

theorem swap_nodes_getD (l : List HuffmanNode) (a b : Nat) (ha : a < l.length)
    (hb : b < l.length) (i : Nat) :
    (swap_nodes l a b).getD i .null =
      if i = b then l.getD a .null else if i = a then l.getD b .null else l.getD i .null := by
  unfold swap_nodes
  simp only [List.getD_eq_getElem?_getD, List.getElem?_set]
  by_cases h1 : b = i
  · subst h1; simp [ha, hb]
  · by_cases h2 : a = i
    · subst h2; simp [h1, ha, hb, Ne.symm h1]
    · simp [h1, h2, Ne.symm h1, Ne.symm h2]

theorem slot_frequency_swap (l : List HuffmanNode) (a b : Nat) (ha : a < l.length)
    (hb : b < l.length) (i : Nat) :
    slot_frequency (swap_nodes l a b) i =
      if i = b then slot_frequency l a else if i = a then slot_frequency l b
      else slot_frequency l i := by
  unfold slot_frequency
  rw [swap_nodes_getD l a b ha hb]
  split_ifs <;> rfl

theorem heapify_up_fuel_length (fuel : Nat) (l : List HuffmanNode) (index : Nat) :
    (heapify_up_fuel fuel l index).length = l.length := by
  induction fuel generalizing l index with
  | zero => rfl
  | succ n ih =>
    simp only [heapify_up_fuel]
    split_ifs
    · rfl
    · rw [ih, swap_nodes_length]
    · rfl

theorem heapify_up_fuel_perm (fuel : Nat) (l : List HuffmanNode) (index : Nat)
    (h : index < l.length) : (heapify_up_fuel fuel l index).Perm l := by
  induction fuel generalizing l index with
  | zero => exact List.Perm.refl _
  | succ n ih =>
    simp only [heapify_up_fuel]
    split_ifs with h0 h1
    · exact List.Perm.refl _
    · have hp : (index - 1) / 2 < l.length := by omega
      exact (ih _ _ (by rw [swap_nodes_length]; exact hp)).trans
        (swap_nodes_perm l _ _ hp h)
    · exact List.Perm.refl _

theorem heapify_down_smallest_cases (l : List HuffmanNode) (index : Nat) :
    (heapify_down_smallest l index = index ∧
      (2 * index + 1 < l.length →
        slot_frequency l index ≤ slot_frequency l (2 * index + 1)) ∧
      (2 * index + 2 < l.length →
        slot_frequency l index ≤ slot_frequency l (2 * index + 2))) ∨
    (heapify_down_smallest l index = 2 * index + 1 ∧ 2 * index + 1 < l.length ∧
      slot_frequency l (2 * index + 1) < slot_frequency l index ∧
      (2 * index + 2 < l.length →
        slot_frequency l (2 * index + 1) ≤ slot_frequency l (2 * index + 2))) ∨
    (heapify_down_smallest l index = 2 * index + 2 ∧ 2 * index + 2 < l.length ∧
      slot_frequency l (2 * index + 2) < slot_frequency l index ∧
      slot_frequency l (2 * index + 2) ≤ slot_frequency l (2 * index + 1)) := by
  unfold heapify_down_smallest slot_frequency
  simp only
  by_cases h1 : 2 * index + 1 < l.length ∧
      (l.getD (2 * index + 1) .null).frequency < (l.getD index .null).frequency
  · rw [if_pos h1]
    by_cases h2 : 2 * index + 2 < l.length ∧
        (l.getD (2 * index + 2) .null).frequency < (l.getD (2 * index + 1) .null).frequency
    · rw [if_pos h2]
      right; right
      refine ⟨rfl, h2.1, ?_, ?_⟩ <;> omega
    · rw [if_neg h2]
      right; left
      refine ⟨rfl, h1.1, h1.2, ?_⟩
      intro h; by_contra hc; exact h2 ⟨h, by omega⟩
  · rw [if_neg h1]
    by_cases h2 : 2 * index + 2 < l.length ∧
        (l.getD (2 * index + 2) .null).frequency < (l.getD index .null).frequency
    · rw [if_pos h2]
      right; right
      refine ⟨rfl, h2.1, h2.2, ?_⟩
      have : 2 * index + 1 < l.length := by omega
      by_contra hc; exact h1 ⟨this, by omega⟩
    · rw [if_neg h2]
      left
      refine ⟨rfl, ?_, ?_⟩
      · intro h; by_contra hc; exact h1 ⟨h, by omega⟩
      · intro h; by_contra hc; exact h2 ⟨h, by omega⟩

theorem heapify_down_fuel_length (fuel : Nat) (l : List HuffmanNode) (index : Nat) :
    (heapify_down_fuel fuel l index).length = l.length := by
  induction fuel generalizing l index with
  | zero => rfl
  | succ n ih =>
    simp only [heapify_down_fuel]
    split_ifs
    · rw [ih, swap_nodes_length]
    · rfl

theorem heapify_down_fuel_perm (fuel : Nat) (l : List HuffmanNode) (index : Nat)
    (h : index < l.length) : (heapify_down_fuel fuel l index).Perm l := by
  induction fuel generalizing l index with
  | zero => exact List.Perm.refl _
  | succ n ih =>
    simp only [heapify_down_fuel]
    split_ifs with h0
    · rcases heapify_down_smallest_cases l index with hc | hc | hc
      · exact absurd hc.1 h0
      · rw [hc.1]
        exact (ih _ _ (by rw [swap_nodes_length]; exact hc.2.1)).trans
          (swap_nodes_perm l _ _ h hc.2.1)
      · rw [hc.1]
        exact (ih _ _ (by rw [swap_nodes_length]; exact hc.2.1)).trans
          (swap_nodes_perm l _ _ h hc.2.1)
    · exact List.Perm.refl _

theorem heapify_up_fuel_order (fuel : Nat) (l : List HuffmanNode) (index : Nat)
    (hfuel : index ≤ fuel) (hidx : index < l.length)
    (h1 : ∀ i, 0 < i → i < l.length → i ≠ index →
      slot_frequency l ((i - 1) / 2) ≤ slot_frequency l i)
    (h2 : ∀ i, 0 < i → i < l.length → (i - 1) / 2 = index → 0 < index →
      slot_frequency l ((index - 1) / 2) ≤ slot_frequency l i) :
    HeapOrder (heapify_up_fuel fuel l index) := by
  induction fuel generalizing l index with
  | zero =>
    have h0 : index = 0 := by omega
    subst h0
    intro i hi hlen
    exact h1 i hi hlen (by omega)
  | succ n ih =>
    simp only [heapify_up_fuel]
    split_ifs with h0 hgt
    · subst h0
      intro i hi hlen
      exact h1 i hi hlen (by omega)
    · have hp : (index - 1) / 2 < l.length := by omega
      have hpi : (index - 1) / 2 < index := by omega
      apply ih
      · omega
      · rw [swap_nodes_length]; exact hp
      · intro i hi hlen hne
        rw [swap_nodes_length] at hlen
        rw [slot_frequency_swap l _ _ hp hidx, slot_frequency_swap l _ _ hp hidx]
        have hgt' : slot_frequency l index < slot_frequency l ((index - 1) / 2) := hgt
        by_cases hii : i = index
        · subst hii
          rw [if_neg (by omega), if_pos rfl, if_pos rfl]
          omega
        · rw [if_neg hii, if_neg hne]
          have := h1 i hi hlen hii
          by_cases hpa : (i - 1) / 2 = index
          · rw [if_pos hpa]
            exact h2 i hi hlen hpa (by omega)
          · rw [if_neg hpa]
            by_cases hpb : (i - 1) / 2 = (index - 1) / 2
            · rw [if_pos hpb]; rw [hpb] at this; omega
            · rw [if_neg hpb]; exact this
      · intro i hi hlen hpar hpos
        rw [swap_nodes_length] at hlen
        rw [slot_frequency_swap l _ _ hp hidx, slot_frequency_swap l _ _ hp hidx]
        have hgp : slot_frequency l (((index - 1) / 2 - 1) / 2) ≤
            slot_frequency l ((index - 1) / 2) := h1 _ hpos hp (by omega)
        rw [if_neg (by omega), if_neg (by omega)]
        by_cases hii : i = index
        · rw [if_pos hii]; exact hgp
        · rw [if_neg hii, if_neg (by omega)]
          have := h1 i hi hlen hii
          rw [hpar] at this
          omega
    · intro i hi hlen
      by_cases hii : i = index
      · subst hii
        have : ¬ slot_frequency l i < slot_frequency l ((i - 1) / 2) := hgt
        omega
      · exact h1 i hi hlen hii

theorem heapify_down_stop_order (l : List HuffmanNode) (index : Nat)
    (h1 : ∀ i, 0 < i → i < l.length → (i - 1) / 2 ≠ index →
      slot_frequency l ((i - 1) / 2) ≤ slot_frequency l i)
    (hs : heapify_down_smallest l index = index) : HeapOrder l := by
  intro i hi hlen
  by_cases hpar : (i - 1) / 2 = index
  · rcases heapify_down_smallest_cases l index with hc | hc | hc
    · rw [hpar]
      have hi2 : i = 2 * index + 1 ∨ i = 2 * index + 2 := by omega
      rcases hi2 with hi2 | hi2
      · rw [hi2]; exact hc.2.1 (by omega)
      · rw [hi2]; exact hc.2.2 (by omega)
    · omega
    · omega
  · exact h1 i hi hlen hpar

theorem heapify_down_fuel_order (fuel : Nat) (l : List HuffmanNode) (index : Nat)
    (hfuel : l.length ≤ fuel + index)
    (h1 : ∀ i, 0 < i → i < l.length → (i - 1) / 2 ≠ index →
      slot_frequency l ((i - 1) / 2) ≤ slot_frequency l i)
    (h2 : ∀ i, 0 < i → i < l.length → (i - 1) / 2 = index → 0 < index →
      slot_frequency l ((index - 1) / 2) ≤ slot_frequency l i) :
    HeapOrder (heapify_down_fuel fuel l index) := by
  induction fuel generalizing l index with
  | zero =>
    apply heapify_down_stop_order l index h1
    rcases heapify_down_smallest_cases l index with hc | hc | hc
    · exact hc.1
    · omega
    · omega
  | succ n ih =>
    simp only [heapify_down_fuel]
    split_ifs with h0
    · have key : ∀ s, heapify_down_smallest l index = s → s < l.length →
          (s = 2 * index + 1 ∨ s = 2 * index + 2) →
          slot_frequency l s < slot_frequency l index →
          (∀ c, (c = 2 * index + 1 ∨ c = 2 * index + 2) → c < l.length →
            slot_frequency l s ≤ slot_frequency l c) →
          HeapOrder (heapify_down_fuel n (swap_nodes l index s) s) := by
        intro s _ hslen hsc hslt hsmin
        have hidx : index < l.length := by omega
        have hne : s ≠ index := by omega
        have hps : (s - 1) / 2 = index := by omega
        apply ih
        · rw [swap_nodes_length]; omega
        · intro i hi hlen hpar
          rw [swap_nodes_length] at hlen
          rw [slot_frequency_swap l _ _ hidx hslen, slot_frequency_swap l _ _ hidx hslen]
          rw [if_neg hpar]
          by_cases hpi : (i - 1) / 2 = index
          · rw [if_pos hpi]
            by_cases his : i = s
            · rw [if_pos his]; omega
            · rw [if_neg his, if_neg (by omega)]
              exact hsmin i (by omega) hlen
          · rw [if_neg hpi]
            have hisne : i ≠ s := by
              intro h; rw [h] at hpi; exact hpi hps
            rw [if_neg hisne]
            by_cases hii : i = index
            · rw [if_pos hii]
              have := h2 s (by omega) hslen hps (by omega)
              rw [hii]; exact this
            · rw [if_neg hii]
              exact h1 i hi hlen hpi
        · intro i hi hlen hpar _
          rw [swap_nodes_length] at hlen
          rw [slot_frequency_swap l _ _ hidx hslen, slot_frequency_swap l _ _ hidx hslen]
          rw [hps, if_neg (Ne.symm hne), if_pos rfl, if_neg (by omega), if_neg (by omega)]
          have := h1 i hi hlen (by omega)
          rw [hpar] at this
          exact this
      rcases heapify_down_smallest_cases l index with hc | hc | hc
      · exact absurd hc.1 h0
      · rw [hc.1]
        apply key _ hc.1 hc.2.1 (Or.inl rfl) hc.2.2.1
        intro c hcc hclen
        rcases hcc with hcc | hcc
        · rw [hcc]
        · rw [hcc]; exact hc.2.2.2 (by omega)
      · rw [hc.1]
        apply key _ hc.1 hc.2.1 (Or.inr rfl) hc.2.2.1
        intro c hcc hclen
        rcases hcc with hcc | hcc
        · rw [hcc]; exact hc.2.2.2
        · rw [hcc]
    · exact heapify_down_stop_order l index h1 (not_not.1 h0)

theorem HeapOrder.root_le {l : List HuffmanNode} (h : HeapOrder l) (i : Nat)
    (hi : i < l.length) : slot_frequency l 0 ≤ slot_frequency l i := by
  induction i using Nat.strong_induction_on with
  | _ i ih =>
    by_cases h0 : i = 0
    · subst h0; exact le_refl _
    · have := h i (by omega) hi
      have := ih ((i - 1) / 2) (by omega) (by omega)
      omega

theorem slot_frequency_append_left (l : List HuffmanNode) (x : HuffmanNode) (i : Nat)
    (hi : i < l.length) : slot_frequency (l ++ [x]) i = slot_frequency l i := by
  unfold slot_frequency
  simp [List.getD_eq_getElem?_getD, List.getElem?_append_left hi]

theorem heapify_up_append_order (l : List HuffmanNode) (x : HuffmanNode)
    (h : HeapOrder l) : HeapOrder (heapify_up (l ++ [x]) l.length) := by
  unfold heapify_up
  apply heapify_up_fuel_order
  · exact le_refl _
  · simp
  · intro i hi hlen hne
    have hlt : i < l.length := by simp at hlen; omega
    rw [slot_frequency_append_left l x i hlt,
      slot_frequency_append_left l x _ (by omega)]
    exact h i hi hlt
  · intro i hi hlen hpar _
    simp at hlen
    omega

theorem heapify_up_append_perm (l : List HuffmanNode) (x : HuffmanNode) :
    (heapify_up (l ++ [x]) l.length).Perm (x :: l) := by
  unfold heapify_up
  refine (heapify_up_fuel_perm _ _ _ (by simp)).trans ?_
  exact List.perm_append_comm

theorem heap_insert_full (heap : MinHeap) (x : HuffmanNode)
    (h : heap.capacity ≤ heap.size) : heap_insert heap x = heap := by
  unfold heap_insert
  rw [if_pos h]

theorem heap_insert_capacity (heap : MinHeap) (x : HuffmanNode) :
    (heap_insert heap x).capacity = heap.capacity := by
  unfold heap_insert
  split_ifs <;> rfl

theorem heap_insert_perm (heap : MinHeap) (x : HuffmanNode)
    (h : heap.size < heap.capacity) : (heap_insert heap x).nodes.Perm (x :: heap.nodes) := by
  unfold heap_insert
  rw [if_neg (by omega)]
  exact heapify_up_append_perm heap.nodes x

theorem heap_insert_order (heap : MinHeap) (x : HuffmanNode)
    (h : HeapOrder heap.nodes) : HeapOrder (heap_insert heap x).nodes := by
  unfold heap_insert
  split_ifs
  · exact h
  · exact heapify_up_append_order heap.nodes x h

theorem heap_insert_size (heap : MinHeap) (x : HuffmanNode)
    (h : heap.size < heap.capacity) : (heap_insert heap x).size = heap.size + 1 := by
  have := (heap_insert_perm heap x h).length_eq
  simpa [MinHeap.size] using this

theorem heap_extract_min_empty (heap : MinHeap) (h : heap.size = 0) :
    heap_extract_min heap = (.null, heap) := by
  unfold heap_extract_min
  rw [if_pos h]

theorem heap_extract_min_capacity (heap : MinHeap) :
    (heap_extract_min heap).2.capacity = heap.capacity := by
  unfold heap_extract_min
  split_ifs <;> rfl

theorem heap_extract_min_fst (heap : MinHeap) (h : 0 < heap.size) :
    (heap_extract_min heap).1 = heap.nodes.getD 0 .null := by
  unfold heap_extract_min
  rw [if_neg (by omega)]

theorem extract_shrink_getD (l : List HuffmanNode) (v : HuffmanNode) (j : Nat)
    (h0 : 0 < j) (hj : j < l.length - 1) :
    ((l.set 0 v).dropLast).getD j .null = l.getD j .null := by
  simp only [List.getD_eq_getElem?_getD, List.dropLast_eq_take, List.length_set]
  rw [List.getElem?_take_of_lt hj, List.getElem?_set_ne (by omega)]

theorem extract_shrink_perm (l : List HuffmanNode) (h : 0 < l.length) :
    l.Perm (l.getD 0 .null :: (l.set 0 (l.getD (l.length - 1) .null)).dropLast) := by
  match l, h with
  | [x], _ => simp
  | x :: y :: rest, _ =>
    have hlast : (x :: y :: rest).getD ((x :: y :: rest).length - 1) .null =
        (y :: rest).getLast (by simp) := by
      rw [List.getD_eq_getElem _ _ (by simp)]
      simp [List.getLast_eq_getElem]
    rw [hlast]
    simp only [List.set_cons_zero, List.getD_cons_zero]
    rw [List.dropLast_cons_of_ne_nil (by simp)]
    refine List.Perm.cons x ?_
    have := List.dropLast_append_getLast (l := y :: rest) (by simp)
    conv_lhs => rw [← this]
    exact List.perm_append_comm

theorem heap_extract_min_perm (heap : MinHeap) (h : 0 < heap.size) :
    heap.nodes.Perm ((heap_extract_min heap).1 :: (heap_extract_min heap).2.nodes) := by
  unfold heap_extract_min
  rw [if_neg (by omega)]
  simp only
  refine (extract_shrink_perm heap.nodes h).trans (List.Perm.cons _ ?_)
  split_ifs with hl
  · exact (heapify_down_fuel_perm _ _ _ hl).symm
  · exact List.Perm.refl _

theorem heap_extract_min_size (heap : MinHeap) (h : 0 < heap.size) :
    (heap_extract_min heap).2.size + 1 = heap.size := by
  have := (heap_extract_min_perm heap h).length_eq
  simp [MinHeap.size] at this ⊢
  omega

theorem heap_extract_min_order (heap : MinHeap) (h : HeapOrder heap.nodes) :
    HeapOrder (heap_extract_min heap).2.nodes := by
  unfold heap_extract_min
  split_ifs with h0
  · exact h
  · simp only
    split_ifs with hl
    · unfold heapify_down
      have hlen : ((heap.nodes.set 0 (heap.nodes.getD (heap.size - 1) .null)).dropLast).length
          = heap.nodes.length - 1 := by simp
      apply heapify_down_fuel_order
      · omega
      · intro i hi hilen hpar
        rw [hlen] at hilen
        unfold slot_frequency
        rw [extract_shrink_getD _ _ i hi hilen,
          extract_shrink_getD _ _ ((i - 1) / 2) (by omega) (by omega)]
        exact h i hi (by omega)
      · intro i _ _ _ hpos
        omega
    · intro i hi hilen
      omega

theorem heap_extract_min_le (heap : MinHeap) (h : HeapOrder heap.nodes)
    (x : HuffmanNode) (hx : x ∈ heap.nodes) :
    (heap_extract_min heap).1.frequency ≤ x.frequency := by
  have hpos : 0 < heap.size := List.length_pos_of_mem hx
  rw [heap_extract_min_fst heap hpos]
  obtain ⟨i, hi, rfl⟩ := List.getElem_of_mem hx
  have := h.root_le i hi
  unfold slot_frequency at this
  rwa [List.getD_eq_getElem _ _ hi] at this

theorem insert_leaves_fold (frequencies : Byte → Int) (xs : List Byte) (heap : MinHeap)
    (hcap : heap.size + (xs.filter (fun i => frequencies i > 0)).length ≤ heap.capacity) :
    ((xs.foldl
      (fun h i =>
        if frequencies i > 0 then heap_insert h (create_node i (frequencies i) true) else h)
      heap).nodes.Perm
        (((xs.filter (fun i => frequencies i > 0)).map
          (fun i => create_node i (frequencies i) true)).reverse ++ heap.nodes)) ∧
    (xs.foldl
      (fun h i =>
        if frequencies i > 0 then heap_insert h (create_node i (frequencies i) true) else h)
      heap).capacity = heap.capacity ∧
    (HeapOrder heap.nodes → HeapOrder (xs.foldl
      (fun h i =>
        if frequencies i > 0 then heap_insert h (create_node i (frequencies i) true) else h)
      heap).nodes) := by
  induction xs generalizing heap with
  | nil => simp
  | cons x xs ih =>
    simp only [List.foldl_cons]
    by_cases hx : frequencies x > 0
    · rw [if_pos hx]
      have hf : (x :: xs).filter (fun i => decide (frequencies i > 0)) =
          x :: xs.filter (fun i => decide (frequencies i > 0)) := by
        simp [List.filter_cons, hx]
      rw [hf] at hcap ⊢
      simp only [List.length_cons] at hcap
      have hlt : heap.size < heap.capacity := by omega
      have hsz := heap_insert_size heap (create_node x (frequencies x) true) hlt
      have hcp := heap_insert_capacity heap (create_node x (frequencies x) true)
      obtain ⟨h1, h2, h3⟩ := ih (heap_insert heap (create_node x (frequencies x) true))
        (by rw [hsz, hcp]; omega)
      refine ⟨?_, ?_, ?_⟩
      · refine h1.trans ?_
        simp only [List.map_cons, List.reverse_cons, List.append_assoc, List.singleton_append]
        exact List.Perm.append_left _ (heap_insert_perm heap _ hlt)
      · rw [h2, hcp]
      · intro ho
        exact h3 (heap_insert_order heap _ ho)
    · rw [if_neg hx]
      have hf : (x :: xs).filter (fun i => decide (frequencies i > 0)) =
          xs.filter (fun i => decide (frequencies i > 0)) := by
        simp [List.filter_cons, hx]
      rw [hf] at hcap ⊢
      exact ih heap hcap

theorem HeapOrder_nil : HeapOrder [] := by
  intro i _ h
  simp at h

theorem insert_leaves_spec (frequencies : Byte → Int) :
    (insert_leaves frequencies (create_min_heap (symbols frequencies).length)).nodes.Perm
      ((symbols frequencies).map (fun i => create_node i (frequencies i) true)) ∧
    (insert_leaves frequencies (create_min_heap (symbols frequencies).length)).capacity =
      (symbols frequencies).length ∧
    HeapOrder (insert_leaves frequencies (create_min_heap (symbols frequencies).length)).nodes := by
  generalize hS : symbols frequencies = S
  unfold insert_leaves
  unfold symbols at hS
  generalize all_bytes = L at hS ⊢
  have h := insert_leaves_fold frequencies L (create_min_heap S.length)
    (by
      rw [hS]
      simp only [create_min_heap, MinHeap.size, List.length_nil]
      omega)
  rw [hS] at h
  obtain ⟨h1, h2, h3⟩ := h
  refine ⟨h1.trans ?_, h2, h3 HeapOrder_nil⟩
  simp only [create_min_heap, List.append_nil]
  exact List.reverse_perm _

/-- One completed iteration of the merge loop, on the multiset of queued nodes. -/
theorem merge_loop_with_invariant (add : Int → Int → Int) (I : List HuffmanNode → Prop)
    (hperm : ∀ F G, F.Perm G → I F → I G)
    (hnonnull : ∀ F, I F → ∀ t ∈ F, t ≠ HuffmanNode.null)
    (hstep : ∀ a b R, I (a :: b :: R) →
      (∀ x ∈ a :: b :: R, a.frequency ≤ x.frequency) →
      (∀ x ∈ b :: R, b.frequency ≤ x.frequency) →
      I (HuffmanNode.node 0 (add a.frequency b.frequency) a b false :: R))
    (fuel : Nat) (heap : MinHeap) (hfuel : heap.size ≤ fuel + 1)
    (hcap : heap.size ≤ heap.capacity) (hord : HeapOrder heap.nodes) (hI : I heap.nodes)
    (hpos : 0 < heap.size) :
    ∃ t, (merge_loop_with add fuel heap).nodes = [t] ∧ I [t] := by
  induction fuel generalizing heap with
  | zero =>
    have h1 : heap.nodes.length = 1 := by simp [MinHeap.size] at *; omega
    obtain ⟨t, ht⟩ := List.length_eq_one.1 h1
    exact ⟨t, by simp [merge_loop_with, ht], ht ▸ hI⟩
  | succ n ih =>
    unfold merge_loop_with
    by_cases hsz : heap.size > 1
    · rw [if_pos hsz]
      simp only
      have hp1 := heap_extract_min_perm heap (by omega)
      have hs1 := heap_extract_min_size heap (by omega)
      have ho1 := heap_extract_min_order heap hord
      have hc1 := heap_extract_min_capacity heap
      have hle1 := heap_extract_min_le heap hord
      have hp2 := heap_extract_min_perm (heap_extract_min heap).2 (by omega)
      have hs2 := heap_extract_min_size (heap_extract_min heap).2 (by omega)
      have ho2 := heap_extract_min_order _ ho1
      have hc2 := heap_extract_min_capacity (heap_extract_min heap).2
      have hle2 := heap_extract_min_le _ ho1
      generalize heap_extract_min heap = r1 at *
      generalize heap_extract_min r1.2 = r2 at *
      have hperm2 : heap.nodes.Perm (r1.1 :: r2.1 :: r2.2.nodes) :=
        hp1.trans (List.Perm.cons _ hp2)
      have hI2 := hperm _ _ hperm2 hI
      have hn1 := hnonnull _ hI2 r1.1 (by simp)
      have hn2 := hnonnull _ hI2 r2.1 (by simp)
      rw [if_neg (by simp [hn1, hn2])]
      have hlt : r2.2.size < r2.2.capacity := by omega
      have hins := heap_insert_perm r2.2 (HuffmanNode.node 0 (add r1.1.frequency r2.1.frequency)
        r1.1 r2.1 false) hlt
      apply ih
      · rw [heap_insert_size _ _ hlt]; omega
      · rw [heap_insert_size _ _ hlt, heap_insert_capacity]; omega
      · exact heap_insert_order _ _ ho2
      · apply hperm _ _ hins.symm
        apply hstep r1.1 r2.1 r2.2.nodes hI2
        · intro x hx
          exact hle1 x (hperm2.mem_iff.2 hx)
        · intro x hx
          exact hle2 x (hp2.mem_iff.2 hx)
      · rw [heap_insert_size _ _ hlt]; omega
    · rw [if_neg hsz]
      have h1 : heap.nodes.length = 1 := by simp [MinHeap.size] at *; omega
      obtain ⟨t, ht⟩ := List.length_eq_one.1 h1
      exact ⟨t, ht, ht ▸ hI⟩

/-- The invariant rule for the merge loop of `build_huffman_tree`. -/
theorem merge_loop_invariant (I : List HuffmanNode → Prop)
    (hperm : ∀ F G, F.Perm G → I F → I G)
    (hnonnull : ∀ F, I F → ∀ t ∈ F, t ≠ HuffmanNode.null)
    (hstep : ∀ a b R, I (a :: b :: R) →
      (∀ x ∈ a :: b :: R, a.frequency ≤ x.frequency) →
      (∀ x ∈ b :: R, b.frequency ≤ x.frequency) → I (merge_nodes_int a b :: R))
    (fuel : Nat) (heap : MinHeap) (hfuel : heap.size ≤ fuel + 1)
    (hcap : heap.size ≤ heap.capacity) (hord : HeapOrder heap.nodes) (hI : I heap.nodes)
    (hpos : 0 < heap.size) :
    ∃ t, (merge_loop fuel heap).nodes = [t] ∧ I [t] :=
  merge_loop_with_invariant int_add I hperm hnonnull hstep fuel heap hfuel hcap hord hI hpos

theorem find_symbols (frequencies : Byte → Int) :
    all_bytes.find? (fun i => frequencies i > 0) = (symbols frequencies).head? := by
  unfold symbols
  generalize all_bytes = L
  induction L with
  | nil => rfl
  | cons x xs ih =>
    by_cases hx : frequencies x > 0
    · simp only [List.find?_cons, List.filter_cons, hx, decide_True, if_true, List.head?_cons]
    · simp only [List.find?_cons, List.filter_cons, hx, decide_False]
      exact ih

theorem build_huffman_tree_with_none (add : Int → Int → Int) (frequencies : Byte → Int)
    (h : symbols frequencies = []) : build_huffman_tree_with add frequencies = .null := by
  unfold build_huffman_tree_with
  unfold symbols at h
  rw [h]
  rfl

theorem build_huffman_tree_with_single (add : Int → Int → Int) (frequencies : Byte → Int)
    (s : Byte)
    (h : symbols frequencies = [s]) :
    build_huffman_tree_with add frequencies =
      .node 0 (frequencies s) (create_node s (frequencies s) true) .null false := by
  unfold build_huffman_tree_with
  rw [find_symbols, h]
  unfold symbols at h
  rw [h]
  rfl

theorem build_huffman_tree_with_invariant (add : Int → Int → Int)
    (I : List HuffmanNode → Prop)
    (hperm : ∀ F G, F.Perm G → I F → I G)
    (hnonnull : ∀ F, I F → ∀ t ∈ F, t ≠ HuffmanNode.null)
    (hstep : ∀ a b R, I (a :: b :: R) →
      (∀ x ∈ a :: b :: R, a.frequency ≤ x.frequency) →
      (∀ x ∈ b :: R, b.frequency ≤ x.frequency) →
      I (HuffmanNode.node 0 (add a.frequency b.frequency) a b false :: R))
    (frequencies : Byte → Int) (h2 : 2 ≤ (symbols frequencies).length)
    (hI : I ((symbols frequencies).map (fun i => create_node i (frequencies i) true))) :
    I [build_huffman_tree_with add frequencies] := by
  unfold build_huffman_tree_with
  have hs : (all_bytes.filter (fun i => decide (frequencies i > 0))) = symbols frequencies := rfl
  rw [hs]
  simp only []
  rw [if_neg (by omega), if_neg (by omega)]
  simp only []
  obtain ⟨hp, hc, ho⟩ := insert_leaves_spec frequencies
  generalize insert_leaves frequencies (create_min_heap (symbols frequencies).length) = heap at *
  have hsz : heap.size = (symbols frequencies).length := by
    have := hp.length_eq
    simpa [MinHeap.size] using this
  obtain ⟨t, ht, hIt⟩ := merge_loop_with_invariant add I hperm hnonnull hstep heap.size heap
    (by omega) (by omega) ho (hperm _ _ hp.symm hI) (by omega)
  have hpos : (merge_loop_with add heap.size heap).size > 0 := by
    unfold MinHeap.size at *
    rw [ht]
    exact Nat.one_pos
  rw [if_pos hpos, ht]
  exact hIt

theorem build_huffman_tree_none (frequencies : Byte → Int)
    (h : symbols frequencies = []) : build_huffman_tree frequencies = .null :=
  build_huffman_tree_with_none int_add frequencies h

theorem build_huffman_tree_single (frequencies : Byte → Int) (s : Byte)
    (h : symbols frequencies = [s]) :
    build_huffman_tree frequencies =
      .node 0 (frequencies s) (create_node s (frequencies s) true) .null false :=
  build_huffman_tree_with_single int_add frequencies s h

/-- The invariant rule for `build_huffman_tree` on two or more symbols. -/
theorem build_huffman_tree_invariant (I : List HuffmanNode → Prop)
    (hperm : ∀ F G, F.Perm G → I F → I G)
    (hnonnull : ∀ F, I F → ∀ t ∈ F, t ≠ HuffmanNode.null)
    (hstep : ∀ a b R, I (a :: b :: R) →
      (∀ x ∈ a :: b :: R, a.frequency ≤ x.frequency) →
      (∀ x ∈ b :: R, b.frequency ≤ x.frequency) → I (merge_nodes_int a b :: R))
    (frequencies : Byte → Int) (h2 : 2 ≤ (symbols frequencies).length)
    (hI : I ((symbols frequencies).map (fun i => create_node i (frequencies i) true))) :
    I [build_huffman_tree frequencies] :=
  build_huffman_tree_with_invariant int_add I hperm hnonnull hstep frequencies h2 hI

/-- The invariant rule for `build_huffman_tree_unbounded` on two or more symbols. -/
theorem build_huffman_tree_unbounded_invariant (I : List HuffmanNode → Prop)
    (hperm : ∀ F G, F.Perm G → I F → I G)
    (hnonnull : ∀ F, I F → ∀ t ∈ F, t ≠ HuffmanNode.null)
    (hstep : ∀ a b R, I (a :: b :: R) →
      (∀ x ∈ a :: b :: R, a.frequency ≤ x.frequency) →
      (∀ x ∈ b :: R, b.frequency ≤ x.frequency) → I (merge_nodes a b :: R))
    (frequencies : Byte → Int) (h2 : 2 ≤ (symbols frequencies).length)
    (hI : I ((symbols frequencies).map (fun i => create_node i (frequencies i) true))) :
    I [build_huffman_tree_unbounded frequencies] :=
  build_huffman_tree_with_invariant (fun a b => a + b) I hperm hnonnull hstep frequencies h2 hI

theorem all_bytes_nodup : all_bytes.Nodup := by
  unfold all_bytes
  exact List.nodup_finRange 256

theorem mem_all_bytes (b : Byte) : b ∈ all_bytes := by
  unfold all_bytes
  exact List.mem_finRange b

theorem symbols_nodup (frequencies : Byte → Int) : (symbols frequencies).Nodup :=
  all_bytes_nodup.filter _

theorem mem_symbols (frequencies : Byte → Int) (b : Byte) :
    b ∈ symbols frequencies ↔ frequencies b > 0 := by
  unfold symbols
  simp [mem_all_bytes]

theorem Proper.ne_null {t : HuffmanNode} (h : Proper t) : t ≠ .null := by
  intro h0
  subst h0
  exact h

theorem leaves_merge_nodes (a b : HuffmanNode) :
    leaves (merge_nodes a b) = leaves a ++ leaves b := by
  simp [merge_nodes, leaves]

theorem ForestOf.perm {frequencies : Byte → Int} {F G : List HuffmanNode}
    (hp : F.Perm G) (h : ForestOf frequencies F) : ForestOf frequencies G :=
  ⟨fun t ht => h.1 t (hp.mem_iff.2 ht), (hp.symm.flatMap_right leaves).trans h.2⟩

/-- Merging the first two trees of a forest under a new root, whatever frequency the
root gets, keeps the forest well shaped with the same leaves. -/
theorem ForestOf.step_node {frequencies : Byte → Int} {a b : HuffmanNode}
    {R : List HuffmanNode} (w : Int) (h : ForestOf frequencies (a :: b :: R)) :
    ForestOf frequencies (HuffmanNode.node 0 w a b false :: R) := by
  refine ⟨?_, ?_⟩
  · intro t ht
    rcases List.mem_cons.1 ht with rfl | ht
    · exact ⟨rfl, h.1 a (by simp), h.1 b (by simp)⟩
    · exact h.1 t (by simp [ht])
  · have := h.2
    simpa [List.flatMap_cons, leaves, List.append_assoc] using this

theorem ForestOf.step {frequencies : Byte → Int} {a b : HuffmanNode} {R : List HuffmanNode}
    (h : ForestOf frequencies (a :: b :: R)) : ForestOf frequencies (merge_nodes a b :: R) :=
  h.step_node (a.frequency + b.frequency)

theorem ForestOf.init (frequencies : Byte → Int) :
    ForestOf frequencies
      ((symbols frequencies).map (fun i => create_node i (frequencies i) true)) := by
  refine ⟨?_, ?_⟩
  · intro t ht
    obtain ⟨i, _, rfl⟩ := List.mem_map.1 ht
    exact ⟨rfl, rfl⟩
  · generalize symbols frequencies = S
    induction S with
    | nil => exact List.Perm.refl _
    | cons x xs ih =>
      simp only [List.map_cons, List.flatMap_cons]
      exact List.Perm.cons x ih

/-- For two or more symbols the tree is well shaped and its leaves are the symbols
with a positive count, whatever addition the merge loop uses. -/
theorem build_huffman_tree_with_forest (add : Int → Int → Int) (frequencies : Byte → Int)
    (h2 : 2 ≤ (symbols frequencies).length) :
    Proper (build_huffman_tree_with add frequencies) ∧
      (leaves (build_huffman_tree_with add frequencies)).Perm (symbols frequencies) := by
  have h := build_huffman_tree_with_invariant add (ForestOf frequencies)
    (fun _ _ hp h => h.perm hp) (fun _ h t ht => (h.1 t ht).ne_null)
    (fun _ _ _ h _ _ => h.step_node _) frequencies h2 (ForestOf.init frequencies)
  refine ⟨h.1 _ (by simp), ?_⟩
  simpa using h.2

/-- For two or more symbols the tree is well shaped and its leaves are the symbols
with a positive count. -/
theorem build_huffman_tree_forest (frequencies : Byte → Int)
    (h2 : 2 ≤ (symbols frequencies).length) :
    Proper (build_huffman_tree frequencies) ∧
      (leaves (build_huffman_tree frequencies)).Perm (symbols frequencies) :=
  build_huffman_tree_with_forest int_add frequencies h2

theorem leaves_length_pos {t : HuffmanNode} (h : Proper t) : 0 < (leaves t).length := by
  induction t with
  | null => exact absurd h id
  | node c f l r leaf ihl _ =>
    cases leaf with
    | true => simp [leaves]
    | false =>
      have hl := ihl h.2.1
      simp [leaves]
      omega

theorem height_lt_leaves {t : HuffmanNode} (h : Proper t) : height t < (leaves t).length := by
  induction t with
  | null => exact absurd h id
  | node c f l r leaf ihl ihr =>
    cases leaf with
    | true => simp [leaves, height]
    | false =>
      have hl := ihl h.2.1
      have hr := ihr h.2.2
      have pl := leaves_length_pos h.2.1
      have pr := leaves_length_pos h.2.2
      simp only [leaves, height, Bool.false_eq_true, if_false, List.length_append]
      omega

theorem nodup_bytes_length {l : List Byte} (h : l.Nodup) : l.length ≤ 256 := by
  have := h.length_le_card
  rw [Fintype.card_fin] at this
  exact this

theorem paths_fst (t : HuffmanNode) : (paths t).map Prod.fst = leaves t := by
  induction t with
  | null => rfl
  | node c f l r leaf ihl ihr =>
    cases leaf with
    | true => simp [paths, leaves]
    | false => simp [paths, leaves, ← ihl, ← ihr, Function.comp_def]

theorem bit_char_ne_nul (b : Bool) : bit_char b ≠ '\x00' := by
  cases b <;> decide

theorem store_eq {α : Type} (buf : List α) (i : Nat) (v : α) (h : i < buf.length) :
    store buf i v = some (buf.set i v) := by
  unfold store
  rw [if_pos h]

theorem takeWhile_code_chars (p : List Bool) (rest : List Char) :
    (code_chars p ++ '\x00' :: rest).takeWhile (fun c => c ≠ '\x00') = code_chars p := by
  induction p with
  | nil => simp [code_chars]
  | cons b p ih =>
    have hb := bit_char_ne_nul b
    simp only [code_chars, List.map_cons, List.cons_append] at ih ⊢
    rw [List.takeWhile_cons_of_pos (by simpa using hb), ih]

theorem c_string_code_chars (p : List Bool) (rest : List Char) :
    c_string (code_chars p ++ '\x00' :: rest) = some (code_chars p) := by
  unfold c_string
  simp only [takeWhile_code_chars]
  rw [if_pos (by simp)]

theorem Scratch.split {cc : List Char} {d : Nat} {p : List Bool} (h : Scratch cc d p) :
    cc = code_chars p ++ '\x00' :: cc.drop (d + 1) := by
  obtain ⟨_, _, h3, h4⟩ := h
  have hd : d < cc.length := by
    rcases Nat.lt_or_ge d cc.length with hlt | hge
    · exact hlt
    · rw [List.getElem?_eq_none hge] at h4; cases h4
  have h5 : cc[d] = '\x00' := by
    rw [List.getElem?_eq_getElem hd] at h4
    exact Option.some.inj h4
  conv_lhs => rw [← List.take_append_drop d cc]
  rw [h3, List.drop_eq_getElem_cons hd, h5]

theorem Scratch.c_string {cc : List Char} {d : Nat} {p : List Bool} (h : Scratch cc d p) :
    c_string cc = some (code_chars p) := by
  rw [h.split]
  exact c_string_code_chars p _

theorem Scratch.lt {cc : List Char} {d : Nat} {p : List Bool} (h : Scratch cc d p) :
    d < 256 := by
  obtain ⟨h1, _, _, h4⟩ := h
  rcases Nat.lt_or_ge d cc.length with hlt | hge
  · omega
  · rw [List.getElem?_eq_none hge] at h4; cases h4

theorem take_set_of_le {α : Type} (l : List α) (n m : Nat) (a : α) (h : m ≤ n) :
    (l.set n a).take m = l.take m := by
  apply List.ext_getElem?
  intro i
  rw [List.getElem?_take, List.getElem?_take]
  split_ifs with hi
  · rw [List.getElem?_set_ne (by omega)]
  · rfl

theorem Scratch.descend {cc : List Char} {d : Nat} {p : List Bool} (b : Bool)
    (hlen : cc.length = 256) (hp : p.length = d) (htake : cc.take d = code_chars p)
    (hd : d + 1 < 256) :
    Scratch ((cc.set d (bit_char b)).set (d + 1) '\x00') (d + 1) (p ++ [b]) := by
  refine ⟨by simp [hlen], by simp [hp], ?_, ?_⟩
  · rw [take_set_of_le _ _ _ _ (le_refl _), List.take_succ, take_set_of_le _ _ _ _ (le_refl _),
      htake, List.getElem?_set_self (by omega)]
    simp [code_chars]
  · rw [List.getElem?_set_self (by simp [hlen]; omega)]

theorem Scratch.ascend {cc : List Char} {d : Nat} {p : List Bool} {b : Bool}
    (h : Scratch cc (d + 1) (p ++ [b])) :
    cc.length = 256 ∧ p.length = d ∧ cc.take d = code_chars p := by
  obtain ⟨h1, h2, h3, _⟩ := h
  refine ⟨h1, by simpa using h2, ?_⟩
  have : (cc.take (d + 1)).take d = (code_chars (p ++ [b])).take d := by rw [h3]
  rw [List.take_take, Nat.min_eq_left (Nat.le_succ d)] at this
  rw [this]
  have hp : p.length = d := by simpa using h2
  simp [code_chars, List.take_append_eq_append_take, hp]

theorem Scratch.close {cc : List Char} {d : Nat} {p : List Bool}
    (hlen : cc.length = 256) (hp : p.length = d) (htake : cc.take d = code_chars p)
    (hd : d < 256) : Scratch (cc.set d '\x00') d p := by
  refine ⟨by simp [hlen], hp, ?_, ?_⟩
  · rw [take_set_of_le _ _ _ _ (le_refl _), htake]
  · rw [List.getElem?_set_self (by omega)]

theorem strcpy_scratch (dst cc : List Char) (d : Nat) (p : List Bool)
    (h : Scratch cc d p) (hdst : dst.length = 256) :
    ∃ r, strcpy dst cc = some r ∧ r.length = 256 ∧ c_string r = some (code_chars p) := by
  have hd := h.lt
  have hpl : (code_chars p).length = d := by simp [code_chars, h.2.1]
  unfold strcpy
  rw [h.c_string]
  simp only
  rw [if_pos (by rw [hpl, hdst]; omega)]
  refine ⟨_, rfl, ?_, c_string_code_chars p _⟩
  simp [hpl, hdst]
  omega

theorem generate_codes_descend (child : HuffmanNode) (hchild : GenSpec child) (b : Bool)
    (codes : Byte → HuffmanCode) (cc : List Char) (d : Nat) (p : List Bool)
    (hlen : cc.length = 256) (hp : p.length = d) (htake : cc.take d = code_chars p)
    (hd : d + 1 + height child ≤ 255) (hcodes : ∀ c, (codes c).code.length = 256)
    (hnd : (leaves child).Nodup) :
    ∃ codes' cc',
      ((store cc d (bit_char b)).bind fun b1 =>
        (store b1 (d + 1) '\x00').bind fun b2 =>
          generate_codes child codes b2 (d + 1)) = some (codes', cc') ∧
      cc'.length = 256 ∧ cc'.take d = code_chars p ∧
      (∀ c, (codes' c).code.length = 256) ∧
      (∀ c, c ∉ leaves child → codes' c = codes c) ∧
      (∀ c q, (c, q) ∈ paths child →
        c_string (codes' c).code = some (code_chars (p ++ b :: q)) ∧
        (codes' c).length = d + (q.length + 1)) := by
  rw [store_eq _ _ _ (by omega)]
  simp only [Option.some_bind]
  rw [store_eq _ _ _ (by simp [hlen]; omega)]
  simp only [Option.some_bind]
  have hs := Scratch.descend b hlen hp htake (by omega)
  obtain ⟨codes', cc', heq, hsc, hl, hout, hin⟩ :=
    hchild codes _ (d + 1) (p ++ [b]) hs (by omega) hcodes (fun _ => by omega) hnd
  obtain ⟨a1, a2, a3⟩ := hsc.ascend
  refine ⟨codes', cc', heq, a1, a3, hl, hout, ?_⟩
  intro c q hq
  have := hin c q hq
  simpa [List.append_assoc, Nat.add_assoc, Nat.add_comm 1] using this

theorem generate_codes_spec (t : HuffmanNode) : GenSpec t := by
  induction t with
  | null =>
    intro codes cc d p hs _ hcodes _ _
    exact ⟨codes, cc, by rw [generate_codes], hs, hcodes, fun _ _ => rfl, fun c q hq => by simp [paths] at hq⟩
  | node ch f l r leaf ihl ihr =>
    intro codes cc d p hs hh hcodes hleaf hnd
    cases leaf with
    | true =>
      have hd0 : d ≠ 0 := hleaf rfl
      obtain ⟨res, hres, hrl, hrc⟩ := strcpy_scratch (codes ch).code cc d p hs (hcodes ch)
      simp only [generate_codes, if_true, if_neg hd0, hres, Option.map_some']
      refine ⟨_, _, rfl, hs, ?_, ?_, ?_⟩
      · intro c
        by_cases hc : c = ch
        · subst hc; simp [hrl]
        · simp [Function.update_noteq hc, hcodes]
      · intro c hc
        have : c ≠ ch := by simpa [leaves] using hc
        simp [Function.update_noteq this]
      · intro c q hq
        simp only [paths, if_true, List.mem_singleton, Prod.mk.injEq] at hq
        obtain ⟨rfl, rfl⟩ := hq
        simp [hrc]
    | false =>
      have hlv : leaves (.node ch f l r false) = leaves l ++ leaves r := by simp [leaves]
      have hpt : paths (.node ch f l r false) =
          (paths l).map (fun x => (x.1, false :: x.2)) ++
            (paths r).map (fun x => (x.1, true :: x.2)) := by simp [paths]
      have hht : height (.node ch f l r false) = 1 + max (height l) (height r) := by
        simp [height]
      rw [hlv] at hnd
      rw [hht] at hh
      obtain ⟨hs1, hs2, hs3, hs4⟩ := hs
      have hndl := (List.nodup_append.1 hnd).1
      have hndr := (List.nodup_append.1 hnd).2.1
      have hdisj : ∀ c, c ∈ leaves l → c ∉ leaves r := fun c h1 h2 =>
        (List.nodup_append.1 hnd).2.2 h1 h2
      -- the left child
      have hleft : ∃ codes1 cc1,
          (if l = .null then some (codes, cc)
            else
              (store cc d '0').bind fun b =>
                (store b (d + 1) '\x00').bind fun b =>
                  generate_codes l codes b (d + 1)) = some (codes1, cc1) ∧
          cc1.length = 256 ∧ cc1.take d = code_chars p ∧
          (∀ c, (codes1 c).code.length = 256) ∧
          (∀ c, c ∉ leaves l → codes1 c = codes c) ∧
          (∀ c q, (c, q) ∈ paths l →
            c_string (codes1 c).code = some (code_chars (p ++ false :: q)) ∧
            (codes1 c).length = d + (q.length + 1)) := by
        by_cases hl0 : l = .null
        · subst hl0
          exact ⟨codes, cc, if_pos rfl, hs1, hs3, hcodes, fun _ _ => rfl,
            fun c q hq => by simp [paths] at hq⟩
        · rw [if_neg hl0]
          exact generate_codes_descend _ ihl false codes cc d p hs1 hs2 hs3
            (by omega) hcodes hndl
      obtain ⟨codes1, cc1, he1, hl1, ht1, hc1, hout1, hin1⟩ := hleft
      have hright : ∃ codes2 cc2,
          (if r = .null then some (codes1, cc1)
            else
              (store cc1 d '1').bind fun b =>
                (store b (d + 1) '\x00').bind fun b =>
                  generate_codes r codes1 b (d + 1)) = some (codes2, cc2) ∧
          cc2.length = 256 ∧ cc2.take d = code_chars p ∧
          (∀ c, (codes2 c).code.length = 256) ∧
          (∀ c, c ∉ leaves r → codes2 c = codes1 c) ∧
          (∀ c q, (c, q) ∈ paths r →
            c_string (codes2 c).code = some (code_chars (p ++ true :: q)) ∧
            (codes2 c).length = d + (q.length + 1)) := by
        by_cases hr0 : r = .null
        · subst hr0
          exact ⟨codes1, cc1, if_pos rfl, hl1, ht1, hc1, fun _ _ => rfl,
            fun c q hq => by simp [paths] at hq⟩
        · rw [if_neg hr0]
          exact generate_codes_descend _ ihr true codes1 cc1 d p hl1 hs2 ht1
            (by omega) hc1 hndr
      obtain ⟨codes2, cc2, he2, hl2, ht2, hc2, hout2, hin2⟩ := hright
      refine ⟨codes2, cc2.set d '\x00', ?_, Scratch.close hl2 hs2 ht2 (by omega), hc2, ?_, ?_⟩
      · simp only [generate_codes, Bool.false_eq_true, if_false]
        rw [he1]
        simp only [Option.some_bind]
        rw [he2]
        simp only [Option.some_bind]
        rw [store_eq _ _ _ (by omega)]
        rfl
      · intro c hc
        rw [hlv] at hc
        simp only [List.mem_append, not_or] at hc
        rw [hout2 c hc.2, hout1 c hc.1]
      · intro c q hq
        rw [hpt] at hq
        rcases List.mem_append.1 hq with hq | hq
        · obtain ⟨x, hx, hxe⟩ := List.mem_map.1 hq
          obtain ⟨rfl, rfl⟩ := Prod.mk.inj hxe
          have hmem : x.1 ∈ leaves l := by
            rw [← paths_fst]; exact List.mem_map_of_mem _ hx
          rw [hout2 _ (hdisj _ hmem)]
          simpa using hin1 x.1 x.2 hx
        · obtain ⟨x, hx, hxe⟩ := List.mem_map.1 hq
          obtain ⟨rfl, rfl⟩ := Prod.mk.inj hxe
          simpa using hin2 x.1 x.2 hx

theorem paths_descend (t : HuffmanNode) (c : Byte) (q : List Bool) (h : (c, q) ∈ paths t) :
    (descend t q).is_leaf = true ∧ (descend t q).character = c := by
  induction t generalizing q with
  | null => simp [paths] at h
  | node ch f l r leaf ihl ihr =>
    cases leaf with
    | true =>
      simp only [paths, if_true, List.mem_singleton, Prod.mk.injEq] at h
      obtain ⟨rfl, rfl⟩ := h
      exact ⟨rfl, rfl⟩
    | false =>
      simp only [paths, Bool.false_eq_true, if_false, List.mem_append, List.mem_map] at h
      rcases h with ⟨x, hx, hxe⟩ | ⟨x, hx, hxe⟩
      · obtain ⟨rfl, rfl⟩ := Prod.mk.inj hxe
        simpa [descend, HuffmanNode.left] using ihl x.2 hx
      · obtain ⟨rfl, rfl⟩ := Prod.mk.inj hxe
        simpa [descend, HuffmanNode.right] using ihr x.2 hx

theorem paths_prefix_free (t : HuffmanNode) :
    (paths t).Pairwise (fun x y => ¬ x.2 <+: y.2 ∧ ¬ y.2 <+: x.2) := by
  induction t with
  | null => simp [paths]
  | node ch f l r leaf ihl ihr =>
    cases leaf with
    | true => simp [paths]
    | false =>
      simp only [paths, Bool.false_eq_true, if_false]
      rw [List.pairwise_append]
      refine ⟨?_, ?_, ?_⟩
      · rw [List.pairwise_map]
        exact ihl.imp (fun h => by simpa [List.cons_prefix_cons] using h)
      · rw [List.pairwise_map]
        exact ihr.imp (fun h => by simpa [List.cons_prefix_cons] using h)
      · intro a ha b hb
        obtain ⟨x, _, rfl⟩ := List.mem_map.1 ha
        obtain ⟨y, _, rfl⟩ := List.mem_map.1 hb
        simp [List.cons_prefix_cons]

theorem paths_unique (t : HuffmanNode) (hnd : (leaves t).Nodup) (c : Byte) (q1 q2 : List Bool)
    (h1 : (c, q1) ∈ paths t) (h2 : (c, q2) ∈ paths t) : q1 = q2 := by
  rw [← paths_fst] at hnd
  have := List.inj_on_of_nodup_map hnd h1 h2 rfl
  exact (Prod.mk.inj this).2

theorem paths_not_initial (t : HuffmanNode) (c d : Byte)
    (q1 q2 : List Bool) (h1 : (c, q1) ∈ paths t) (h2 : (d, q2) ∈ paths t) (hne : c ≠ d) :
    ¬ q1 <+: q2 := by
  have hp := paths_prefix_free t
  have hne' : (c, q1) ≠ (d, q2) := fun h => hne (Prod.mk.inj h).1
  have hsym : Symmetric (fun x y : Byte × List Bool => ¬ x.2 <+: y.2 ∧ ¬ y.2 <+: x.2) :=
    fun _ _ h => ⟨h.2, h.1⟩
  exact (hp.forall hsym h1 h2 hne').1

theorem mem_paths_of_mem_leaves (t : HuffmanNode) (c : Byte) (h : c ∈ leaves t) :
    ∃ q, (c, q) ∈ paths t := by
  rw [← paths_fst] at h
  obtain ⟨x, hx, rfl⟩ := List.mem_map.1 h
  exact ⟨x.2, hx⟩

theorem code_chars_injective : Function.Injective code_chars := by
  intro p q h
  unfold code_chars at h
  refine List.map_injective_iff.2 ?_ h
  intro a b hab
  cases a <;> cases b <;> first | rfl | (exact absurd hab (by decide))

theorem code_chars_initial {p q : List Bool} (h : code_chars p <+: code_chars q) : p <+: q := by
  obtain ⟨s, hs⟩ := h
  have hlen : p.length ≤ q.length := by
    have := congrArg List.length hs
    simp [code_chars] at this
    omega
  have h2 : code_chars p = code_chars (q.take p.length) := by
    have := congrArg (List.take p.length) hs
    rw [List.take_left' (by simp [code_chars])] at this
    rw [this]
    simp [code_chars, List.map_take]
  rw [code_chars_injective h2]
  exact List.take_prefix _ _

theorem symbols_ne_nil (frequencies : Byte → Int) (h : ∃ c, frequencies c > 0) :
    symbols frequencies ≠ [] := by
  obtain ⟨c, hc⟩ := h
  exact List.ne_nil_of_mem ((mem_symbols frequencies c).2 hc)

theorem build_huffman_tree_with_built (add : Int → Int → Int) (frequencies : Byte → Int)
    (h : ∃ c, frequencies c > 0) : Built frequencies (build_huffman_tree_with add frequencies) := by
  have hne := symbols_ne_nil frequencies h
  match hs : symbols frequencies with
  | [] => exact absurd hs hne
  | [s] =>
    rw [build_huffman_tree_with_single add frequencies s hs]
    exact ⟨by simp, rfl, by rw [hs]; simp [leaves, create_node],
      by simp [height, create_node]⟩
  | a :: b :: rest =>
    have h2 : 2 ≤ (symbols frequencies).length := by simp [hs]
    obtain ⟨hp, hl⟩ := build_huffman_tree_with_forest add frequencies h2
    refine ⟨hp.ne_null, ?_, hl, ?_⟩
    · generalize build_huffman_tree_with add frequencies = t at hp hl
      cases t with
      | null => rfl
      | node c f l r leaf =>
        cases leaf with
        | false => rfl
        | true =>
          have := hl.length_eq
          simp [leaves] at this
          omega
    · have h1 := height_lt_leaves hp
      have h3 := nodup_bytes_length (hl.nodup_iff.2 (symbols_nodup frequencies))
      omega

theorem build_huffman_tree_built (frequencies : Byte → Int) (h : ∃ c, frequencies c > 0) :
    Built frequencies (build_huffman_tree frequencies) :=
  build_huffman_tree_with_built int_add frequencies h

theorem build_huffman_tree_unbounded_built (frequencies : Byte → Int)
    (h : ∃ c, frequencies c > 0) :
    Built frequencies (build_huffman_tree_unbounded frequencies) :=
  build_huffman_tree_with_built (fun a b => a + b) frequencies h

theorem Built.nodup {frequencies : Byte → Int} {t : HuffmanNode} (h : Built frequencies t) :
    (leaves t).Nodup :=
  h.leaves_perm.nodup_iff.2 (symbols_nodup frequencies)

theorem Built.mem_leaves {frequencies : Byte → Int} {t : HuffmanNode} (h : Built frequencies t)
    (c : Byte) : c ∈ leaves t ↔ frequencies c > 0 := by
  rw [h.leaves_perm.mem_iff, mem_symbols]

theorem Scratch_zero : Scratch zero_current_code 0 [] := by
  refine ⟨by simp only [zero_current_code, List.length_replicate], rfl,
    by simp only [code_chars, List.take_zero, List.map_nil], ?_⟩
  simp only [zero_current_code, List.getElem?_replicate]
  rfl

theorem Built.path_pos {frequencies : Byte → Int} {t : HuffmanNode} (h : Built frequencies t)
    (c : Byte) (q : List Bool) (hq : (c, q) ∈ paths t) : 0 < q.length := by
  have hn := h.not_leaf
  cases t with
  | null => simp [paths] at hq
  | node ch f l r leaf =>
    simp only [HuffmanNode.is_leaf] at hn
    subst hn
    simp only [paths, Bool.false_eq_true, if_false, List.mem_append, List.mem_map] at hq
    rcases hq with ⟨x, _, hxe⟩ | ⟨x, _, hxe⟩ <;>
    · obtain ⟨_, rfl⟩ := Prod.mk.inj hxe
      simp

/-- The table that `generate_codes` fills for the built tree. -/
theorem generate_codes_built (frequencies : Byte → Int) (h : ∃ c, frequencies c > 0) :
    ∃ codes cc,
      generate_codes (build_huffman_tree frequencies) zero_code_table zero_current_code 0 =
        some (codes, cc) ∧
      (∀ c, ¬ frequencies c > 0 → codes c = zero_code_table c) ∧
      (∀ c q, (c, q) ∈ paths (build_huffman_tree frequencies) →
        c_string (codes c).code = some (code_chars q) ∧ (codes c).length = q.length) := by
  have hb := build_huffman_tree_built frequencies h
  obtain ⟨codes, cc, heq, _, _, hout, hin⟩ :=
    generate_codes_spec (build_huffman_tree frequencies) zero_code_table zero_current_code 0 []
      Scratch_zero (by have := hb.height_le; omega)
      (fun _ => by simp only [zero_code_table, List.length_replicate]) (fun hl => by rw [hb.not_leaf] at hl; cases hl)
      hb.nodup
  refine ⟨codes, cc, heq, ?_, ?_⟩
  · intro c hc
    exact hout c (fun hm => hc ((hb.mem_leaves c).1 hm))
  · intro c q hq
    simpa using hin c q hq

theorem byte_bits_length (b : Byte) : (byte_bits b).length = 8 := by
  simp [byte_bits]

theorem bits_of_length (l : List Byte) : (bits_of l).length = 8 * l.length := by
  induction l with
  | nil => rfl
  | cons x xs ih =>
    simp only [bits_of, List.flatMap_cons, List.length_append, byte_bits_length,
      List.length_cons] at ih ⊢
    omega

theorem bits_of_append (a b : List Byte) : bits_of (a ++ b) = bits_of a ++ bits_of b := by
  simp [bits_of, List.flatMap_append]

theorem set_bit_lemma : ∀ (cur : Fin 256) (bp : Fin 8),
    (byte_bits cur).drop bp.val = List.replicate (8 - bp.val) false →
    (cur.val ||| (1 <<< (7 - bp.val))) % 256 < 256 ∧
    byte_bits (toByte ((cur.val ||| (1 <<< (7 - bp.val))) % 256)) =
      (byte_bits cur).take bp.val ++ true :: List.replicate (7 - bp.val) false := by
  decide!

theorem toByte_val (n : Nat) (h : n < 256) : (toByte n).val = n := Nat.mod_eq_of_lt h

theorem byte_bits_zero : byte_bits (toByte 0) = List.replicate 8 false := by decide!

theorem take_succ_of_drop {α : Type} (l : List α) (n : Nat) (x : α) (rest : List α)
    (h : l.drop n = x :: rest) : l.take (n + 1) = l.take n ++ [x] ∧ l.drop (n + 1) = rest := by
  have hlt : n < l.length := by
    by_contra hc
    rw [List.drop_eq_nil_of_le (by omega)] at h
    cases h
  rw [List.drop_eq_getElem_cons hlt] at h
  obtain ⟨h1, h2⟩ := List.cons.inj h
  refine ⟨?_, h2⟩
  rw [List.take_succ, List.getElem?_eq_getElem hlt, h1]
  rfl

/-- The byte in `current_byte` after one more bit. -/
theorem next_byte_bits (cur bp : Nat) (c : Char) (hcur : cur < 256) (hbp : bp < 8)
    (hz : (byte_bits (toByte cur)).drop bp = List.replicate (8 - bp) false) :
    (if c = '1' then (cur ||| (1 <<< (7 - bp))) % 256 else cur) < 256 ∧
    byte_bits (toByte (if c = '1' then (cur ||| (1 <<< (7 - bp))) % 256 else cur)) =
      (byte_bits (toByte cur)).take bp ++ decide (c = '1') :: List.replicate (7 - bp) false := by
  by_cases hc : c = '1'
  · simp only [hc, if_true, decide_True]
    have := set_bit_lemma (toByte cur) ⟨bp, hbp⟩ (by simpa using hz)
    simpa [toByte_val cur hcur] using this
  · simp only [hc, if_false, decide_False]
    refine ⟨hcur, ?_⟩
    have h8 : 8 - bp = (7 - bp) + 1 := by omega
    rw [h8, List.replicate_succ] at hz
    conv_lhs => rw [← List.take_append_drop bp (byte_bits (toByte cur)), hz]

theorem PackInv.length_eq {N : Nat} {w : BitWriter} {bs : List Bool} (h : PackInv N w bs) :
    bs.length = 8 * w.byte_index + w.bit_pos := by
  rw [← h.hbits]
  have := h.hbi
  have := h.hlen
  have := h.hbp
  simp only [List.length_append, bits_of_length, List.length_take, byte_bits_length]
  omega

theorem take_set_succ {α : Type} (l : List α) (i : Nat) (x : α) (h : i < l.length) :
    (l.set i x).take (i + 1) = l.take i ++ [x] := by
  rw [List.take_succ, take_set_of_le _ _ _ _ (le_refl _), List.getElem?_set_self h]
  rfl

theorem encode_char_step (N : Nat) (w : BitWriter) (bs : List Bool) (c : Char)
    (h : PackInv N w bs) (hroom : bs.length + 1 ≤ 8 * N) :
    ∃ w', encode_char w c = some w' ∧ PackInv N w' (bs ++ [decide (c = '1')]) := by
  obtain ⟨hlt, hbb⟩ := next_byte_bits w.current_byte w.bit_pos c h.hcur h.hbp h.hzero
  have hl := h.length_eq
  have hbp := h.hbp
  unfold encode_char
  simp only
  by_cases h8 : w.bit_pos + 1 = 8
  · rw [if_pos h8]
    have hbi : w.byte_index < w.encoded.length := by rw [h.hlen]; omega
    rw [store_eq _ _ _ hbi]
    refine ⟨_, rfl, ?_⟩
    have h7 : 7 - w.bit_pos = 0 := by omega
    refine ⟨by simp, by simp, by simp [h.hlen], by simp only; rw [h.hlen] at hbi; omega, ?_, ?_⟩
    · simp only [List.take_zero, List.append_nil]
      rw [take_set_succ _ _ _ hbi, bits_of_append]
      simp only [bits_of, List.flatMap_cons, List.flatMap_nil, List.append_nil]
      rw [hbb, h7, ← h.hbits]
      simp [bits_of]
    · simpa using byte_bits_zero
  · rw [if_neg h8]
    refine ⟨_, rfl, ?_⟩
    refine ⟨by simp only; omega, hlt, h.hlen, h.hbi, ?_, ?_⟩
    · simp only
      rw [hbb, ← h.hbits, List.append_assoc]
      congr 1
      have hlen : (List.take w.bit_pos (byte_bits (toByte w.current_byte))).length = w.bit_pos := by
        simp [byte_bits_length]; omega
      rw [List.take_append_eq_append_take, hlen]
      simp [List.take_take]
    · simp only
      rw [hbb]
      have hlen : (List.take w.bit_pos (byte_bits (toByte w.current_byte))).length = w.bit_pos := by
        simp [byte_bits_length]; omega
      rw [List.drop_append_eq_append_drop, hlen]
      have : 8 - (w.bit_pos + 1) = 7 - w.bit_pos := by omega
      simp [this]

theorem encode_chars_spec (N : Nat) (cs : List Char) (w : BitWriter) (bs : List Bool)
    (h : PackInv N w bs) (hroom : bs.length + cs.length ≤ 8 * N) :
    ∃ w', encode_chars cs w = some w' ∧
      PackInv N w' (bs ++ cs.map fun c => decide (c = '1')) := by
  induction cs generalizing w bs with
  | nil => exact ⟨w, rfl, by simpa using h⟩
  | cons c cs ih =>
    simp only [List.length_cons] at hroom
    obtain ⟨w1, h1, hinv1⟩ := encode_char_step N w bs c h (by omega)
    obtain ⟨w2, h2, hinv2⟩ := ih w1 (bs ++ [decide (c = '1')]) hinv1
      (by simp only [List.length_append, List.length_singleton]; omega)
    refine ⟨w2, ?_, by simpa using hinv2⟩
    unfold encode_chars at h2 ⊢
    rw [List.foldlM_cons, h1]
    exact h2

theorem encode_symbol_eq (code : HuffmanCode) (w : BitWriter)
    (h : code.length ≤ code.code.length) :
    encode_symbol code w = encode_chars (code.code.take code.length) w := by
  unfold encode_symbol encode_chars
  generalize code.length = n at h
  induction n generalizing w with
  | zero => simp
  | succ n ih =>
    have hn : n < code.code.length := by omega
    rw [List.range_succ, List.foldlM_append, List.take_succ, List.foldlM_append,
      ih w (by omega)]
    congr 1
    funext w1
    simp [List.getElem?_eq_getElem hn]

theorem encode_fold_eq (code_table : Byte → HuffmanCode) (hfit : TableFits code_table)
    (data : List Byte) (w : BitWriter) :
    data.foldlM (fun w b => encode_symbol (code_table b) w) w =
      encode_chars (data.flatMap fun b => (code_table b).code.take (code_table b).length) w := by
  induction data generalizing w with
  | nil => rfl
  | cons b bs ih =>
    rw [List.foldlM_cons, List.flatMap_cons, encode_symbol_eq _ _ (hfit b)]
    unfold encode_chars at ih ⊢
    rw [List.foldlM_append]
    congr 1
    funext w1
    exact ih w1

theorem flatMap_code_bits (code_table : Byte → HuffmanCode) (data : List Byte) :
    (data.flatMap fun b => (code_table b).code.take (code_table b).length).map
      (fun c => decide (c = '1')) = data.flatMap fun b => code_bits (code_table b) := by
  induction data with
  | nil => rfl
  | cons b bs ih => simp [List.flatMap_cons, code_bits, ih]

theorem flatMap_code_length (code_table : Byte → HuffmanCode) (hfit : TableFits code_table)
    (data : List Byte) :
    (data.flatMap fun b => (code_table b).code.take (code_table b).length).length =
      total_bits data code_table := by
  induction data with
  | nil => rfl
  | cons b bs ih =>
    have := hfit b
    simp only [List.flatMap_cons, List.length_append, List.length_take, ih, total_bits,
      List.map_cons, List.sum_cons]
    unfold total_bits at ih
    omega

theorem PackInv.start (N : Nat) :
    PackInv N
      { bit_pos := 0, current_byte := 0, byte_index := 0, encoded := List.replicate N 0 } [] := by
  refine ⟨by simp, by simp, by simp, by simp, by simp [bits_of], ?_⟩
  simpa using byte_bits_zero

theorem encode_data_spec (data : List Byte) (code_table : Byte → HuffmanCode)
    (hfit : TableFits code_table) (hpos : 0 < total_bits data code_table) :
    ∃ e, encode_data data code_table = some e ∧
      e.padding = (8 - total_bits data code_table % 8) % 8 ∧
      e.encoded_bytes = (total_bits data code_table + e.padding) / 8 ∧
      e.encoded_data.length = e.encoded_bytes ∧
      bits_of e.encoded_data =
        (data.flatMap fun b => code_bits (code_table b)) ++ List.replicate e.padding false := by
  have htb : (data.map fun b => (code_table b).length).sum = total_bits data code_table := rfl
  unfold encode_data
  simp only [htb]
  rw [if_neg (by omega)]
  generalize hT : total_bits data code_table = T at *
  generalize hN : (T + (8 - T % 8) % 8) / 8 = N
  rw [encode_fold_eq code_table hfit]
  have hlen := flatMap_code_length code_table hfit data
  have hmap := flatMap_code_bits code_table data
  generalize (data.flatMap fun b => (code_table b).code.take (code_table b).length) = cs at *
  rw [hT] at hlen
  obtain ⟨w, hw, hinv⟩ := encode_chars_spec N cs _ [] (PackInv.start N)
    (by simp only [List.length_nil]; omega)
  rw [hw]
  simp only [Option.some_bind, List.nil_append] at hinv ⊢
  rw [hmap] at hinv
  have hl := hinv.length_eq
  have hbp := hinv.hbp
  have hbl : ((data.flatMap fun b => code_bits (code_table b))).length = T := by
    rw [← hmap, List.length_map, hlen]
  rw [hbl] at hl
  by_cases hb0 : w.bit_pos > 0
  · rw [if_pos hb0]
    have hbi : w.byte_index < w.encoded.length := by rw [hinv.hlen]; omega
    rw [store_eq _ _ _ hbi]
    refine ⟨_, rfl, rfl, hN.symm, by simp only [List.length_set]; rw [hinv.hlen], ?_⟩
    simp only
    have hdrop : (w.encoded.set w.byte_index (toByte w.current_byte)).drop (w.byte_index + 1)
        = [] := by
      apply List.drop_eq_nil_of_le
      simp only [List.length_set]
      rw [hinv.hlen]; omega
    rw [← List.take_append_drop (w.byte_index + 1)
      (w.encoded.set w.byte_index (toByte w.current_byte)), hdrop, List.append_nil,
      take_set_succ _ _ _ hbi, bits_of_append]
    simp only [bits_of, List.flatMap_cons, List.flatMap_nil, List.append_nil]
    rw [← List.take_append_drop w.bit_pos (byte_bits (toByte w.current_byte)), hinv.hzero,
      ← List.append_assoc]
    have := hinv.hbits
    simp only [bits_of] at this
    rw [this]
    congr 2
    omega
  · rw [if_neg hb0]
    have hb : w.bit_pos = 0 := by omega
    refine ⟨_, rfl, rfl, hN.symm, hinv.hlen, ?_⟩
    simp only
    have hp0 : (8 - T % 8) % 8 = 0 := by omega
    have hbiN : w.byte_index = w.encoded.length := by rw [hinv.hlen]; omega
    have := hinv.hbits
    rw [hb, List.take_zero, List.append_nil, hbiN, List.take_length] at this
    rw [this, hp0]
    simp

theorem shift_and_one : ∀ (b : Byte) (i : Fin 8),
    (b.val >>> i.val) &&& 1 = bit_value (b.val.testBit i.val) := by
  decide!

theorem bit_indices_succ (m : Nat) : bit_indices (m + 1) = m :: bit_indices m := by
  simp [bit_indices, List.range_succ]

theorem decode_stream_append (tree : HuffmanNode) (max : Int) (a b : List Bool) (s : Cursor) :
    decode_stream tree max (a ++ b) s =
      (decode_stream tree max a s).bind (decode_stream tree max b) := by
  unfold decode_stream
  rw [List.foldlM_append]
  rfl

theorem decode_stream_cons (tree : HuffmanNode) (max : Int) (a : Bool) (b : List Bool)
    (s : Cursor) :
    decode_stream tree max (a :: b) s =
      (decode_bit tree max s (bit_value a)).bind (decode_stream tree max b) := by
  unfold decode_stream
  rw [List.foldlM_cons]
  rfl

theorem decode_stream_nil (tree : HuffmanNode) (max : Int) (s : Cursor) :
    decode_stream tree max [] s = some s := rfl

theorem decode_byte_indices (tree : HuffmanNode) (total : Int) (k : Nat) (b : Byte) (m : Nat)
    (hm : m ≤ 8) (s : Cursor) :
    decode_byte tree total k b (bit_indices m) s =
      decode_stream tree total
        (((bit_indices m).map fun i => b.val.testBit i).take
          (total - ((k : Int) * 8 + (8 - (m : Int)))).toNat) s := by
  induction m generalizing s with
  | zero => simp [bit_indices, decode_byte, decode_stream]
  | succ n ih =>
    rw [bit_indices_succ]
    simp only [decode_byte, List.map_cons]
    by_cases hge : (k : Int) * 8 + (7 - (n : Int)) ≥ total
    · rw [if_pos hge]
      have : (total - ((k : Int) * 8 + (8 - ((n + 1 : Nat) : Int)))).toNat = 0 := by
        rw [Int.toNat_eq_zero]
        push_cast
        omega
      rw [this, List.take_zero, decode_stream_nil]
    · rw [if_neg hge]
      have : (total - ((k : Int) * 8 + (8 - ((n + 1 : Nat) : Int)))).toNat =
          (total - ((k : Int) * 8 + (8 - (n : Int)))).toNat + 1 := by
        push_cast
        omega
      rw [this, List.take_succ_cons, decode_stream_cons,
        shift_and_one b ⟨n, by omega⟩]
      congr 1
      funext s1
      exact ih (by omega) s1

theorem bit_indices_eight : bit_indices 8 = [7, 6, 5, 4, 3, 2, 1, 0] := by decide

theorem decode_byte_eq (tree : HuffmanNode) (total : Int) (k : Nat) (b : Byte) (s : Cursor) :
    decode_byte tree total k b [7, 6, 5, 4, 3, 2, 1, 0] s =
      decode_stream tree total ((byte_bits b).take (total - (k : Int) * 8).toNat) s := by
  have := decode_byte_indices tree total k b 8 (le_refl _) s
  rw [bit_indices_eight] at this
  rw [this]
  unfold byte_bits
  congr 2

theorem decode_bytes_eq (tree : HuffmanNode) (total : Int) (P : List Byte) (n : Nat)
    (hn : n ≤ P.length) (s : Cursor) :
    (List.range n).foldlM
      (fun s byte_idx =>
        (P.get? byte_idx).bind fun current_byte =>
          decode_byte tree total byte_idx current_byte [7, 6, 5, 4, 3, 2, 1, 0] s) s =
      decode_stream tree total ((bits_of (P.take n)).take total.toNat) s := by
  induction n with
  | zero => simp [bits_of, decode_stream]
  | succ n ih =>
    have hlt : n < P.length := by omega
    rw [List.range_succ, List.foldlM_append, ih (by omega)]
    rw [List.take_succ, List.getElem?_eq_getElem hlt]
    simp only [Option.toList_some, bits_of_append]
    rw [List.take_append_eq_append_take, decode_stream_append]
    congr 1
    funext s1
    simp only [List.foldlM_cons, List.foldlM_nil, List.get?_eq_getElem?,
      List.getElem?_eq_getElem hlt, Option.some_bind, Option.bind_eq_bind]
    rw [decode_byte_eq]
    simp only [bits_of, List.flatMap_cons, List.flatMap_nil, List.append_nil]
    have h8 : ((List.take n P).flatMap byte_bits).length = 8 * n := by
      have := bits_of_length (P.take n)
      simp only [bits_of, List.length_take] at this
      rw [this]; omega
    rw [h8]
    have : (total - (n : Int) * 8).toNat = total.toNat - 8 * n := by omega
    rw [this]
    cases h : decode_stream tree total (List.take (total.toNat - 8 * n) (byte_bits P[n])) s1 <;> rfl

/-- `decode_data` runs the loop body over the first `total_bits` bits of the input. -/
theorem decode_data_eq_stream (P : List Byte) (tree : HuffmanNode) (padding : Int)
    (htree : tree ≠ .null) :
    decode_data P P.length tree padding =
      (decode_stream tree ((P.length : Int) * 8 - padding)
        ((bits_of P).take ((P.length : Int) * 8 - padding).toNat)
        { decoded := [], current_node := tree }).map fun s => s.decoded := by
  unfold decode_data
  by_cases hlen : (P.length : Int) = 0
  · rw [if_pos (Or.inr hlen)]
    have : P = [] := List.length_eq_zero.1 (by omega)
    subst this
    simp [bits_of, decode_stream]
  · rw [if_neg (by simp [htree, hlen])]
    simp only
    by_cases htot : (P.length : Int) * 8 - padding ≤ 0
    · rw [if_pos htot, Int.toNat_eq_zero.2 htot]
      rfl
    · rw [if_neg htot]
      have := decode_bytes_eq tree ((P.length : Int) * 8 - padding) P P.length (le_refl _)
        { decoded := [], current_node := tree }
      rw [List.take_length] at this
      simp only [Int.toNat_ofNat]
      rw [this]

theorem paths_of_leaf {n : HuffmanNode} {c : Byte} {q : List Bool} (hl : n.is_leaf = true)
    (h : (c, q) ∈ paths n) : q = [] ∧ c = n.character := by
  cases n with
  | null => simp [paths] at h
  | node ch f l r leaf =>
    simp only [HuffmanNode.is_leaf] at hl
    subst hl
    simp only [paths, if_true, List.mem_singleton, Prod.mk.injEq] at h
    exact ⟨h.2, h.1⟩

theorem paths_cons {n : HuffmanNode} {c : Byte} {b : Bool} {q : List Bool}
    (h : (c, b :: q) ∈ paths n) :
    n ≠ .null ∧ n.is_leaf = false ∧ (c, q) ∈ paths (if b then n.right else n.left) := by
  cases n with
  | null => simp [paths] at h
  | node ch f l r leaf =>
    cases leaf with
    | true => simp [paths] at h
    | false =>
      refine ⟨by simp, rfl, ?_⟩
      simp only [paths, Bool.false_eq_true, if_false, List.mem_append, List.mem_map] at h
      rcases h with ⟨x, hx, hxe⟩ | ⟨x, hx, hxe⟩
      · obtain ⟨rfl, h2⟩ := Prod.mk.inj hxe
        obtain ⟨rfl, rfl⟩ := List.cons.inj h2
        simpa [HuffmanNode.left] using hx
      · obtain ⟨rfl, h2⟩ := Prod.mk.inj hxe
        obtain ⟨rfl, rfl⟩ := List.cons.inj h2
        simpa [HuffmanNode.right] using hx

theorem paths_ne_null {n : HuffmanNode} {c : Byte} {q : List Bool} (h : (c, q) ∈ paths n) :
    n ≠ .null := by
  intro h0
  subst h0
  simp [paths] at h

theorem paths_nil_leaf {n : HuffmanNode} {c : Byte} (h : (c, []) ∈ paths n) :
    n.is_leaf = true := by
  cases n with
  | null => simp [paths] at h
  | node ch f l r leaf =>
    cases leaf with
    | true => rfl
    | false => simp [paths] at h

theorem bit_value_eq_zero (b : Bool) : bit_value b = 0 ↔ b = false := by
  cases b <;> simp [bit_value]

/-- One bit, read at an internal node whose child on that side is a leaf. -/
theorem decode_bit_emit (tree : HuffmanNode) (max : Int) (out : List Byte) (n : HuffmanNode)
    (b : Bool) (hn : n ≠ .null) (hnl : n.is_leaf = false)
    (hc : (if b then n.right else n.left) ≠ .null)
    (hcl : (if b then n.right else n.left).is_leaf = true) (hmax : (out.length : Int) < max) :
    decode_bit tree max { decoded := out, current_node := n } (bit_value b) =
      some { decoded := out ++ [(if b then n.right else n.left).character],
             current_node := tree } := by
  unfold decode_bit
  simp only [hn, hnl, if_false, Bool.false_eq_true, Option.some_bind]
  cases b with
  | false =>
    simp only [bit_value, Bool.false_eq_true, if_false, if_true] at hc hcl ⊢
    rw [if_pos ⟨hc, hcl⟩, if_pos hmax]
  | true =>
    simp only [bit_value, if_true, one_ne_zero, if_false] at hc hcl ⊢
    rw [if_pos ⟨hc, hcl⟩, if_pos hmax]

/-- One bit, read at an internal node whose child on that side is not a leaf. -/
theorem decode_bit_move (tree : HuffmanNode) (max : Int) (out : List Byte) (n : HuffmanNode)
    (b : Bool) (hn : n ≠ .null) (hnl : n.is_leaf = false)
    (hcl : (if b then n.right else n.left).is_leaf = false) :
    decode_bit tree max { decoded := out, current_node := n } (bit_value b) =
      some { decoded := out, current_node := if b then n.right else n.left } := by
  unfold decode_bit
  simp only [hn, hnl, if_false, Bool.false_eq_true, Option.some_bind]
  cases b with
  | false =>
    simp only [bit_value, Bool.false_eq_true, if_false, if_true] at hcl ⊢
    rw [if_neg (by simp [hcl])]
  | true =>
    simp only [bit_value, if_true, one_ne_zero, if_false] at hcl ⊢
    rw [if_neg (by simp [hcl])]

/-- Reading the path of a leaf from an internal node emits the leaf and returns the
cursor to the root. -/
theorem decode_walk (tree : HuffmanNode) (max : Int) (q : List Bool) :
    ∀ (n : HuffmanNode) (c : Byte) (out : List Byte), (c, q) ∈ paths n → n.is_leaf = false →
      (out.length : Int) < max →
      decode_stream tree max q { decoded := out, current_node := n } =
        some { decoded := out ++ [c], current_node := tree } := by
  induction q with
  | nil =>
    intro n c out h hnl _
    rw [paths_nil_leaf h] at hnl
    cases hnl
  | cons b q ih =>
    intro n c out h hnl hmax
    obtain ⟨hn, _, hchild⟩ := paths_cons h
    rw [decode_stream_cons]
    by_cases hcl : (if b then n.right else n.left).is_leaf = true
    · obtain ⟨rfl, rfl⟩ := paths_of_leaf hcl hchild
      rw [decode_bit_emit tree max out n b hn hnl (paths_ne_null hchild) hcl hmax]
      rfl
    · have hcl' : (if b then n.right else n.left).is_leaf = false := by
        simpa using hcl
      rw [decode_bit_move tree max out n b hn hnl hcl']
      exact ih _ c out hchild hcl' hmax

/-- Reading a proper initial part of the path of a leaf moves the cursor down without
emitting anything. -/
theorem decode_walk_part (tree : HuffmanNode) (max : Int) (q1 : List Bool) :
    ∀ (n : HuffmanNode) (c : Byte) (q2 : List Bool) (out : List Byte),
      (c, q1 ++ q2) ∈ paths n → q2 ≠ [] →
      decode_stream tree max q1 { decoded := out, current_node := n } =
        some { decoded := out, current_node := descend n q1 } ∧
      (descend n q1).is_leaf = false ∧ descend n q1 ≠ .null := by
  induction q1 with
  | nil =>
    intro n c q2 out h hq2
    refine ⟨rfl, ?_, paths_ne_null h⟩
    cases q2 with
    | nil => exact absurd rfl hq2
    | cons b q => exact (paths_cons h).2.1
  | cons b q1 ih =>
    intro n c q2 out h hq2
    obtain ⟨hn, hnl, hchild⟩ := paths_cons h
    have hcl : (if b then n.right else n.left).is_leaf = false := by
      by_contra hc
      have := (paths_of_leaf (by simpa using hc) hchild).1
      cases q1 <;> simp at this
      exact hq2 this
    rw [decode_stream_cons, decode_bit_move tree max out n b hn hnl hcl]
    exact ih _ c q2 out hchild hq2

/-- Reading the codes of a message emits the message. -/
theorem decode_message (tree : HuffmanNode) (max : Int) (code : Byte → List Bool)
    (hroot : tree.is_leaf = false) (M : List Byte) :
    ∀ (out : List Byte), (∀ b ∈ M, (b, code b) ∈ paths tree) →
      ((out.length + M.length : Nat) : Int) ≤ max →
      decode_stream tree max (M.flatMap code) { decoded := out, current_node := tree } =
        some { decoded := out ++ M, current_node := tree } := by
  induction M with
  | nil =>
    intro out _ _
    simp [decode_stream]
  | cons b M ih =>
    intro out hM hmax
    rw [List.flatMap_cons, decode_stream_append,
      decode_walk tree max (code b) tree b out (hM b (by simp)) hroot
        (by simp only [List.length_cons] at hmax; push_cast at hmax; omega)]
    simp only [Option.some_bind]
    rw [ih (out ++ [b]) (fun x hx => hM x (by simp [hx]))
      (by simp only [List.length_cons, List.length_append, List.length_nil] at hmax ⊢
          push_cast at hmax ⊢; omega)]
    simp

theorem path_of_mem (t : HuffmanNode) (c : Byte) (h : c ∈ leaves t) :
    (c, path_of t c) ∈ paths t := by
  obtain ⟨q, hq⟩ := mem_paths_of_mem_leaves t c h
  unfold path_of
  cases hf : (paths t).find? (fun x => x.1 = c) with
  | none =>
    have := List.find?_eq_none.1 hf (c, q) hq
    simp at this
  | some x =>
    have h1 := List.find?_some hf
    have h2 := List.mem_of_find?_eq_some hf
    simp only [decide_eq_true_eq] at h1
    subst h1
    exact h2

theorem int_wrap_of_range (x : Int) (h0 : -2147483648 ≤ x) (h1 : x ≤ INT_MAX) :
    int_wrap x = x := by
  unfold INT_MAX at h1
  unfold int_wrap
  omega

theorem int_wrap_add_left (x y : Int) : int_wrap (int_wrap x + y) = int_wrap (x + y) := by
  unfold int_wrap
  omega

/-- A counter that is incremented `n` times holds its start value plus `n`, wrapped to
the range of `int`. -/
theorem calculate_frequencies_apply (data : List Byte) (f : Byte → Int) (c : Byte) :
    calculate_frequencies data f c =
      if data.count c = 0 then f c else int_wrap (f c + (data.count c : Int)) := by
  unfold calculate_frequencies
  induction data generalizing f with
  | nil => simp
  | cons b bs ih =>
    rw [List.foldl_cons, ih]
    by_cases hbc : b = c
    · subst hbc
      rw [List.count_cons_self, if_neg (Nat.succ_ne_zero _), Function.update_same]
      by_cases h0 : List.count b bs = 0
      · rw [if_pos h0, h0]
        rfl
      · rw [if_neg h0]
        unfold int_add
        rw [int_wrap_add_left]
        congr 1
        push_cast
        omega
    · have hcb : c ≠ b := fun h => hbc h.symm
      rw [List.count_cons_of_ne hcb, Function.update_noteq hcb]

theorem calculate_frequencies_zero (data : List Byte) (c : Byte) :
    calculate_frequencies data zero_frequencies c = int_wrap (data.count c : Int) := by
  rw [calculate_frequencies_apply]
  by_cases h0 : data.count c = 0
  · rw [if_pos h0, h0]
    rfl
  · rw [if_neg h0]
    simp only [zero_frequencies, zero_add]

/-- While no byte value occurs more than `INT_MAX` times, the counters hold the exact
numbers of occurrences. -/
theorem calculate_frequencies_exact (data : List Byte)
    (hfit : ∀ c, (data.count c : Int) ≤ INT_MAX) (c : Byte) :
    calculate_frequencies data zero_frequencies c = (data.count c : Int) := by
  rw [calculate_frequencies_zero]
  exact int_wrap_of_range _ (by omega) (hfit c)

/-- In a buffer of at most `INT_MAX` bytes no byte value occurs more than `INT_MAX`
times. -/
theorem count_fits_of_length (B : List Byte) (h : (B.length : Int) ≤ INT_MAX) (c : Byte) :
    (B.count c : Int) ≤ INT_MAX := by
  have := List.count_le_length c B
  omega

theorem calculate_frequencies_pos (data : List Byte)
    (hfit : ∀ c, (data.count c : Int) ≤ INT_MAX) (c : Byte) :
    calculate_frequencies data zero_frequencies c > 0 ↔ c ∈ data := by
  rw [calculate_frequencies_exact data hfit]
  simp only [gt_iff_lt, Nat.cast_pos]
  exact List.count_pos_iff

theorem c_string_take {buf s : List Char} (h : c_string buf = some s) :
    buf.take s.length = s ∧ s.length < buf.length := by
  unfold c_string at h
  simp only at h
  split_ifs at h with hlt
  have hs := Option.some.inj h
  subst hs
  refine ⟨?_, hlt⟩
  exact (List.prefix_iff_eq_take.1 ( List.takeWhile_prefix _)).symm

theorem map_decide_code_chars (q : List Bool) :
    (code_chars q).map (fun c => decide (c = '1')) = q := by
  induction q with
  | nil => rfl
  | cons b q ih =>
    simp only [code_chars, List.map_cons] at ih ⊢
    rw [ih]
    cases b <;> simp [bit_char]

theorem code_bits_of_c_string {h : HuffmanCode} {q : List Bool}
    (h1 : c_string h.code = some (code_chars q)) (h2 : h.length = q.length) :
    code_bits h = q ∧ h.length ≤ h.code.length := by
  obtain ⟨ht, hl⟩ := c_string_take h1
  have hlen : (code_chars q).length = q.length := by simp [code_chars]
  rw [hlen] at ht hl
  refine ⟨?_, by omega⟩
  unfold code_bits
  rw [h2, ht, map_decide_code_chars]

theorem flatMap_congr_mem {α β : Type} (l : List α) (f g : α → List β)
    (h : ∀ a ∈ l, f a = g a) : l.flatMap f = l.flatMap g := by
  induction l with
  | nil => rfl
  | cons a l ih =>
    rw [List.flatMap_cons, List.flatMap_cons, h a (by simp),
      ih (fun x hx => h x (by simp [hx]))]

theorem sum_map_length_flatMap {α β : Type} (l : List α) (f : α → List β) :
    (l.map fun a => (f a).length).sum = (l.flatMap f).length := by
  induction l with
  | nil => rfl
  | cons a l ih => simp [List.flatMap_cons, ih]

theorem length_le_flatMap {α β : Type} (l : List α) (f : α → List β)
    (h : ∀ a ∈ l, 0 < (f a).length) : l.length ≤ (l.flatMap f).length := by
  induction l with
  | nil => simp
  | cons a l ih =>
    have := h a (by simp)
    have := ih (fun x hx => h x (by simp [hx]))
    simp only [List.flatMap_cons, List.length_append, List.length_cons]
    omega

/-- The pipeline `calculate_frequencies`, `build_huffman_tree`, `generate_codes`,
`encode_data` on a non-empty buffer, with everything the decoder needs. -/
theorem encode_pipeline (B : List Byte) (hB : B ≠ [])
    (hfit : ∀ c, (B.count c : Int) ≤ INT_MAX) :
    ∃ codes cc e,
      generate_codes (build_huffman_tree (calculate_frequencies B zero_frequencies))
        zero_code_table zero_current_code 0 = some (codes, cc) ∧
      encode_data B codes = some e ∧
      Built (calculate_frequencies B zero_frequencies)
        (build_huffman_tree (calculate_frequencies B zero_frequencies)) ∧
      (∀ b ∈ B, (b, path_of (build_huffman_tree (calculate_frequencies B zero_frequencies)) b) ∈
        paths (build_huffman_tree (calculate_frequencies B zero_frequencies))) ∧
      e.encoded_data.length = e.encoded_bytes ∧
      e.padding < 8 ∧
      8 * e.encoded_bytes =
        (B.flatMap (path_of
          (build_huffman_tree (calculate_frequencies B zero_frequencies)))).length + e.padding ∧
      B.length ≤ (B.flatMap (path_of
          (build_huffman_tree (calculate_frequencies B zero_frequencies)))).length ∧
      bits_of e.encoded_data =
        B.flatMap (path_of (build_huffman_tree (calculate_frequencies B zero_frequencies))) ++
          List.replicate e.padding false := by
  generalize hf : calculate_frequencies B zero_frequencies = f
  have hpos : ∀ c, f c > 0 ↔ c ∈ B := by
    intro c; rw [← hf]; exact calculate_frequencies_pos B hfit c
  have hex : ∃ c, f c > 0 := by
    obtain ⟨b, hb⟩ := List.exists_mem_of_ne_nil B hB
    exact ⟨b, (hpos b).2 hb⟩
  have hbuilt := build_huffman_tree_built f hex
  obtain ⟨codes, cc, hgen, hzero, hpath⟩ := generate_codes_built f hex
  generalize build_huffman_tree f = T at *
  have hmem : ∀ b ∈ B, (b, path_of T b) ∈ paths T := fun b hb =>
    path_of_mem T b ((hbuilt.mem_leaves b).2 ((hpos b).2 hb))
  have hentry : ∀ c, code_bits (codes c) = (if f c > 0 then path_of T c else []) ∧
      (codes c).length ≤ (codes c).code.length ∧
      (codes c).length = (if f c > 0 then path_of T c else []).length := by
    intro c
    by_cases hc : f c > 0
    · rw [if_pos hc]
      have hm := path_of_mem T c ((hbuilt.mem_leaves c).2 hc)
      obtain ⟨h1, h2⟩ := hpath c _ hm
      obtain ⟨h3, h4⟩ := code_bits_of_c_string h1 h2
      exact ⟨h3, h4, h2⟩
    · rw [if_neg hc, hzero c hc]
      simp only [code_bits, zero_code_table, List.take_zero, List.map_nil, List.length_nil,
        Nat.zero_le, and_self]
  have hfit : TableFits codes := fun c => (hentry c).2.1
  have hbits : (B.flatMap fun b => code_bits (codes b)) = B.flatMap (path_of T) :=
    flatMap_congr_mem B _ _ (fun b hb => by rw [(hentry b).1, if_pos ((hpos b).2 hb)])
  have htot : total_bits B codes = (B.flatMap (path_of T)).length := by
    unfold total_bits
    rw [← hbits, ← sum_map_length_flatMap]
    congr 1
    apply List.map_congr_left
    intro b hb
    rw [(hentry b).2.2, (hentry b).1]
  have hlen : B.length ≤ (B.flatMap (path_of T)).length :=
    length_le_flatMap B _ (fun b hb => hbuilt.path_pos b _ (hmem b hb))
  have hBpos : 0 < B.length := List.length_pos.2 hB
  obtain ⟨e, he, hpad, hbytes, hel, heb⟩ := encode_data_spec B codes hfit (by omega)
  rw [htot] at hpad hbytes
  rw [hbits] at heb
  refine ⟨codes, cc, e, hgen, he, hbuilt, hmem, hel, by omega, by omega, hlen, heb⟩

theorem splice_length (buf : List Byte) (pos : Nat) (xs : List Byte)
    (h : pos + xs.length ≤ buf.length) : (splice buf pos xs).length = buf.length := by
  simp only [splice, List.length_append, List.length_take, List.length_drop]
  omega

theorem splice_getElem? (buf : List Byte) (pos : Nat) (xs : List Byte)
    (h : pos + xs.length ≤ buf.length) (i : Nat) :
    (splice buf pos xs)[i]? =
      if i < pos then buf[i]? else if i < pos + xs.length then xs[i - pos]? else buf[i]? := by
  unfold splice
  have htl : (buf.take pos).length = pos := by simp; omega
  by_cases h1 : i < pos
  · rw [if_pos h1, List.append_assoc, List.getElem?_append_left (by omega),
      List.getElem?_take_of_lt h1]
  · rw [if_neg h1, List.append_assoc, List.getElem?_append_right (by omega), htl]
    by_cases h2 : i < pos + xs.length
    · rw [if_pos h2, List.getElem?_append_left (by omega)]
    · rw [if_neg h2, List.getElem?_append_right (by omega), List.getElem?_drop]
      congr 1
      omega

theorem set_eq_splice (buf : List Byte) (pos : Nat) (v : Byte) (h : pos < buf.length) :
    buf.set pos v = splice buf pos [v] := by
  apply List.ext_getElem?
  intro i
  rw [splice_getElem? _ _ _ (by simpa using h), List.getElem?_set]
  by_cases h1 : pos = i
  · subst h1
    simp [h]
  · rw [if_neg h1]
    by_cases h2 : i < pos
    · rw [if_pos h2]
    · rw [if_neg h2, if_neg (by simp only [List.length_singleton]; omega)]

theorem splice_splice (buf : List Byte) (pos : Nat) (xs ys : List Byte)
    (h : pos + xs.length + ys.length ≤ buf.length) :
    splice (splice buf pos xs) (pos + xs.length) ys = splice buf pos (xs ++ ys) := by
  apply List.ext_getElem?
  intro i
  rw [splice_getElem? _ _ _ (by rw [splice_length _ _ _ (by omega)]; omega),
    splice_getElem? _ _ _ (by omega),
    splice_getElem? _ _ _ (by simp only [List.length_append]; omega)]
  simp only [List.length_append]
  by_cases h1 : i < pos
  · rw [if_pos h1, if_pos (by omega), if_pos h1]
  · rw [if_neg h1]
    by_cases h2 : i < pos + xs.length
    · rw [if_pos h2, if_pos h2, if_neg h1, if_pos (by omega),
        List.getElem?_append_left (by omega)]
    · rw [if_neg h2, if_neg h2]
      by_cases h3 : i < pos + xs.length + ys.length
      · rw [if_pos h3, if_neg h1, if_pos (by omega),
          List.getElem?_append_right (by omega)]
        congr 1
        omega
      · rw [if_neg h3, if_neg h1, if_neg (by omega)]

theorem serialize_tree_spec (t : HuffmanNode) :
    ∀ (buf : List Byte) (pos : Nat), pos + (tree_bytes t).length ≤ buf.length →
      serialize_tree t buf pos =
        some (splice buf pos (tree_bytes t), pos + (tree_bytes t).length) := by
  induction t with
  | null =>
    intro buf pos h
    simp only [tree_bytes, List.length_singleton] at h ⊢
    simp only [serialize_tree]
    rw [store_eq _ _ _ (by omega), set_eq_splice _ _ _ (by omega)]
    rfl
  | node c f l r leaf ihl ihr =>
    intro buf pos h
    cases leaf with
    | true =>
      simp only [tree_bytes, if_true, List.length_cons, List.length_nil] at h ⊢
      simp only [serialize_tree, if_true]
      rw [store_eq _ _ _ (by omega)]
      simp only [Option.some_bind]
      rw [store_eq _ _ _ (by simp only [List.length_set]; omega)]
      simp only [Option.map_some', Option.some.injEq, Prod.mk.injEq, and_true]
      rw [set_eq_splice buf pos 1 (by omega),
        set_eq_splice _ (pos + 1) c (by rw [splice_length _ _ _ (by simp; omega)]; omega)]
      exact splice_splice buf pos [1] [c] (by simp; omega)
    | false =>
      simp only [tree_bytes, Bool.false_eq_true, if_false, List.length_cons,
        List.length_append] at h ⊢
      simp only [serialize_tree, Bool.false_eq_true, if_false]
      rw [store_eq _ _ _ (by omega)]
      simp only [Option.some_bind]
      rw [ihl _ _ (by simp only [List.length_set]; omega)]
      simp only [Option.some_bind]
      rw [set_eq_splice buf pos 2 (by omega)]
      have hl1 : (splice buf pos [2]).length = buf.length :=
        splice_length _ _ _ (by simp; omega)
      have hs1 := splice_splice buf pos [2] (tree_bytes l) (by simp; omega)
      simp only [List.length_singleton] at hs1
      rw [hs1]
      rw [ihr _ _ (by rw [splice_length _ _ _ (by simp; omega)]; omega)]
      simp only [Option.some.injEq, Prod.mk.injEq]
      refine ⟨?_, by omega⟩
      have hs2 := splice_splice buf pos ([2] ++ tree_bytes l) (tree_bytes r)
        (by simp; omega)
      have hpos : pos + ([2] ++ tree_bytes l).length = pos + 1 + (tree_bytes l).length := by
        simp only [List.length_append, List.length_singleton]
        omega
      rw [hpos] at hs2
      rw [hs2]
      rfl

theorem drop_cons_get {α : Type} {buf : List α} {pos : Nat} {x : α} {tl : List α}
    (h : buf.drop pos = x :: tl) : buf.get? pos = some x ∧ buf.drop (pos + 1) = tl := by
  have hlt : pos < buf.length := by
    by_contra hc
    rw [List.drop_eq_nil_of_le (by omega)] at h
    cases h
  rw [List.drop_eq_getElem_cons hlt] at h
  obtain ⟨h1, h2⟩ := List.cons.inj h
  exact ⟨by rw [List.get?_eq_getElem?, List.getElem?_eq_getElem hlt, h1], h2⟩

theorem deserialize_tree_fuel_spec (t : HuffmanNode) :
    ∀ (fuel : Nat) (buf : List Byte) (pos : Nat) (rest : List Byte),
      buf.drop pos = tree_bytes t ++ rest → (tree_bytes t).length ≤ fuel →
      deserialize_tree_fuel fuel buf pos = some (strip t, pos + (tree_bytes t).length) := by
  induction t with
  | null =>
    intro fuel buf pos rest h hf
    simp only [tree_bytes, List.length_singleton, List.singleton_append] at h hf ⊢
    obtain ⟨n, rfl⟩ : ∃ n, fuel = n + 1 := ⟨fuel - 1, by omega⟩
    obtain ⟨h1, _⟩ := drop_cons_get h
    simp only [deserialize_tree_fuel, h1, Option.some_bind, if_true]
    rfl
  | node c f l r leaf ihl ihr =>
    intro fuel buf pos rest h hf
    obtain ⟨n, rfl⟩ : ∃ n, fuel = n + 1 :=
      ⟨fuel - 1, by cases leaf <;> simp [tree_bytes] at hf <;> omega⟩
    cases leaf with
    | true =>
      simp only [tree_bytes, if_true, List.cons_append, List.nil_append, List.length_cons,
        List.length_nil] at h hf ⊢
      obtain ⟨h1, h2⟩ := drop_cons_get h
      obtain ⟨h3, _⟩ := drop_cons_get h2
      simp only [deserialize_tree_fuel, h1, h3, Option.some_bind, Option.map_some']
      rw [if_neg (by decide), if_pos trivial]
      rfl
    | false =>
      simp only [tree_bytes, Bool.false_eq_true, if_false, List.cons_append,
        List.append_assoc, List.length_cons, List.length_append] at h hf ⊢
      obtain ⟨h1, h2⟩ := drop_cons_get h
      have hl := ihl n buf (pos + 1) (tree_bytes r ++ rest) h2 (by omega)
      have h3 : buf.drop (pos + 1 + (tree_bytes l).length) = tree_bytes r ++ rest := by
        rw [← List.drop_drop, h2, List.drop_left']
        rfl
      have hr := ihr n buf (pos + 1 + (tree_bytes l).length) rest h3 (by omega)
      simp only [deserialize_tree_fuel, h1, Option.some_bind]
      rw [if_neg (by decide), if_neg (by decide), if_pos trivial, hl]
      simp only [Option.some_bind]
      rw [hr]
      simp only [Option.map_some', strip, Bool.false_eq_true, if_false, Option.some.injEq,
        Prod.mk.injEq, true_and]
      omega

theorem same_shape_strip (t : HuffmanNode) (h : Clean t) : same_shape t (strip t) := by
  induction t with
  | null => trivial
  | node c f l r leaf ihl ihr =>
    cases leaf with
    | true =>
      obtain ⟨rfl, rfl⟩ := h
      exact ⟨rfl, fun _ => rfl, trivial, trivial⟩
    | false =>
      have h1 := ihl h.1
      have h2 := ihr h.2
      simp only [strip, same_shape, Bool.false_eq_true, if_false, false_implies, true_and]
      exact ⟨h1, h2⟩

theorem Proper.clean {t : HuffmanNode} (h : Proper t) : Clean t := by
  induction t with
  | null => trivial
  | node c f l r leaf ihl ihr =>
    cases leaf with
    | true => exact h
    | false => exact ⟨ihl h.2.1, ihr h.2.2⟩

theorem Proper.tree_bytes_length {t : HuffmanNode} (h : Proper t) :
    (tree_bytes t).length + 1 = 3 * (leaves t).length := by
  induction t with
  | null => exact absurd h id
  | node c f l r leaf ihl ihr =>
    cases leaf with
    | true => simp [tree_bytes, leaves]
    | false =>
      have h1 := ihl h.2.1
      have h2 := ihr h.2.2
      simp only [tree_bytes, leaves, Bool.false_eq_true, if_false, List.length_cons,
        List.length_append]
      omega

/-- The two forms of the tree that `build_huffman_tree` returns. -/
theorem build_huffman_tree_shape (frequencies : Byte → Int) (h : ∃ c, frequencies c > 0) :
    (∃ s, symbols frequencies = [s] ∧
      build_huffman_tree frequencies =
        .node 0 (frequencies s) (create_node s (frequencies s) true) .null false) ∨
    (2 ≤ (symbols frequencies).length ∧ Proper (build_huffman_tree frequencies) ∧
      (leaves (build_huffman_tree frequencies)).Perm (symbols frequencies)) := by
  have hne := symbols_ne_nil frequencies h
  match hs : symbols frequencies with
  | [] => exact absurd hs hne
  | [s] => exact Or.inl ⟨s, rfl, build_huffman_tree_single frequencies s hs⟩
  | a :: b :: rest =>
    have h2 : 2 ≤ (symbols frequencies).length := by simp [hs]
    obtain ⟨hp, hl⟩ := build_huffman_tree_forest frequencies h2
    exact Or.inr ⟨by simp, hp, hs ▸ hl⟩

theorem build_huffman_tree_bytes (frequencies : Byte → Int) (h : ∃ c, frequencies c > 0) :
    Clean (build_huffman_tree frequencies) ∧
      (tree_bytes (build_huffman_tree frequencies)).length ≤ 767 := by
  rcases build_huffman_tree_shape frequencies h with ⟨s, _, hb⟩ | ⟨_, hp, hl⟩
  · rw [hb]
    exact ⟨⟨⟨rfl, rfl⟩, trivial⟩, by simp [tree_bytes, create_node]⟩
  · refine ⟨hp.clean, ?_⟩
    have h1 := hp.tree_bytes_length
    have h3 := nodup_bytes_length (hl.nodup_iff.2 (symbols_nodup frequencies))
    omega

theorem heapify_up_fuel_succ (fuel : Nat) (nodes : List HuffmanNode) (index : Nat) :
    heapify_up_fuel (fuel + 1) nodes index =
      if index = 0 then nodes
      else
        if (nodes.getD ((index - 1) / 2) .null).frequency > (nodes.getD index .null).frequency
        then heapify_up_fuel fuel (swap_nodes nodes ((index - 1) / 2) index) ((index - 1) / 2)
        else nodes := rfl

/-- `heapify_up` never runs out of fuel: from `index` units on, more fuel changes
nothing. -/
theorem heapify_up_fuel_enough (fuel : Nat) (nodes : List HuffmanNode) (index : Nat)
    (h : index ≤ fuel) :
    heapify_up_fuel (fuel + 1) nodes index = heapify_up_fuel fuel nodes index := by
  induction fuel generalizing nodes index with
  | zero =>
    have h0 : index = 0 := by omega
    subst h0
    rfl
  | succ n ih =>
    conv_lhs => rw [heapify_up_fuel_succ (n + 1) nodes index]
    conv_rhs => rw [heapify_up_fuel_succ n nodes index]
    split_ifs with h0 h1
    · rfl
    · exact ih _ _ (by omega)
    · rfl

theorem heapify_down_fuel_succ (fuel : Nat) (nodes : List HuffmanNode) (index : Nat) :
    heapify_down_fuel (fuel + 1) nodes index =
      if heapify_down_smallest nodes index ≠ index then
        heapify_down_fuel fuel (swap_nodes nodes index (heapify_down_smallest nodes index))
          (heapify_down_smallest nodes index)
      else nodes := rfl

/-- `heapify_down` never runs out of fuel: from `size - index` units on, more fuel
changes nothing. -/
theorem heapify_down_fuel_enough (fuel : Nat) (nodes : List HuffmanNode) (index : Nat)
    (h : nodes.length ≤ fuel + index) :
    heapify_down_fuel (fuel + 1) nodes index = heapify_down_fuel fuel nodes index := by
  induction fuel generalizing nodes index with
  | zero =>
    rw [heapify_down_fuel_succ]
    rcases heapify_down_smallest_cases nodes index with hc | hc | hc
    · rw [if_neg (by simp [hc.1])]
      rfl
    · omega
    · omega
  | succ n ih =>
    conv_lhs => rw [heapify_down_fuel_succ (n + 1) nodes index]
    conv_rhs => rw [heapify_down_fuel_succ n nodes index]
    split_ifs with h0
    · rcases heapify_down_smallest_cases nodes index with hc | hc | hc
      · exact absurd hc.1 h0
      · rw [hc.1]
        exact ih _ _ (by rw [swap_nodes_length]; omega)
      · rw [hc.1]
        exact ih _ _ (by rw [swap_nodes_length]; omega)
    · rfl

theorem heap_insert_size_le (heap : MinHeap) (x : HuffmanNode) :
    (heap_insert heap x).size ≤ heap.size + 1 := by
  by_cases h : heap.size < heap.capacity
  · rw [heap_insert_size heap x h]
  · rw [heap_insert_full heap x (by omega)]
    omega

theorem merge_loop_with_succ (add : Int → Int → Int) (fuel : Nat) (heap : MinHeap) :
    merge_loop_with add (fuel + 1) heap =
      if heap.size > 1 then
        if (heap_extract_min heap).1 = .null ∨
            (heap_extract_min (heap_extract_min heap).2).1 = .null then
          (heap_extract_min (heap_extract_min heap).2).2
        else
          merge_loop_with add fuel (heap_insert (heap_extract_min (heap_extract_min heap).2).2
            (HuffmanNode.node 0 (add (heap_extract_min heap).1.frequency
              (heap_extract_min (heap_extract_min heap).2).1.frequency)
              (heap_extract_min heap).1 (heap_extract_min (heap_extract_min heap).2).1 false))
      else heap := rfl

/-- The merge loop never runs out of fuel: from `size - 1` units on, more fuel changes
nothing. -/
theorem merge_loop_with_enough (add : Int → Int → Int) (fuel : Nat) (heap : MinHeap)
    (h : heap.size ≤ fuel + 1) :
    merge_loop_with add (fuel + 1) heap = merge_loop_with add fuel heap := by
  induction fuel generalizing heap with
  | zero =>
    rw [merge_loop_with_succ, if_neg (by omega)]
    rfl
  | succ n ih =>
    conv_lhs => rw [merge_loop_with_succ add (n + 1) heap]
    conv_rhs => rw [merge_loop_with_succ add n heap]
    by_cases hs : heap.size > 1
    · rw [if_pos hs, if_pos hs]
      split_ifs with hbrk
      · rfl
      · apply ih
        have h1 := heap_extract_min_size heap (by omega)
        have h2 := heap_extract_min_size (heap_extract_min heap).2 (by omega)
        have h3 := heap_insert_size_le (heap_extract_min (heap_extract_min heap).2).2
          (HuffmanNode.node 0 (add (heap_extract_min heap).1.frequency
            (heap_extract_min (heap_extract_min heap).2).1.frequency) (heap_extract_min heap).1
            (heap_extract_min (heap_extract_min heap).2).1 false)
        omega
    · rw [if_neg hs, if_neg hs]

theorem merge_loop_succ (fuel : Nat) (heap : MinHeap) :
    merge_loop (fuel + 1) heap =
      if heap.size > 1 then
        if (heap_extract_min heap).1 = .null ∨
            (heap_extract_min (heap_extract_min heap).2).1 = .null then
          (heap_extract_min (heap_extract_min heap).2).2
        else
          merge_loop fuel (heap_insert (heap_extract_min (heap_extract_min heap).2).2
            (HuffmanNode.node 0 (int_add (heap_extract_min heap).1.frequency
              (heap_extract_min (heap_extract_min heap).2).1.frequency)
              (heap_extract_min heap).1 (heap_extract_min (heap_extract_min heap).2).1 false))
      else heap := rfl

/-- The merge loop of `build_huffman_tree` never runs out of fuel. -/
theorem merge_loop_enough (fuel : Nat) (heap : MinHeap) (h : heap.size ≤ fuel + 1) :
    merge_loop (fuel + 1) heap = merge_loop fuel heap :=
  merge_loop_with_enough int_add fuel heap h

theorem deserialize_tree_fuel_succ (fuel : Nat) (buffer : List Byte) (pos : Nat) :
    deserialize_tree_fuel (fuel + 1) buffer pos =
      (buffer.get? pos).bind fun marker =>
        if marker = 0 then some (.null, pos + 1)
        else if marker = 1 then
          (buffer.get? (pos + 1)).map fun character => (create_node character 0 true, pos + 2)
        else if marker = 2 then
          (deserialize_tree_fuel fuel buffer (pos + 1)).bind fun l =>
            (deserialize_tree_fuel fuel buffer l.2).map fun r =>
              (HuffmanNode.node 0 0 l.1 r.1 false, r.2)
        else some (.null, pos + 1) := rfl

/-- `deserialize_tree` moves the read position forward. -/
theorem deserialize_tree_fuel_pos (fuel : Nat) (buffer : List Byte) (pos : Nat)
    (r : HuffmanNode × Nat) (h : deserialize_tree_fuel fuel buffer pos = some r) :
    pos < r.2 := by
  induction fuel generalizing pos r with
  | zero => cases h
  | succ n ih =>
    rw [deserialize_tree_fuel_succ] at h
    cases hm : buffer.get? pos with
    | none => rw [hm] at h; cases h
    | some marker =>
      rw [hm] at h
      simp only [Option.some_bind] at h
      split_ifs at h with h0 h1 h2
      · cases h; exact Nat.lt_succ_self _
      · cases hc : buffer.get? (pos + 1) with
        | none => rw [hc] at h; cases h
        | some c =>
          rw [hc] at h
          cases h
          show pos < pos + 2
          omega
      · cases hl : deserialize_tree_fuel n buffer (pos + 1) with
        | none => rw [hl] at h; cases h
        | some l =>
          rw [hl] at h
          simp only [Option.some_bind] at h
          cases hr : deserialize_tree_fuel n buffer l.2 with
          | none => rw [hr] at h; cases h
          | some r' =>
            rw [hr] at h
            cases h
            have := ih _ _ hl
            have := ih _ _ hr
            show pos < r'.2
            omega
      · cases h; exact Nat.lt_succ_self _

/-- `deserialize_tree` never runs out of fuel: every call reads a byte before it
recurses, so from `length + 1 - pos` units on, more fuel changes nothing. -/
theorem deserialize_tree_fuel_enough (fuel : Nat) (buffer : List Byte) (pos : Nat)
    (h : buffer.length + 1 ≤ fuel + pos) :
    deserialize_tree_fuel (fuel + 1) buffer pos = deserialize_tree_fuel fuel buffer pos := by
  induction fuel generalizing pos with
  | zero =>
    have hge : buffer.length ≤ pos := by omega
    rw [deserialize_tree_fuel_succ, List.get?_eq_getElem?, List.getElem?_eq_none hge]
    rfl
  | succ n ih =>
    conv_lhs => rw [deserialize_tree_fuel_succ (n + 1) buffer pos]
    conv_rhs => rw [deserialize_tree_fuel_succ n buffer pos]
    cases hm : buffer.get? pos with
    | none => rfl
    | some marker =>
      simp only [Option.some_bind]
      split_ifs with h0 h1 h2
      · rfl
      · rfl
      · rw [ih (pos + 1) (by omega)]
        cases hl : deserialize_tree_fuel n buffer (pos + 1) with
        | none => rfl
        | some l =>
          simp only [Option.some_bind]
          have := deserialize_tree_fuel_pos n buffer (pos + 1) l hl
          rw [ih l.2 (by omega)]
      · rfl

theorem depth_cost_perm {L M : List (Byte × Int)} (h : L.Perm M) (d : Byte → Nat) :
    depth_cost L d = depth_cost M d :=
  (h.map _).sum_eq

theorem kraft_sum_perm {L M : List (Byte × Int)} (h : L.Perm M) (d : Byte → Nat) (H : Nat) :
    kraft_sum L d H = kraft_sum M d H :=
  (h.map _).sum_eq

theorem Kraft_perm {L M : List (Byte × Int)} (h : L.Perm M) (d : Byte → Nat) (H : Nat)
    (hk : Kraft L d H) : Kraft M d H :=
  ⟨fun x hx => hk.1 x (h.mem_iff.2 hx), by rw [← kraft_sum_perm h]; exact hk.2⟩

theorem depth_cost_cons (x : Byte × Int) (L : List (Byte × Int)) (d : Byte → Nat) :
    depth_cost (x :: L) d = x.2 * (d x.1 : Int) + depth_cost L d := by
  simp [depth_cost]

theorem kraft_sum_cons (x : Byte × Int) (L : List (Byte × Int)) (d : Byte → Nat) (H : Nat) :
    kraft_sum (x :: L) d H = 2 ^ (H - d x.1) + kraft_sum L d H := by
  simp [kraft_sum]

theorem depth_cost_congr (L : List (Byte × Int)) (d e : Byte → Nat)
    (h : ∀ x ∈ L, d x.1 = e x.1) : depth_cost L d = depth_cost L e := by
  unfold depth_cost
  congr 1
  apply List.map_congr_left
  intro x hx
  rw [h x hx]

theorem kraft_sum_congr (L : List (Byte × Int)) (d e : Byte → Nat) (H : Nat)
    (h : ∀ x ∈ L, d x.1 = e x.1) : kraft_sum L d H = kraft_sum L e H := by
  unfold kraft_sum
  congr 1
  apply List.map_congr_left
  intro x hx
  rw [h x hx]

theorem kraft_sum_dvd (L : List (Byte × Int)) (d : Byte → Nat) (H k : Nat)
    (h : ∀ x ∈ L, d x.1 ≤ k) : 2 ^ (H - k) ∣ kraft_sum L d H := by
  unfold kraft_sum
  apply List.dvd_sum
  intro a ha
  obtain ⟨x, hx, rfl⟩ := List.mem_map.1 ha
  exact pow_dvd_pow 2 (by have := h x hx; omega)

theorem add_le_of_dvd_of_lt {m a b : Nat} (ha : m ∣ a) (hb : m ∣ b) (h : a < b) :
    a + m ≤ b := by
  obtain ⟨k1, rfl⟩ := ha
  obtain ⟨k2, rfl⟩ := hb
  have hm : 0 < m := by
    rcases Nat.eq_zero_or_pos m with h0 | h0
    · subst h0; simp at h
    · exact h0
  have hk : k1 < k2 := lt_of_mul_lt_mul_left h (Nat.zero_le m)
  calc m * k1 + m = m * (k1 + 1) := by ring
    _ ≤ m * k2 := Nat.mul_le_mul_left m hk

/-- The merge step on depth assignments that already have the two lightest symbols
deepest: the two depths `d x ≥ d y` are replaced by the one depth `d y - 1`. -/
theorem merge_sorted (x y : Byte) (wx wy : Int) (R : List (Byte × Int)) (d : Byte → Nat)
    (H : Nat) (hxR : ∀ z ∈ R, z.1 ≠ x) (hwx : 0 ≤ wx)
    (hxy : d y ≤ d x) (hyR : ∀ z ∈ R, d z.1 ≤ d y)
    (hk : Kraft ((x, wx) :: (y, wy) :: R) d H) :
    Kraft ((x, wx + wy) :: R) (Function.update d x (d y - 1)) H ∧
      depth_cost ((x, wx + wy) :: R) (Function.update d x (d y - 1)) + wx + wy ≤
        depth_cost ((x, wx) :: (y, wy) :: R) d := by
  obtain ⟨hb, hs⟩ := hk
  have hdxH : d x ≤ H := hb (x, wx) (by simp)
  have hdyH : d y ≤ H := hb (y, wy) (by simp)
  rw [kraft_sum_cons, kraft_sum_cons] at hs
  simp only at hs
  have hpos : 0 < 2 ^ (H - d x) := Nat.pow_pos (by decide)
  have hy1 : 1 ≤ d y := by
    by_contra hc
    have h0 : d y = 0 := by omega
    rw [h0, Nat.sub_zero] at hs
    omega
  have hRd : ∀ z ∈ R, Function.update d x (d y - 1) z.1 = d z.1 := fun z hz =>
    Function.update_noteq (hxR z hz) _ _
  refine ⟨⟨?_, ?_⟩, ?_⟩
  · intro z hz
    rcases List.mem_cons.1 hz with rfl | hz
    · simp only [Function.update_same]; omega
    · rw [hRd z hz]; exact hb z (by simp [hz])
  · rw [kraft_sum_cons, kraft_sum_congr R _ d H hRd]
    simp only [Function.update_same]
    have hdvd : 2 ^ (H - d y) ∣ 2 ^ (H - d y) + kraft_sum R d H :=
      Dvd.dvd.add (dvd_refl _) (kraft_sum_dvd R d H (d y) hyR)
    have hdvdH : 2 ^ (H - d y) ∣ 2 ^ H := pow_dvd_pow 2 (by omega)
    have hlt : 2 ^ (H - d y) + kraft_sum R d H < 2 ^ H := by omega
    have := add_le_of_dvd_of_lt hdvd hdvdH hlt
    have h2 : 2 ^ (H - (d y - 1)) = 2 * 2 ^ (H - d y) := by
      have : H - (d y - 1) = (H - d y) + 1 := by omega
      rw [this, pow_succ]; ring
    rw [h2]
    omega
  · rw [depth_cost_cons, depth_cost_cons, depth_cost_cons, depth_cost_congr R _ d hRd]
    simp only [Function.update_same]
    have hc : ((d y - 1 : Nat) : Int) = (d y : Int) - 1 := by omega
    rw [hc]
    have hle : wx * (d y : Int) ≤ wx * (d x : Int) :=
      mul_le_mul_of_nonneg_left (by exact_mod_cast hxy) hwx
    nlinarith

theorem swap_depth_other (d : Byte → Nat) (a b s : Byte) (ha : s ≠ a) (hb : s ≠ b) :
    swap_depth d a b s = d s := by
  simp [swap_depth, ha, hb]

theorem swap_depth_left (d : Byte → Nat) (a b : Byte) : swap_depth d a b a = d b := by
  simp [swap_depth]

theorem swap_depth_right (d : Byte → Nat) (a b : Byte) : swap_depth d a b b = d a := by
  by_cases h : b = a
  · subst h; simp [swap_depth]
  · simp [swap_depth, h]

theorem swap_basic (a b : Byte) (wa wb : Int) (Rest : List (Byte × Int)) (d : Byte → Nat)
    (H : Nat) (hR : ∀ z ∈ Rest, z.1 ≠ a ∧ z.1 ≠ b) :
    depth_cost ((a, wa) :: (b, wb) :: Rest) (swap_depth d a b) =
        wa * (d b : Int) + wb * (d a : Int) + depth_cost Rest d ∧
      kraft_sum ((a, wa) :: (b, wb) :: Rest) (swap_depth d a b) H =
        kraft_sum ((a, wa) :: (b, wb) :: Rest) d H := by
  have hcongr : ∀ z ∈ Rest, swap_depth d a b z.1 = d z.1 := fun z hz =>
    swap_depth_other d a b z.1 (hR z hz).1 (hR z hz).2
  refine ⟨?_, ?_⟩
  · rw [depth_cost_cons, depth_cost_cons, depth_cost_congr Rest _ d hcongr]
    simp only [swap_depth_left, swap_depth_right]
    ring
  · rw [kraft_sum_cons, kraft_sum_cons, kraft_sum_cons, kraft_sum_cons,
      kraft_sum_congr Rest _ d H hcongr]
    simp only [swap_depth_left, swap_depth_right]
    omega

theorem exists_deepest (T : List (Byte × Int)) (d : Byte → Nat) (hT : T ≠ []) :
    ∃ p ∈ T, ∀ z ∈ T, d z.1 ≤ d p.1 := by
  induction T with
  | nil => exact absurd rfl hT
  | cons t T ih =>
    by_cases hT' : T = []
    · subst hT'
      exact ⟨t, by simp, fun z hz => by simp at hz; rw [hz]⟩
    · obtain ⟨p, hp, hmax⟩ := ih hT'
      by_cases hle : d p.1 ≤ d t.1
      · refine ⟨t, by simp, fun z hz => ?_⟩
        rcases List.mem_cons.1 hz with rfl | hz
        · exact le_refl _
        · exact le_trans (hmax z hz) hle
      · refine ⟨p, by simp [hp], fun z hz => ?_⟩
        rcases List.mem_cons.1 hz with rfl | hz
        · omega
        · exact hmax z hz

/-- The exchange step: the head `a` of `T`, lightest of `a :: T`, can be given the
largest depth of `a :: T` without raising the cost, leaving the depths of the symbols
of `Fr` alone. -/
theorem promote (Fr : List (Byte × Int)) (a : Byte) (wa : Int) (T : List (Byte × Int))
    (hnd : ((Fr ++ (a, wa) :: T).map Prod.fst).Nodup) (hmin : ∀ z ∈ T, wa ≤ z.2)
    (d : Byte → Nat) (H : Nat) (hk : Kraft (Fr ++ (a, wa) :: T) d H) :
    ∃ d1, Kraft (Fr ++ (a, wa) :: T) d1 H ∧
      depth_cost (Fr ++ (a, wa) :: T) d1 ≤ depth_cost (Fr ++ (a, wa) :: T) d ∧
      (∀ z ∈ T, d1 z.1 ≤ d1 a) ∧ (∀ z ∈ Fr, d1 z.1 = d z.1) ∧
      (∃ p ∈ (a, wa) :: T, d1 a = d p.1) := by
  by_cases hT : T = []
  · subst hT
    exact ⟨d, hk, le_refl _, fun z hz => by simp at hz, fun _ _ => rfl, (a, wa), by simp, rfl⟩
  obtain ⟨p, hp, hmax⟩ := exists_deepest T d hT
  by_cases hle : d p.1 ≤ d a
  · exact ⟨d, hk, le_refl _, fun z hz => le_trans (hmax z hz) hle, fun _ _ => rfl,
      (a, wa), by simp, rfl⟩
  have hlt : d a < d p.1 := by omega
  -- bring `a` and `p` to the front
  obtain ⟨s1, s2, hsplit⟩ := List.append_of_mem hp
  obtain ⟨T', hT'⟩ : ∃ T', T' = s1 ++ s2 := ⟨_, rfl⟩
  have hpermT : T.Perm (p :: T') := by
    rw [hsplit, hT']
    exact List.perm_middle
  have hperm : (Fr ++ (a, wa) :: T).Perm ((a, wa) :: p :: (Fr ++ T')) := by
    have h1 : (Fr ++ (a, wa) :: T).Perm ((a, wa) :: T ++ Fr) := List.perm_append_comm
    refine h1.trans ?_
    simp only [List.cons_append]
    refine List.Perm.cons _ ?_
    refine (List.Perm.append_right Fr hpermT).trans ?_
    simp only [List.cons_append]
    exact List.Perm.cons _ List.perm_append_comm
  have hnd2 : (((a, wa) :: p :: (Fr ++ T')).map Prod.fst).Nodup :=
    (hperm.map Prod.fst).nodup_iff.1 hnd
  simp only [List.map_cons, List.nodup_cons, List.mem_cons, List.mem_map, not_or,
    not_exists, not_and] at hnd2
  obtain ⟨⟨hap, haR⟩, hpR, _⟩ := hnd2
  have hR : ∀ z ∈ Fr ++ T', z.1 ≠ a ∧ z.1 ≠ p.1 := fun z hz =>
    ⟨fun h => haR z hz h, fun h => hpR z hz h⟩
  obtain ⟨hcost, hkraft⟩ := swap_basic a p.1 wa p.2 (Fr ++ T') d H hR
  have hpeta : (p.1, p.2) = p := rfl
  rw [hpeta] at hcost hkraft
  refine ⟨swap_depth d a p.1, ⟨?_, ?_⟩, ?_, ?_, ?_, ?_⟩
  · intro z hz
    by_cases hza : z.1 = a
    · rw [hza, swap_depth_left]; exact hk.1 p (by simp [hp])
    · by_cases hzp : z.1 = p.1
      · rw [hzp, swap_depth_right]; exact hk.1 (a, wa) (by simp)
      · rw [swap_depth_other d a p.1 z.1 hza hzp]; exact hk.1 z hz
  · rw [kraft_sum_perm hperm, hkraft, ← kraft_sum_perm hperm]
    exact hk.2
  · rw [depth_cost_perm hperm, hcost, depth_cost_perm hperm d, depth_cost_cons,
      depth_cost_cons]
    simp only
    have hw : wa ≤ p.2 := hmin p hp
    have hd : (d a : Int) ≤ (d p.1 : Int) := by exact_mod_cast hlt.le
    nlinarith
  · intro z hz
    rw [swap_depth_left]
    by_cases hzp : z.1 = p.1
    · rw [hzp, swap_depth_right]; omega
    · have hza : z.1 ≠ a := by
        intro h
        have : a ∈ (Fr ++ (a, wa) :: T).map Prod.fst → True := fun _ => trivial
        rw [List.map_append, List.map_cons, List.nodup_append] at hnd
        have hnd' := hnd.2.1
        rw [List.nodup_cons] at hnd'
        exact hnd'.1 (List.mem_map.2 ⟨z, hz, h⟩)
      rw [swap_depth_other d a p.1 z.1 hza hzp]
      exact hmax z hz
  · intro z hz
    have hzm : z ∈ Fr ++ T' := List.mem_append_left _ hz
    exact swap_depth_other d a p.1 z.1 (hR z hzm).1 (hR z hzm).2
  · exact ⟨p, by simp [hp], swap_depth_left d a p.1⟩

/-- The lower-bound step of the optimality argument: a bound `c` for the problem in which
the two lightest symbols `x`, `y` are merged gives the bound `c + wx + wy` for the
problem itself. -/
theorem merge_bound (x y : Byte) (wx wy : Int) (R : List (Byte × Int))
    (hnd : (((x, wx) :: (y, wy) :: R).map Prod.fst).Nodup) (hwx : 0 ≤ wx)
    (hminx : ∀ z ∈ (y, wy) :: R, wx ≤ z.2) (hminy : ∀ z ∈ R, wy ≤ z.2) (c : Int)
    (hc : ∀ d H, Kraft ((x, wx + wy) :: R) d H → c ≤ depth_cost ((x, wx + wy) :: R) d)
    (d : Byte → Nat) (H : Nat) (hk : Kraft ((x, wx) :: (y, wy) :: R) d H) :
    c + wx + wy ≤ depth_cost ((x, wx) :: (y, wy) :: R) d := by
  obtain ⟨d1, hk1, hc1, hx1, _, _⟩ :=
    promote [] x wx ((y, wy) :: R) (by simpa using hnd) hminx d H hk
  simp only [List.nil_append] at hk1 hc1
  obtain ⟨d2, hk2, hc2, hy2, hfr, p, hp, hdp⟩ :=
    promote [(x, wx)] y wy R (by simpa using hnd) hminy d1 H hk1
  simp only [List.singleton_append] at hk2 hc2
  have hx2 : d2 x = d1 x := hfr (x, wx) (by simp)
  have hxy : d2 y ≤ d2 x := by
    rw [hdp, hx2]
    exact hx1 p hp
  have hxR : ∀ z ∈ R, z.1 ≠ x := by
    intro z hz h
    simp only [List.map_cons, List.nodup_cons, List.mem_cons, List.mem_map, not_or,
      not_exists, not_and] at hnd
    exact hnd.1.2 z hz h
  obtain ⟨hk3, hc3⟩ := merge_sorted x y wx wy R d2 H hxR hwx hxy hy2 hk2
  have := hc _ H hk3
  omega

theorem sum_paths_fst (frequencies : Byte → Int) (t : HuffmanNode) :
    ((paths t).map fun x => frequencies x.1).sum = leaf_weight frequencies t := by
  unfold leaf_weight
  rw [← paths_fst, List.map_map]
  rfl

theorem weighted_path_length_merge (frequencies : Byte → Int) (a b : HuffmanNode) :
    weighted_path_length frequencies (merge_nodes a b) =
      weighted_path_length frequencies a + weighted_path_length frequencies b +
        leaf_weight frequencies a + leaf_weight frequencies b := by
  have key : ∀ (t : HuffmanNode) (bit : Bool),
      (((paths t).map fun x => (x.1, bit :: x.2)).map
        fun x => frequencies x.1 * (x.2.length : Int)).sum =
      weighted_path_length frequencies t + leaf_weight frequencies t := by
    intro t bit
    rw [← sum_paths_fst]
    unfold weighted_path_length
    generalize paths t = P
    induction P with
    | nil => simp
    | cons x P ih =>
      simp only [List.map_cons, List.sum_cons, List.length_cons] at ih ⊢
      rw [ih]
      push_cast
      ring
  unfold weighted_path_length merge_nodes
  simp only [paths, Bool.false_eq_true, if_false, List.map_append, List.sum_append]
  have h1 := key a false
  have h2 := key b true
  simp only [List.map_map] at h1 h2
  unfold weighted_path_length at h1 h2
  simp only [List.map_map]
  rw [h1, h2]
  ring

theorem leaf_weight_merge (frequencies : Byte → Int) (a b : HuffmanNode) :
    leaf_weight frequencies (merge_nodes a b) =
      leaf_weight frequencies a + leaf_weight frequencies b := by
  simp [leaf_weight, leaves_merge_nodes]

theorem representative_mem {t : HuffmanNode} (h : Proper t) : representative t ∈ leaves t := by
  have := leaves_length_pos h
  unfold representative
  cases hl : leaves t with
  | nil => rw [hl] at this; simp at this
  | cons x xs => simp

theorem representative_merge {a : HuffmanNode} (b : HuffmanNode) (h : Proper a) :
    representative (merge_nodes a b) = representative a := by
  have := leaves_length_pos h
  unfold representative
  rw [leaves_merge_nodes]
  cases hl : leaves a with
  | nil => rw [hl] at this; simp at this
  | cons x xs => simp

theorem items_nodup (F : List HuffmanNode) (hp : ∀ t ∈ F, Proper t)
    (hnd : (F.flatMap leaves).Nodup) : ((items F).map Prod.fst).Nodup := by
  induction F with
  | nil => simp [items]
  | cons t F ih =>
    rw [List.flatMap_cons, List.nodup_append] at hnd
    obtain ⟨_, h2, h3⟩ := hnd
    have ih' := ih (fun x hx => hp x (by simp [hx])) h2
    simp only [items, List.map_cons, List.map_map, List.nodup_cons] at ih' ⊢
    refine ⟨?_, ih'⟩
    intro hmem
    obtain ⟨t', ht', heq⟩ := List.mem_map.1 hmem
    simp only [Function.comp] at heq
    have h4 : representative t ∈ leaves t := representative_mem (hp t (by simp))
    have h5 : representative t' ∈ F.flatMap leaves :=
      List.mem_flatMap.2 ⟨t', ht', representative_mem (hp t' (by simp [ht']))⟩
    rw [heq] at h5
    exact h3 h4 h5

theorem leaf_weight_nonneg (frequencies : Byte → Int) (t : HuffmanNode)
    (h : ∀ c ∈ leaves t, frequencies c > 0) : 0 ≤ leaf_weight frequencies t := by
  unfold leaf_weight
  apply List.sum_nonneg
  intro x hx
  obtain ⟨c, hc, rfl⟩ := List.mem_map.1 hx
  exact le_of_lt (h c hc)

theorem ForestOf.leaf_pos {frequencies : Byte → Int} {F : List HuffmanNode}
    (h : ForestOf frequencies F) (t : HuffmanNode) (ht : t ∈ F) (c : Byte)
    (hc : c ∈ leaves t) : frequencies c > 0 := by
  rw [← mem_symbols, ← h.2.mem_iff]
  exact List.mem_flatMap.2 ⟨t, ht, hc⟩

theorem OptInv.of_perm {frequencies : Byte → Int} {F G : List HuffmanNode} (hp : F.Perm G)
    (h : OptInv frequencies F) : OptInv frequencies G := by
  obtain ⟨h1, h2, h3⟩ := h
  refine ⟨h1.perm hp, fun t ht => h2 t (hp.mem_iff.2 ht), ?_⟩
  intro c hc d H hk
  have hitems : (items F).Perm (items G) := hp.map _
  have hsum : (F.map (weighted_path_length frequencies)).sum =
      (G.map (weighted_path_length frequencies)).sum := (hp.map _).sum_eq
  rw [← hsum]
  apply h3 c _ d H hk
  intro d' H' hk'
  rw [depth_cost_perm hitems]
  exact hc d' H' (Kraft_perm hitems d' H' hk')

theorem OptInv.merge_step {frequencies : Byte → Int} {a b : HuffmanNode} {R : List HuffmanNode}
    (h : OptInv frequencies (a :: b :: R))
    (hmina : ∀ x ∈ a :: b :: R, a.frequency ≤ x.frequency)
    (hminb : ∀ x ∈ b :: R, b.frequency ≤ x.frequency) :
    OptInv frequencies (merge_nodes a b :: R) := by
  obtain ⟨h1, h2, h3⟩ := h
  have hpa : Proper a := h1.1 a (by simp)
  have hwa : a.frequency = leaf_weight frequencies a := h2 a (by simp)
  have hwb : b.frequency = leaf_weight frequencies b := h2 b (by simp)
  refine ⟨h1.step, ?_, ?_⟩
  · intro t ht
    rcases List.mem_cons.1 ht with rfl | ht
    · rw [leaf_weight_merge, ← hwa, ← hwb]
      rfl
    · exact h2 t (by simp [ht])
  · intro c hc d H hk
    have hnd : ((items (a :: b :: R)).map Prod.fst).Nodup :=
      items_nodup _ h1.1 (h1.2.nodup_iff.2 (symbols_nodup frequencies))
    have hnonneg : 0 ≤ a.frequency := by
      rw [hwa]
      exact leaf_weight_nonneg frequencies a (fun c hc => h1.leaf_pos a (by simp) c hc)
    have hitems : items (merge_nodes a b :: R) =
        (representative a, a.frequency + b.frequency) :: items R := by
      simp only [items, List.map_cons, representative_merge b hpa]
      rfl
    have hitems2 : items (a :: b :: R) =
        (representative a, a.frequency) :: (representative b, b.frequency) :: items R := rfl
    rw [hitems] at hc
    rw [hitems2] at hnd
    have hbound := merge_bound (representative a) (representative b) a.frequency b.frequency
      (items R) hnd hnonneg
      (by
        intro z hz
        rcases List.mem_cons.1 hz with rfl | hz
        · exact hmina b (by simp)
        · obtain ⟨t, ht, rfl⟩ := List.mem_map.1 hz
          exact hmina t (by simp [ht]))
      (by
        intro z hz
        obtain ⟨t, ht, rfl⟩ := List.mem_map.1 hz
        exact hminb t (by simp [ht]))
      c hc
    have := h3 (c + a.frequency + b.frequency) (by rw [hitems2]; exact hbound) d H hk
    simp only [List.map_cons, List.sum_cons] at this ⊢
    rw [weighted_path_length_merge, ← hwa, ← hwb]
    linarith

theorem OptInv.initial (frequencies : Byte → Int) :
    OptInv frequencies
      ((symbols frequencies).map (fun i => create_node i (frequencies i) true)) := by
  refine ⟨ForestOf.init frequencies, ?_, ?_⟩
  · intro t ht
    obtain ⟨i, _, rfl⟩ := List.mem_map.1 ht
    simp [leaf_weight, leaves, create_node, HuffmanNode.frequency]
  · intro c hc d H hk
    have hitems : items ((symbols frequencies).map
        (fun i => create_node i (frequencies i) true)) = symbol_items frequencies := by
      simp only [items, symbol_items, List.map_map]
      apply List.map_congr_left
      intro s _
      simp [representative, leaves, create_node, HuffmanNode.frequency]
    have hzero : (((symbols frequencies).map
        (fun i => create_node i (frequencies i) true)).map
          (weighted_path_length frequencies)).sum = 0 := by
      apply List.sum_eq_zero
      intro x hx
      simp only [List.map_map, List.mem_map] at hx
      obtain ⟨s, _, rfl⟩ := hx
      simp [weighted_path_length, paths, create_node]
    rw [hzero, add_zero]
    rw [hitems] at hc
    exact hc d H hk

/-- With unbounded frequencies the built tree beats every depth assignment that
satisfies Kraft's inequality. -/
theorem build_huffman_tree_kraft_bound (frequencies : Byte → Int)
    (h2 : 2 ≤ (symbols frequencies).length) (d : Byte → Nat) (H : Nat)
    (hk : Kraft (symbol_items frequencies) d H) :
    weighted_path_length frequencies (build_huffman_tree_unbounded frequencies) ≤
      depth_cost (symbol_items frequencies) d := by
  have h := build_huffman_tree_unbounded_invariant (OptInv frequencies)
    (fun _ _ hp h => h.of_perm hp) (fun _ h t ht => (h.1.1 t ht).ne_null)
    (fun _ _ _ h ha hb => h.merge_step ha hb) frequencies h2 (OptInv.initial frequencies)
  obtain ⟨h1, h2', h3⟩ := h
  generalize build_huffman_tree_unbounded frequencies = T at *
  have := h3 0 (by
    intro d' H' _
    simp only [items, List.map_cons, List.map_nil, depth_cost, List.sum_cons, List.sum_nil,
      add_zero]
    have hw : 0 ≤ T.frequency := by
      rw [h2' T (by simp)]
      exact leaf_weight_nonneg frequencies T (fun c hc => h1.leaf_pos T (by simp) c hc)
    positivity) d H hk
  simpa using this

theorem paths_length_le (t : HuffmanNode) (c : Byte) (q : List Bool) (h : (c, q) ∈ paths t) :
    q.length ≤ height t := by
  induction t generalizing q with
  | null => simp [paths] at h
  | node ch f l r leaf ihl ihr =>
    cases leaf with
    | true =>
      simp only [paths, if_true, List.mem_singleton, Prod.mk.injEq] at h
      rw [h.2]
      exact Nat.zero_le _
    | false =>
      simp only [paths, Bool.false_eq_true, if_false, List.mem_append, List.mem_map] at h
      simp only [height, Bool.false_eq_true, if_false]
      rcases h with ⟨x, hx, hxe⟩ | ⟨x, hx, hxe⟩
      · obtain ⟨rfl, rfl⟩ := Prod.mk.inj hxe
        have := ihl x.2 hx
        simp only [List.length_cons]
        omega
      · obtain ⟨rfl, rfl⟩ := Prod.mk.inj hxe
        have := ihr x.2 hx
        simp only [List.length_cons]
        omega

/-- Kraft's inequality for the leaves of a tree. -/
theorem paths_kraft (t : HuffmanNode) :
    ∀ H, height t ≤ H → ((paths t).map fun x => 2 ^ (H - x.2.length)).sum ≤ 2 ^ H := by
  induction t with
  | null => intro H _; simp [paths]
  | node ch f l r leaf ihl ihr =>
    intro H hH
    cases leaf with
    | true => simp [paths]
    | false =>
      simp only [height, Bool.false_eq_true, if_false] at hH
      obtain ⟨K, rfl⟩ : ∃ K, H = K + 1 := ⟨H - 1, by omega⟩
      have h1 := ihl K (by omega)
      have h2 := ihr K (by omega)
      simp only [paths, Bool.false_eq_true, if_false, List.map_append, List.sum_append,
        List.map_map]
      have e : ∀ (bit : Bool), ((fun x : Byte × List Bool => 2 ^ (K + 1 - x.2.length)) ∘
          fun x : Byte × List Bool => (x.1, bit :: x.2)) =
          fun x : Byte × List Bool => 2 ^ (K - x.2.length) := by
        intro bit
        funext x
        simp
      rw [e false, e true, pow_succ]
      omega

theorem depth_in_of_mem (t : HuffmanNode) (hnd : (leaves t).Nodup) (x : Byte × List Bool)
    (hx : x ∈ paths t) : depth_in t x.1 = x.2.length := by
  unfold depth_in
  have hmem : x.1 ∈ leaves t := by
    rw [← paths_fst]; exact List.mem_map_of_mem _ hx
  rw [paths_unique t hnd x.1 _ x.2 (path_of_mem t x.1 hmem) hx]

theorem symbol_items_perm (frequencies : Byte → Int) (u : HuffmanNode)
    (hu : (leaves u).Perm (symbols frequencies)) :
    (symbol_items frequencies).Perm ((paths u).map fun x => (x.1, frequencies x.1)) := by
  unfold symbol_items
  have h1 : ((paths u).map fun x => (x.1, frequencies x.1)) =
      (leaves u).map fun s => (s, frequencies s) := by
    rw [← paths_fst, List.map_map]
    rfl
  rw [h1]
  exact (hu.map _).symm

/-- The depths of the leaves of a tree whose leaves are the symbols with a positive
count satisfy Kraft's inequality, and their cost is the weighted path length. -/
theorem tree_depths (frequencies : Byte → Int) (u : HuffmanNode)
    (hu : (leaves u).Perm (symbols frequencies)) :
    Kraft (symbol_items frequencies) (depth_in u) (height u) ∧
      depth_cost (symbol_items frequencies) (depth_in u) =
        weighted_path_length frequencies u := by
  have hnd : (leaves u).Nodup := hu.nodup_iff.2 (symbols_nodup frequencies)
  have hperm := symbol_items_perm frequencies u hu
  refine ⟨Kraft_perm hperm.symm _ _ ⟨?_, ?_⟩, ?_⟩
  · intro x hx
    obtain ⟨y, hy, rfl⟩ := List.mem_map.1 hx
    simp only
    rw [depth_in_of_mem u hnd y hy]
    exact paths_length_le u y.1 y.2 hy
  · unfold kraft_sum
    rw [List.map_map]
    have : ((paths u).map ((fun x : Byte × Int => 2 ^ (height u - depth_in u x.1)) ∘
        fun x : Byte × List Bool => (x.1, frequencies x.1))) =
        (paths u).map fun x => 2 ^ (height u - x.2.length) := by
      apply List.map_congr_left
      intro x hx
      simp only [Function.comp]
      rw [depth_in_of_mem u hnd x hx]
    rw [this]
    exact paths_kraft u (height u) (le_refl _)
  · rw [depth_cost_perm hperm]
    unfold depth_cost weighted_path_length
    rw [List.map_map]
    congr 1
    apply List.map_congr_left
    intro x hx
    simp only [Function.comp]
    rw [depth_in_of_mem u hnd x hx]

theorem sum_map_filter_split {α : Type} (S : List α) (p : α → Bool) (g : α → Nat) :
    (S.map g).sum = ((S.filter p).map g).sum + ((S.filter fun s => !p s).map g).sum := by
  induction S with
  | nil => rfl
  | cons s S ih =>
    cases hp : p s
    · simp only [List.map_cons, List.sum_cons, List.filter_cons, hp, Bool.not_false, if_true,
        Bool.false_eq_true, if_false, ih]
      omega
    · simp only [List.map_cons, List.sum_cons, List.filter_cons, hp, Bool.not_true, if_true,
        Bool.false_eq_true, if_false, ih]
      omega

/-- Kraft's inequality for a code in which no code word is an initial part of
another. -/
theorem code_kraft (H : Nat) :
    ∀ (S : List Byte) (code : Byte → List Bool), S.Nodup → (∀ s ∈ S, (code s).length ≤ H) →
      (∀ s ∈ S, ∀ t ∈ S, s ≠ t → ¬ code s <+: code t) →
      (S.map fun s => 2 ^ (H - (code s).length)).sum ≤ 2 ^ H := by
  induction H with
  | zero =>
    intro S code hnd hlen hpf
    match S, hnd, hlen, hpf with
    | [], _, _, _ => simp
    | [s], _, _, _ => simp
    | s :: t :: S', hnd, hlen, hpf =>
      exfalso
      have hst : s ≠ t := by
        intro h; subst h; simp at hnd
      have hs : code s = [] := List.length_eq_zero.1 (Nat.le_zero.1 (hlen s (by simp)))
      apply hpf s (by simp) t (by simp) hst
      rw [hs]
      exact List.nil_prefix
  | succ K ih =>
    intro S code hnd hlen hpf
    by_cases hex : ∃ s ∈ S, code s = []
    · obtain ⟨s, hs, hcs⟩ := hex
      have hall : ∀ t ∈ S, t = s := by
        intro t ht
        by_contra hne
        apply hpf s hs t ht (fun h => hne h.symm)
        rw [hcs]
        exact List.nil_prefix
      match S, hnd, hs, hall with
      | [x], _, hs, _ =>
        simp only [List.mem_singleton] at hs
        subst hs
        simp [hcs]
      | x :: y :: S', hnd, _, hall =>
        exfalso
        have hx := hall x (by simp)
        have hy := hall y (by simp)
        rw [hx, hy] at hnd
        simp at hnd
    · have hne : ∀ s ∈ S, code s ≠ [] := fun s hs h => hex ⟨s, hs, h⟩
      rw [sum_map_filter_split S (fun s => (code s).head?.getD false)]
      have side : ∀ (T : List Byte), T.Nodup → (∀ t ∈ T, t ∈ S) →
          (∀ t ∈ T, ∀ t' ∈ T, (code t).head? = (code t').head?) →
          (T.map fun s => 2 ^ (K + 1 - (code s).length)).sum ≤ 2 ^ K := by
        intro T hT hsub hhead
        have hrw : (T.map fun s => 2 ^ (K + 1 - (code s).length)) =
            T.map fun s => 2 ^ (K - (code s).tail.length) := by
          apply List.map_congr_left
          intro s hs
          have := hne s (hsub s hs)
          cases hc : code s with
          | nil => exact absurd hc this
          | cons b q => simp
        rw [hrw]
        apply ih T (fun s => (code s).tail) hT
        · intro s hs
          have := hlen s (hsub s hs)
          simp only [List.length_tail]
          omega
        · intro s hs t ht hst hpre
          apply hpf s (hsub s hs) t (hsub t ht) hst
          have h1 := hne s (hsub s hs)
          have h2 := hne t (hsub t ht)
          have h3 := hhead s hs t ht
          cases hcs : code s with
          | nil => exact absurd hcs h1
          | cons b q =>
            cases hct : code t with
            | nil => exact absurd hct h2
            | cons b' q' =>
              rw [hcs, hct] at h3
              simp only [List.head?_cons, Option.some.injEq] at h3
              rw [hcs, hct] at hpre
              simp only [List.tail_cons] at hpre
              rw [h3, List.cons_prefix_cons]
              exact ⟨rfl, hpre⟩
      have hA := side (S.filter fun s => (code s).head?.getD false) (hnd.filter _)
        (fun t ht => (List.mem_filter.1 ht).1)
        (by
          intro t ht t' ht'
          have h1 := (List.mem_filter.1 ht).2
          have h2 := (List.mem_filter.1 ht').2
          have n1 := hne t (List.mem_filter.1 ht).1
          have n2 := hne t' (List.mem_filter.1 ht').1
          cases hc : code t with
          | nil => exact absurd hc n1
          | cons b q =>
            cases hc' : code t' with
            | nil => exact absurd hc' n2
            | cons b' q' =>
              rw [hc] at h1
              rw [hc'] at h2
              simp only [List.head?_cons, Option.getD_some] at h1 h2
              simp [h1, h2])
      have hB := side (S.filter fun s => !(code s).head?.getD false) (hnd.filter _)
        (fun t ht => (List.mem_filter.1 ht).1)
        (by
          intro t ht t' ht'
          have h1 := (List.mem_filter.1 ht).2
          have h2 := (List.mem_filter.1 ht').2
          have n1 := hne t (List.mem_filter.1 ht).1
          have n2 := hne t' (List.mem_filter.1 ht').1
          cases hc : code t with
          | nil => exact absurd hc n1
          | cons b q =>
            cases hc' : code t' with
            | nil => exact absurd hc' n2
            | cons b' q' =>
              rw [hc] at h1
              rw [hc'] at h2
              simp only [List.head?_cons, Option.getD_some, Bool.not_eq_true'] at h1 h2
              simp [h1, h2])
      rw [pow_succ]
      omega

/-- The lengths of a prefix-free code for the symbols with a positive count satisfy
Kraft's inequality, and their cost is the total number of encoded bits. -/
theorem code_depths (frequencies : Byte → Int) (code : Byte → List Bool)
    (hpf : ∀ s ∈ symbols frequencies, ∀ t ∈ symbols frequencies, s ≠ t →
      ¬ code s <+: code t) :
    Kraft (symbol_items frequencies) (fun s => (code s).length)
        (((symbols frequencies).map fun s => (code s).length).sum) ∧
      depth_cost (symbol_items frequencies) (fun s => (code s).length) =
        ((symbols frequencies).map fun s => frequencies s * ((code s).length : Int)).sum := by
  have hle : ∀ s ∈ symbols frequencies,
      (code s).length ≤ ((symbols frequencies).map fun s => (code s).length).sum := by
    intro s hs
    exact List.single_le_sum (fun _ _ => Nat.zero_le _) _ (List.mem_map_of_mem _ hs)
  refine ⟨⟨?_, ?_⟩, ?_⟩
  · intro x hx
    obtain ⟨s, hs, rfl⟩ := List.mem_map.1 hx
    exact hle s hs
  · unfold kraft_sum symbol_items
    rw [List.map_map]
    exact code_kraft _ (symbols frequencies) code (symbols_nodup frequencies) hle hpf
  · unfold depth_cost symbol_items
    rw [List.map_map]
    rfl

theorem store_some {α : Type} {buf : List α} {i : Nat} {v : α} {r : List α}
    (h : store buf i v = some r) : i < buf.length ∧ r.length = buf.length := by
  unfold store at h
  split_ifs at h with hi
  cases h
  exact ⟨hi, by simp⟩

/-- A call of `serialize_tree` that stays inside the buffer keeps its size and leaves
the position inside it. -/
theorem serialize_tree_some (t : HuffmanNode) :
    ∀ (buf : List Byte) (pos : Nat) (st : List Byte × Nat),
      serialize_tree t buf pos = some st →
      st.1.length = buf.length ∧ st.2 ≤ buf.length := by
  induction t with
  | null =>
    intro buf pos st h
    simp only [serialize_tree] at h
    cases hs : store buf pos 0 with
    | none => rw [hs] at h; cases h
    | some b =>
      rw [hs] at h
      cases h
      obtain ⟨h1, h2⟩ := store_some hs
      exact ⟨h2, h1⟩
  | node c f l r leaf ihl ihr =>
    intro buf pos st h
    cases leaf with
    | true =>
      simp only [serialize_tree, if_true] at h
      cases hs : store buf pos 1 with
      | none => rw [hs] at h; cases h
      | some b =>
        rw [hs] at h
        simp only [Option.some_bind] at h
        cases hs2 : store b (pos + 1) c with
        | none => rw [hs2] at h; cases h
        | some b2 =>
          rw [hs2] at h
          cases h
          obtain ⟨_, h2⟩ := store_some hs
          obtain ⟨h3, h4⟩ := store_some hs2
          exact ⟨by rw [h4, h2], by show pos + 2 ≤ buf.length; omega⟩
    | false =>
      simp only [serialize_tree, Bool.false_eq_true, if_false] at h
      cases hs : store buf pos 2 with
      | none => rw [hs] at h; cases h
      | some b =>
        rw [hs] at h
        simp only [Option.some_bind] at h
        cases hl : serialize_tree l b (pos + 1) with
        | none => rw [hl] at h; cases h
        | some sl =>
          rw [hl] at h
          simp only [Option.some_bind] at h
          obtain ⟨_, h2⟩ := store_some hs
          obtain ⟨h3, _⟩ := ihl _ _ _ hl
          obtain ⟨h5, h6⟩ := ihr _ _ _ h
          exact ⟨by rw [h5, h3, h2], by rw [h3, h2] at h6; exact h6⟩

/-- For every container in which the header is followed by exactly `tree_size` tree
bytes and `data_size` packed bytes, the length that `decompress_file` computes for
`decode_data` is `data_size - (1020 - tree_size)`. -/
theorem decompress_encoded_size_layout (file : CompressedFile)
    (h : (file.payload.length : Int) = file.header.tree_size + file.header.data_size) :
    decompress_encoded_size file = file.header.data_size - (1020 - file.header.tree_size) := by
  simp only [decompress_encoded_size, file_size, sizeof_int, sizeof_CompressionHeader]
  push_cast
  omega

/-- A buffer of `n` equal bytes whose counter has wrapped to a non-positive `int`: the
histogram has no positive entry, no tree is built, every code stays empty,
`encode_data` returns 0 bytes and `decode_data` returns nothing. -/
theorem calculate_frequencies_wrapped (n : Nat) (c : Byte) (hwrap : int_wrap n ≤ 0) :
    generate_codes
      (build_huffman_tree (calculate_frequencies (List.replicate n c) zero_frequencies))
      zero_code_table zero_current_code 0 = some (zero_code_table, zero_current_code) ∧
    encode_data (List.replicate n c) zero_code_table =
      some { encoded_bytes := 0, encoded_data := [], padding := 0 } ∧
    decode_data [] (0 : Nat)
      (build_huffman_tree (calculate_frequencies (List.replicate n c) zero_frequencies))
      (0 : Nat) = some [] := by
  have hnil : symbols (calculate_frequencies (List.replicate n c) zero_frequencies) = [] := by
    rw [List.eq_nil_iff_forall_not_mem]
    intro d hd
    have hpos := (mem_symbols _ d).mp hd
    rw [calculate_frequencies_zero, List.count_replicate] at hpos
    by_cases hcd : c = d
    · rw [if_pos (by simpa using hcd)] at hpos
      omega
    · rw [if_neg (by simpa using hcd)] at hpos
      have : int_wrap ((0 : Nat) : Int) = 0 := rfl
      omega
  rw [build_huffman_tree_none _ hnil]
  refine ⟨rfl, ?_, rfl⟩
  unfold encode_data
  have hsum : ((List.replicate n c).map fun b => (zero_code_table b).length).sum = 0 := by
    apply List.sum_eq_zero
    intro x hx
    obtain ⟨b, _, hb⟩ := List.mem_map.mp hx
    rw [← hb]
    rfl
  simp only [hsum, if_true]

/-- C1, as stated, fails: for the buffer of `2^31` bytes `A` the counter of `A` wraps to
`-2^31`, so the histogram has no positive entry; no tree is built, `encode_data`
returns 0 bytes and `decode_data` returns no byte, not the buffer. -/
theorem buffer_round_trip_wraps :
    ∃ codes cc e,
      generate_codes
        (build_huffman_tree
          (calculate_frequencies (List.replicate 2147483648 (65 : Byte)) zero_frequencies))
        zero_code_table zero_current_code 0 = some (codes, cc) ∧
      encode_data (List.replicate 2147483648 (65 : Byte)) codes = some e ∧
      decode_data e.encoded_data e.encoded_bytes
        (build_huffman_tree
          (calculate_frequencies (List.replicate 2147483648 (65 : Byte)) zero_frequencies))
        e.padding = some [] ∧
      (some [] : Option (List Byte)) ≠ some (List.replicate 2147483648 (65 : Byte)) := by
  obtain ⟨h1, h2, h3⟩ := calculate_frequencies_wrapped 2147483648 65 (by decide)
  refine ⟨_, _, _, h1, h2, h3, ?_⟩
  intro h
  have hlen := congrArg (fun o => o.map List.length) h
  simp only [Option.map_some', List.length_nil, List.length_replicate] at hlen
  cases hlen

/-- C1, amended. Buffer-level round trip: for every non-empty buffer `B` in which no
byte value occurs more than `INT_MAX = 2^31 - 1` times, with the histogram of `B`, the
tree built from it, the table generated from the tree on zeroed buffers and the packed
bytes, byte count and padding that `encode_data` returns, `decode_data` returns
exactly the bytes of `B` (so `len(B)` of them). -/
theorem buffer_round_trip (B : List Byte) (hB : B ≠ [])
    (hfit : ∀ c, (B.count c : Int) ≤ INT_MAX) :
    ∃ codes cc e,
      generate_codes (build_huffman_tree (calculate_frequencies B zero_frequencies))
        zero_code_table zero_current_code 0 = some (codes, cc) ∧
      encode_data B codes = some e ∧
      decode_data e.encoded_data e.encoded_bytes
        (build_huffman_tree (calculate_frequencies B zero_frequencies)) e.padding = some B := by
  obtain ⟨codes, cc, e, hgen, henc, hbuilt, hmem, hlen, hpad, hbytes, hBlen, hbits⟩ :=
    encode_pipeline B hB hfit
  refine ⟨codes, cc, e, hgen, henc, ?_⟩
  generalize build_huffman_tree (calculate_frequencies B zero_frequencies) = T at *
  rw [← hlen, decode_data_eq_stream _ _ _ hbuilt.ne_null]
  have htot : ((e.encoded_data.length : Int) * 8 - (e.padding : Int)) =
      ((B.flatMap (path_of T)).length : Int) := by
    rw [hlen]; omega
  rw [htot, Int.toNat_ofNat, hbits, List.take_left']
  · rw [decode_message T _ (path_of T) hbuilt.not_leaf B [] hmem
      (by simp only [List.length_nil, Nat.zero_add]; exact_mod_cast hBlen)]
    rfl
  · rfl

/-- C1 amended, at the buffer `A A B`. -/
theorem buffer_round_trip_witness :
    ([65, 65, 66] : List Byte) ≠ [] ∧
    (∀ c, ((([65, 65, 66] : List Byte).count c : Nat) : Int) ≤ INT_MAX) ∧
    ∃ codes cc e,
      generate_codes (build_huffman_tree (calculate_frequencies [65, 65, 66] zero_frequencies))
        zero_code_table zero_current_code 0 = some (codes, cc) ∧
      encode_data [65, 65, 66] codes = some e ∧
      decode_data e.encoded_data e.encoded_bytes
        (build_huffman_tree (calculate_frequencies [65, 65, 66] zero_frequencies)) e.padding =
          some [65, 65, 66] :=
  ⟨by decide, count_fits_of_length [65, 65, 66] (by decide),
    buffer_round_trip [65, 65, 66] (by decide) (count_fits_of_length [65, 65, 66] (by decide))⟩

/-- C2, at the failing input: for the file set that holds the single file `a.txt` with
content `A`, `compress_files` reads the file, builds the tree and packs the data, and
then has no defined result: `write_compressed_file` stores the serialized tree through
the mistyped pointer `&tree_buffer`. It does not return 0 with a container written. -/
theorem pipeline_single_file_fails :
    compress_files single_file_system [['a', '.', 't', 'x', 't']] = none ∧
    write_compressed_file [0] 1
      (build_huffman_tree (calculate_frequencies [65] zero_frequencies)) 7
      [{ filename := ['a', '.', 't', 'x', 't'], start_pos := 0, size := 1 }] 1 = none := by
  decide!

/-- C3, at the failing input: for the container `single_container` of the single file
`a.txt`, the header field `data_size` is 1, while the length that `decompress_file` passes to
`decode_data` is `file_size - sizeof(CompressionHeader) - 1024 = -1015`. -/
theorem decompress_encoded_size_single :
    single_container.header.data_size = 1 ∧
    decompress_encoded_size single_container = -1015 ∧
    (read_compressed_file single_container).map (fun r => r.encoded_data.length) = some 1 := by
  decide!

/-- C4. Prefix-freeness: for every histogram with a positive entry, `generate_codes` on
the built tree fills exactly the entries of the symbols with a positive count; the
string of such an entry is the `'0'`/`'1'` path from the root to the leaf of the symbol
and `length` is the depth of that leaf; and the string of no populated entry is an
initial part of the string of another. -/
theorem generate_codes_prefix_free (frequencies : Byte → Int)
    (h : ∃ c, frequencies c > 0) :
    ∃ codes cc,
      generate_codes (build_huffman_tree frequencies) zero_code_table zero_current_code 0 =
        some (codes, cc) ∧
      (∀ c, 0 < (codes c).length ↔ frequencies c > 0) ∧
      (∀ c, ¬ frequencies c > 0 → codes c = zero_code_table c) ∧
      (∀ c, frequencies c > 0 →
        ∃ q, c_string (codes c).code = some (code_chars q) ∧
          (descend (build_huffman_tree frequencies) q).is_leaf = true ∧
          (descend (build_huffman_tree frequencies) q).character = c ∧
          (codes c).length = q.length) ∧
      (∀ c d x y, frequencies c > 0 → frequencies d > 0 → c ≠ d →
        c_string (codes c).code = some x → c_string (codes d).code = some y → ¬ x <+: y) := by
  have hb := build_huffman_tree_built frequencies h
  obtain ⟨codes, cc, hgen, hzero, hpath⟩ := generate_codes_built frequencies h
  generalize build_huffman_tree frequencies = T at *
  have hmem : ∀ c, frequencies c > 0 → (c, path_of T c) ∈ paths T := fun c hc =>
    path_of_mem T c ((hb.mem_leaves c).2 hc)
  refine ⟨codes, cc, hgen, ?_, hzero, ?_, ?_⟩
  · intro c
    constructor
    · intro hlen
      by_contra hc
      rw [hzero c hc] at hlen
      exact Nat.lt_irrefl 0 hlen
    · intro hc
      rw [(hpath c _ (hmem c hc)).2]
      exact hb.path_pos c _ (hmem c hc)
  · intro c hc
    obtain ⟨h1, h2⟩ := hpath c _ (hmem c hc)
    obtain ⟨h3, h4⟩ := paths_descend T c _ (hmem c hc)
    exact ⟨path_of T c, h1, h3, h4, h2⟩
  · intro c d x y hc hd hne hx hy hpre
    rw [(hpath c _ (hmem c hc)).1] at hx
    rw [(hpath d _ (hmem d hd)).1] at hy
    rw [← Option.some.inj hx, ← Option.some.inj hy] at hpre
    exact paths_not_initial T c d _ _ (hmem c hc) (hmem d hd) hne (code_chars_initial hpre)

/-- C4, at the histogram `A ↦ 1`, `B ↦ 2`, where two entries are populated. -/
theorem generate_codes_prefix_free_witness :
    (∃ c, pair_histogram c > 0) ∧
    ∃ codes cc,
      generate_codes (build_huffman_tree pair_histogram)
        zero_code_table zero_current_code 0 = some (codes, cc) ∧
      (∀ c, 0 < (codes c).length ↔ pair_histogram c > 0) ∧
      (∀ c, ¬ pair_histogram c > 0 → codes c = zero_code_table c) ∧
      (∀ c, pair_histogram c > 0 →
        ∃ q, c_string (codes c).code = some (code_chars q) ∧
          (descend (build_huffman_tree pair_histogram) q).is_leaf = true ∧
          (descend (build_huffman_tree pair_histogram) q).character = c ∧
          (codes c).length = q.length) ∧
      (∀ c d x y, pair_histogram c > 0 → pair_histogram d > 0 → c ≠ d →
        c_string (codes c).code = some x → c_string (codes d).code = some y → ¬ x <+: y) :=
  ⟨⟨65, by decide⟩, generate_codes_prefix_free pair_histogram ⟨65, by decide⟩⟩

/-- C6. Tree codec round trip: for every tree that `build_huffman_tree` returns (the
single-symbol tree included) and every tree buffer of `MAX_TREE_SIZE * 3` bytes,
`serialize_tree` writes `n` bytes, and `deserialize_tree` at position 0 of those bytes
returns a tree of the same shape, `is_leaf` flags and leaf characters and leaves the
position at `n`. -/
theorem tree_codec_round_trip (frequencies : Byte → Int) (h : ∃ c, frequencies c > 0)
    (buffer : List Byte) (hbuf : buffer.length = MAX_TREE_SIZE * 3) :
    ∃ written n tree,
      serialize_tree (build_huffman_tree frequencies) buffer 0 = some (written, n) ∧
      deserialize_tree (written.take n) 0 = some (tree, n) ∧
      same_shape (build_huffman_tree frequencies) tree := by
  obtain ⟨hclean, hlen⟩ := build_huffman_tree_bytes frequencies h
  generalize build_huffman_tree frequencies = T at *
  have hfits : 0 + (tree_bytes T).length ≤ buffer.length := by
    rw [hbuf]; unfold MAX_TREE_SIZE; omega
  refine ⟨_, _, strip T, serialize_tree_spec T buffer 0 hfits, ?_, same_shape_strip T hclean⟩
  have htake : (splice buffer 0 (tree_bytes T)).take (0 + (tree_bytes T).length) =
      tree_bytes T := by
    simp [splice]
  rw [htake]
  unfold deserialize_tree
  exact deserialize_tree_fuel_spec T _ _ 0 [] (by simp) (by omega)

/-- C6, at the histogram that counts one `A` and a zeroed tree buffer. -/
theorem tree_codec_round_trip_witness :
    (∃ c, Function.update zero_frequencies (65 : Byte) 1 c > 0) ∧
    (List.replicate (MAX_TREE_SIZE * 3) (0 : Byte)).length = MAX_TREE_SIZE * 3 ∧
    ∃ written n tree,
      serialize_tree (build_huffman_tree (Function.update zero_frequencies (65 : Byte) 1))
        (List.replicate (MAX_TREE_SIZE * 3) 0) 0 = some (written, n) ∧
      deserialize_tree (written.take n) 0 = some (tree, n) ∧
      same_shape (build_huffman_tree (Function.update zero_frequencies (65 : Byte) 1)) tree :=
  ⟨⟨65, by decide⟩, List.length_replicate _ _,
    tree_codec_round_trip (Function.update zero_frequencies (65 : Byte) 1) ⟨65, by decide⟩
      (List.replicate (MAX_TREE_SIZE * 3) 0) (List.length_replicate _ _)⟩

/-- C7. Bit-exact packing: for every buffer and every table whose lengths fit the code
buffers, with `total_bits > 0`, the output of `encode_data` read most significant bit
first is the concatenation, in input order, of the code bit strings of the input
bytes, followed by exactly `padding` zero bits. -/
theorem encode_data_bits (data : List Byte) (code_table : Byte → HuffmanCode)
    (hfit : TableFits code_table) (hpos : 0 < total_bits data code_table) :
    ∃ e, encode_data data code_table = some e ∧
      bits_of e.encoded_data =
        (data.flatMap fun b => code_bits (code_table b)) ++ List.replicate e.padding false := by
  obtain ⟨e, he, _, _, _, hbits⟩ := encode_data_spec data code_table hfit hpos
  exact ⟨e, he, hbits⟩

/-- C7, at the buffer `A A A` and the table of one-bit codes. -/
theorem encode_data_bits_witness :
    TableFits one_bit_table ∧ 0 < total_bits [65, 65, 65] one_bit_table ∧
    ∃ e, encode_data [65, 65, 65] one_bit_table = some e ∧
      bits_of e.encoded_data =
        (([65, 65, 65] : List Byte).flatMap fun b => code_bits (one_bit_table b)) ++
          List.replicate e.padding false :=
  ⟨fun _ => Nat.le_succ 1, by decide,
    encode_data_bits [65, 65, 65] one_bit_table (fun _ => Nat.le_succ 1) (by decide)⟩

/-- C8. Padding invariant: for every buffer and every table whose lengths fit the code
buffers, with `total_bits > 0`, `encode_data` succeeds, the padding it reports is
`(8 - total_bits mod 8) mod 8`, lies in `0..7`, makes `total_bits + padding` a multiple
of 8, and the returned byte count is `(total_bits + padding) / 8`, the ceiling of
`total_bits / 8`. -/
theorem encode_data_padding (data : List Byte) (code_table : Byte → HuffmanCode)
    (hfit : TableFits code_table) (hpos : 0 < total_bits data code_table) :
    ∃ e, encode_data data code_table = some e ∧
      e.padding = (8 - total_bits data code_table % 8) % 8 ∧
      e.padding ≤ 7 ∧
      (total_bits data code_table + e.padding) % 8 = 0 ∧
      e.encoded_bytes = (total_bits data code_table + e.padding) / 8 ∧
      e.encoded_bytes = (total_bits data code_table + 7) / 8 ∧
      e.encoded_data.length = e.encoded_bytes := by
  obtain ⟨e, he, hpad, hbytes, hlen, _⟩ := encode_data_spec data code_table hfit hpos
  refine ⟨e, he, hpad, by omega, by omega, hbytes, by omega, hlen⟩

/-- C8, at the buffer `A A A` and the table of one-bit codes. -/
theorem encode_data_padding_witness :
    TableFits one_bit_table ∧ 0 < total_bits [65, 65, 65] one_bit_table ∧
    ∃ e, encode_data [65, 65, 65] one_bit_table = some e ∧
      e.padding = (8 - total_bits [65, 65, 65] one_bit_table % 8) % 8 ∧
      e.padding ≤ 7 ∧
      (total_bits [65, 65, 65] one_bit_table + e.padding) % 8 = 0 ∧
      e.encoded_bytes = (total_bits [65, 65, 65] one_bit_table + e.padding) / 8 ∧
      e.encoded_bytes = (total_bits [65, 65, 65] one_bit_table + 7) / 8 ∧
      e.encoded_data.length = e.encoded_bytes :=
  ⟨fun _ => Nat.le_succ 1, by decide,
    encode_data_padding [65, 65, 65] one_bit_table (fun _ => Nat.le_succ 1) (by decide)⟩

/-- C9. Padding bits are ignored: for every tree, padding value and two packed arrays
of the same length that agree on their first `8 * len - padding` bits, `decode_data`
returns the same result for both. -/
theorem decode_data_ignores_padding (tree : HuffmanNode) (padding : Int) (P Q : List Byte)
    (hlen : P.length = Q.length)
    (hagree : (bits_of P).take ((P.length : Int) * 8 - padding).toNat =
      (bits_of Q).take ((P.length : Int) * 8 - padding).toNat) :
    decode_data P P.length tree padding = decode_data Q Q.length tree padding := by
  by_cases ht : tree = .null
  · subst ht
    simp [decode_data]
  · rw [decode_data_eq_stream P tree padding ht, decode_data_eq_stream Q tree padding ht,
      ← hlen, hagree]

/-- C9, at two arrays that differ in their last six bits only. -/
theorem decode_data_ignores_padding_witness :
    ([64] : List Byte).length = ([127] : List Byte).length ∧
    (bits_of [64]).take ((([64] : List Byte).length : Int) * 8 - 6).toNat =
      (bits_of [127]).take ((([64] : List Byte).length : Int) * 8 - 6).toNat ∧
    decode_data [64] ([64] : List Byte).length abc_tree 6 =
      decode_data [127] ([127] : List Byte).length abc_tree 6 :=
  ⟨rfl, by decide, decode_data_ignores_padding abc_tree 6 [64] [127] rfl (by decide)⟩

/-- C10 as stated fails: in the tree for `A`, `B`, `C` the two data bits `0 1` of the
byte `0x40` (padding 6) decode `B` and then stop at an internal node, and `decode_data`
returns the one byte decoded so far instead of reporting failure. -/
theorem decode_alignment_unchecked :
    ¬ AlignmentChecked abc_tree [64] 6 ∧ decode_data [64] 1 abc_tree 6 = some [66] := by
  refine ⟨?_, by decide!⟩
  intro hchk
  have h := hchk { decoded := [66], current_node := abc_tree.right } (by decide!) (by decide!)
  revert h
  decide!

/-- C10, amended: for every tree whose root is not a leaf, when the data bits are the
codes of a message `M` followed by a non-empty proper initial part of a code, so that
the cursor is at an internal node after the last data bit, `decode_data` reports no
error: it returns the bytes of `M` decoded so far. -/
theorem decode_data_mid_code (tree : HuffmanNode) (hroot : tree.is_leaf = false)
    (code : Byte → List Bool) (M : List Byte) (hM : ∀ b ∈ M, (b, code b) ∈ paths tree)
    (c : Byte) (q1 q2 : List Bool) (hq : (c, q1 ++ q2) ∈ paths tree) (hq1 : q1 ≠ [])
    (hq2 : q2 ≠ []) (P : List Byte) (padding : Int)
    (hbits : (bits_of P).take ((P.length : Int) * 8 - padding).toNat = M.flatMap code ++ q1) :
    decode_data P P.length tree padding = some M := by
  have hne := paths_ne_null hq
  rw [decode_data_eq_stream P tree padding hne, hbits, decode_stream_append]
  have hcode : ∀ b ∈ M, 0 < (code b).length := by
    intro b hb
    cases hcb : code b with
    | nil =>
      have := hM b hb
      rw [hcb] at this
      rw [paths_nil_leaf this] at hroot
      cases hroot
    | cons x xs => simp
  have hlenM := length_le_flatMap M code hcode
  have hlen := congrArg List.length hbits
  simp only [List.length_take, List.length_append] at hlen
  have hq1pos : 0 < q1.length := List.length_pos.2 hq1
  rw [decode_message tree _ code hroot M [] hM
    (by simp only [List.length_nil, Nat.zero_add]; omega)]
  simp only [Option.some_bind, List.nil_append]
  rw [(decode_walk_part tree _ q1 tree c q2 M hq hq2).1]
  rfl

/-- C10 amended, at the tree for `A`, `B`, `C`, the message `B` and the byte `0x40`
with padding 6. -/
theorem decode_data_mid_code_witness :
    abc_tree.is_leaf = false ∧
    (∀ b ∈ ([66] : List Byte), (b, path_of abc_tree b) ∈ paths abc_tree) ∧
    ((65 : Byte), [true] ++ [false]) ∈ paths abc_tree ∧
    ([true] : List Bool) ≠ [] ∧ ([false] : List Bool) ≠ [] ∧
    (bits_of [64]).take ((([64] : List Byte).length : Int) * 8 - 6).toNat =
      ([66] : List Byte).flatMap (path_of abc_tree) ++ [true] ∧
    decode_data [64] ([64] : List Byte).length abc_tree 6 = some [66] :=
  ⟨by decide!, by decide!, by decide!, by decide, by decide, by decide!,
    decode_data_mid_code abc_tree (by decide!) (path_of abc_tree) [66] (by decide!) 65
      [true] [false] (by decide!) (by decide) (by decide) [64] 6 (by decide!)⟩

/-- C5. Optimality: for every histogram with at least two positive entries, with the
frequencies taken as unbounded integers (`build_huffman_tree_unbounded`), the leaves of
the tree that is built are exactly the symbols with a positive count, and its weighted
path length, the sum over the symbols `c` of `freq[c] * depth(leaf c)`, is at most that
of every binary tree whose leaves are exactly those symbols, and at most the total
number of encoded bits `freq[c] * length(code c)` of every prefix-free code for those
symbols. -/
theorem build_huffman_tree_optimal (frequencies : Byte → Int) (a b : Byte) (hab : a ≠ b)
    (ha : frequencies a > 0) (hb : frequencies b > 0) :
    ((leaves (build_huffman_tree_unbounded frequencies)).Nodup ∧
      ∀ c, c ∈ leaves (build_huffman_tree_unbounded frequencies) ↔ frequencies c > 0) ∧
    (∀ u : HuffmanNode, (leaves u).Nodup → (∀ c, c ∈ leaves u ↔ frequencies c > 0) →
      weighted_path_length frequencies (build_huffman_tree_unbounded frequencies) ≤
        weighted_path_length frequencies u) ∧
    (∀ code : Byte → List Bool,
      (∀ s t, frequencies s > 0 → frequencies t > 0 → s ≠ t → ¬ code s <+: code t) →
      weighted_path_length frequencies (build_huffman_tree_unbounded frequencies) ≤
        ((symbols frequencies).map fun s => frequencies s * ((code s).length : Int)).sum) := by
  have h2 : 2 ≤ (symbols frequencies).length := by
    have hsub : [a, b].Subperm (symbols frequencies) := by
      apply List.subperm_of_subset (by simp [hab])
      intro x hx
      simp only [List.mem_cons, List.mem_singleton, List.not_mem_nil, or_false] at hx
      rcases hx with rfl | rfl
      · exact (mem_symbols frequencies x).2 ha
      · exact (mem_symbols frequencies x).2 hb
    exact hsub.length_le
  have hbuilt := build_huffman_tree_unbounded_built frequencies ⟨a, ha⟩
  refine ⟨⟨hbuilt.nodup, hbuilt.mem_leaves⟩, ?_, ?_⟩
  · intro u hnd hmem
    have hu : (leaves u).Perm (symbols frequencies) := by
      rw [List.perm_ext_iff_of_nodup hnd (symbols_nodup frequencies)]
      intro c
      rw [hmem c, mem_symbols]
    obtain ⟨hk, hcost⟩ := tree_depths frequencies u hu
    rw [← hcost]
    exact build_huffman_tree_kraft_bound frequencies h2 _ _ hk
  · intro code hpf
    obtain ⟨hk, hcost⟩ := code_depths frequencies code
      (fun s hs t ht hst =>
        hpf s t ((mem_symbols frequencies s).1 hs) ((mem_symbols frequencies t).1 ht) hst)
    rw [← hcost]
    exact build_huffman_tree_kraft_bound frequencies h2 _ _ hk

/-- C5, at the histogram `A ↦ 1`, `B ↦ 2`. -/
theorem build_huffman_tree_optimal_witness :
    (65 : Byte) ≠ 66 ∧ two_symbol_histogram 65 > 0 ∧ two_symbol_histogram 66 > 0 ∧
    ((leaves (build_huffman_tree_unbounded two_symbol_histogram)).Nodup ∧
      ∀ c, c ∈ leaves (build_huffman_tree_unbounded two_symbol_histogram) ↔
        two_symbol_histogram c > 0) ∧
    (∀ u : HuffmanNode, (leaves u).Nodup → (∀ c, c ∈ leaves u ↔ two_symbol_histogram c > 0) →
      weighted_path_length two_symbol_histogram
          (build_huffman_tree_unbounded two_symbol_histogram) ≤
        weighted_path_length two_symbol_histogram u) ∧
    (∀ code : Byte → List Bool,
      (∀ s t, two_symbol_histogram s > 0 → two_symbol_histogram t > 0 → s ≠ t →
        ¬ code s <+: code t) →
      weighted_path_length two_symbol_histogram
          (build_huffman_tree_unbounded two_symbol_histogram) ≤
        ((symbols two_symbol_histogram).map
          fun s => two_symbol_histogram s * ((code s).length : Int)).sum) :=
  ⟨by decide, by decide, by decide,
    build_huffman_tree_optimal two_symbol_histogram 65 66 (by decide) (by decide) (by decide)⟩

theorem Proper.internal_nodes_succ {t : HuffmanNode} (h : Proper t) :
    internal_nodes t + 1 = (leaves t).length := by
  induction t with
  | null => exact absurd h (by simp [Proper])
  | node c f l r leaf ihl ihr =>
    cases leaf with
    | true => simp [Archiver.internal_nodes, leaves]
    | false =>
      simp only [Proper, Bool.false_eq_true, if_false] at h
      have h1 := ihl h.2.1
      have h2 := ihr h.2.2
      simp only [Archiver.internal_nodes, leaves, Bool.false_eq_true, if_false,
        List.length_append]
      omega

/-- A histogram whose only positive entry is at `s` has `symbols = [s]`. -/
theorem symbols_single (frequencies : Byte → Int) (s : Byte) (hs : frequencies s > 0)
    (hone : ∀ c, c ≠ s → ¬ frequencies c > 0) : symbols frequencies = [s] := by
  have hperm : (symbols frequencies).Perm [s] := by
    rw [List.perm_ext_iff_of_nodup (symbols_nodup frequencies) (List.nodup_singleton s)]
    intro a
    rw [mem_symbols, List.mem_singleton]
    constructor
    · intro ha
      by_contra hne
      exact hone a hne ha
    · intro ha
      rw [ha]
      exact hs
  exact List.perm_singleton.mp hperm

theorem c_string_zero : c_string (List.replicate 256 '\x00') = some [] := by
  have h := c_string_code_chars [] (List.replicate 255 '\x00')
  rw [show code_chars [] ++ '\x00' :: List.replicate 255 '\x00' = List.replicate 256 '\x00'
    from (List.replicate_succ _ _).symm] at h
  exact h

/-- More fuel than `length + 1 - pos` does not change `deserialize_tree_fuel`. -/
theorem deserialize_tree_fuel_ge (buffer : List Byte) (pos : Nat) :
    ∀ extra, deserialize_tree_fuel (buffer.length + 1 - pos + extra) buffer pos =
      deserialize_tree buffer pos := by
  intro extra
  induction extra with
  | zero => rfl
  | succ n ih =>
    rw [← ih, ← Nat.add_assoc]
    exact deserialize_tree_fuel_enough _ buffer pos (by omega)

theorem deserialize_tree_fuel_of_le (buffer : List Byte) (pos fuel : Nat)
    (h : buffer.length + 1 - pos ≤ fuel) :
    deserialize_tree_fuel fuel buffer pos = deserialize_tree buffer pos := by
  obtain ⟨extra, rfl⟩ := Nat.exists_eq_add_of_le h
  exact deserialize_tree_fuel_ge buffer pos extra

/-- A marker other than 0, 1 and 2 makes `deserialize_tree` return NULL after one
byte. -/
theorem deserialize_tree_fuel_unknown (fuel : Nat) (buffer : List Byte) (pos : Nat)
    (marker : Byte) (hget : buffer.get? pos = some marker)
    (h0 : marker ≠ 0) (h1 : marker ≠ 1) (h2 : marker ≠ 2) :
    deserialize_tree_fuel (fuel + 1) buffer pos = some (.null, pos + 1) := by
  rw [deserialize_tree_fuel_succ, hget]
  simp only [Option.some_bind, if_neg h0, if_neg h1, if_neg h2]

/-- A call of `deserialize_tree` that returns has read only below the returned
position, which lies inside the buffer. -/
theorem deserialize_tree_fuel_bound (fuel : Nat) :
    ∀ (buffer : List Byte) (pos : Nat) (r : HuffmanNode × Nat),
      deserialize_tree_fuel fuel buffer pos = some r → r.2 ≤ buffer.length := by
  induction fuel with
  | zero => intro buffer pos r h; simp [deserialize_tree_fuel] at h
  | succ n ih =>
    intro buffer pos r h
    rw [deserialize_tree_fuel_succ] at h
    cases hget : buffer.get? pos with
    | none => rw [hget] at h; simp at h
    | some marker =>
      have hpos : pos < buffer.length := by
        rw [List.get?_eq_getElem?] at hget
        exact (List.getElem?_eq_some_iff.mp hget).1
      rw [hget] at h
      simp only [Option.some_bind] at h
      split_ifs at h with h0 h1 h2
      · cases h; exact hpos
      · cases hget1 : buffer.get? (pos + 1) with
        | none => rw [hget1] at h; simp at h
        | some ch =>
          rw [hget1] at h
          simp only [Option.map_some'] at h
          cases h
          rw [List.get?_eq_getElem?] at hget1
          exact (List.getElem?_eq_some_iff.mp hget1).1
      · cases hl : deserialize_tree_fuel n buffer (pos + 1) with
        | none => rw [hl] at h; simp at h
        | some l =>
          rw [hl] at h
          simp only [Option.some_bind] at h
          cases hr : deserialize_tree_fuel n buffer l.2 with
          | none => rw [hr] at h; simp at h
          | some rr =>
            rw [hr] at h
            simp only [Option.map_some'] at h
            cases h
            exact ih buffer l.2 rr hr
      · cases h; exact hpos

/-- The result of `deserialize_tree` depends only on the bytes below the position it
returns. -/
theorem deserialize_tree_fuel_restrict (fuel : Nat) :
    ∀ (buffer rest : List Byte) (pos : Nat) (r : HuffmanNode × Nat),
      deserialize_tree_fuel fuel (buffer ++ rest) pos = some r → r.2 ≤ buffer.length →
      deserialize_tree_fuel fuel buffer pos = some r := by
  induction fuel with
  | zero => intro buffer rest pos r h; simp [deserialize_tree_fuel] at h
  | succ n ih =>
    intro buffer rest pos r h hle
    have hlt := deserialize_tree_fuel_pos _ _ _ _ h
    rw [deserialize_tree_fuel_succ] at h ⊢
    have hget : (buffer ++ rest).get? pos = buffer.get? pos := by
      rw [List.get?_eq_getElem?, List.get?_eq_getElem?,
        List.getElem?_append_left (by omega)]
    rw [hget] at h
    cases hm : buffer.get? pos with
    | none => rw [hm] at h; simp at h
    | some marker =>
      rw [hm] at h
      simp only [Option.some_bind] at h ⊢
      split_ifs at h ⊢ with h0 h1 h2
      · exact h
      · cases hget1 : (buffer ++ rest).get? (pos + 1) with
        | none => rw [hget1] at h; simp at h
        | some ch =>
          rw [hget1] at h
          simp only [Option.map_some'] at h
          cases h
          have : (buffer ++ rest).get? (pos + 1) = buffer.get? (pos + 1) := by
            rw [List.get?_eq_getElem?, List.get?_eq_getElem?,
              List.getElem?_append_left (by simpa using hle)]
          rw [← this, hget1]
          rfl
      · cases hl : deserialize_tree_fuel n (buffer ++ rest) (pos + 1) with
        | none => rw [hl] at h; simp at h
        | some l =>
          rw [hl] at h
          simp only [Option.some_bind] at h
          cases hr : deserialize_tree_fuel n (buffer ++ rest) l.2 with
          | none => rw [hr] at h; simp at h
          | some rr =>
            rw [hr] at h
            simp only [Option.map_some'] at h
            cases h
            have hrr := deserialize_tree_fuel_pos _ _ _ _ hr
            have hl2 : l.2 ≤ buffer.length := by
              simp only at hle
              omega
            rw [ih buffer rest (pos + 1) l hl hl2]
            simp only [Option.some_bind]
            rw [ih buffer rest l.2 rr hr hle]
            rfl
      · exact h

theorem read_files_sizes_spec (fs : FileSystem) :
    ∀ (file_paths : List Path) (i total_size : Nat) (boundaries : List FileBoundary),
      (∀ p ∈ file_paths, (fs p).isSome) → i + file_paths.length ≤ MAX_FILES →
      read_files_sizes fs file_paths i total_size boundaries =
        some (true, total_size + (file_sizes fs file_paths).sum,
          boundaries ++ boundary_table fs file_paths total_size) := by
  intro file_paths
  induction file_paths with
  | nil =>
    intro i total_size boundaries _ _
    simp [read_files_sizes, file_sizes, boundary_table]
  | cons p rest ih =>
    intro i total_size boundaries hopen hlen
    obtain ⟨content, hc⟩ := Option.isSome_iff_exists.mp (hopen p (List.mem_cons_self _ _))
    simp only [List.length_cons] at hlen
    simp only [read_files_sizes, hc]
    rw [if_pos (by omega), ih (i + 1) _ _ (fun q hq => hopen q (List.mem_cons_of_mem _ hq))
      (by omega)]
    simp only [file_sizes, boundary_table, hc, Option.getD_some, List.map_cons, List.sum_cons,
      List.append_assoc, List.singleton_append, Nat.add_assoc]

theorem read_files_data_spec (fs : FileSystem) :
    ∀ (file_paths : List Path), (∀ p ∈ file_paths, (fs p).isSome) →
      ∃ d, read_files_data fs file_paths = some d ∧
        d.length = (file_sizes fs file_paths).sum := by
  intro file_paths
  induction file_paths with
  | nil => intro _; exact ⟨[], rfl, rfl⟩
  | cons p rest ih =>
    intro hopen
    obtain ⟨content, hc⟩ := Option.isSome_iff_exists.mp (hopen p (List.mem_cons_self _ _))
    obtain ⟨d, hd, hlen⟩ := ih (fun q hq => hopen q (List.mem_cons_of_mem _ hq))
    refine ⟨content ++ d, ?_, ?_⟩
    · simp only [read_files_data, hc, hd, Option.map_some']
    · simp only [file_sizes, List.map_cons, List.sum_cons, hc, Option.getD_some,
        List.length_append]
      rw [hlen]
      rfl

/-- The result of `read_files` on at most `MAX_FILES` files that can all be opened. -/
theorem read_files_spec (fs : FileSystem) (file_paths : List Path)
    (hlen : file_paths.length ≤ MAX_FILES) (hopen : ∀ p ∈ file_paths, (fs p).isSome) :
    ∃ data, read_files fs file_paths =
        some ((file_sizes fs file_paths).sum, data, boundary_table fs file_paths 0) ∧
      data.length = (file_sizes fs file_paths).sum := by
  obtain ⟨d, hd, hdlen⟩ := read_files_data_spec fs file_paths hopen
  unfold read_files
  rw [read_files_sizes_spec fs file_paths 0 0 [] hopen (by omega)]
  simp only [Option.map_some', Nat.zero_add, List.nil_append, Bool.true_eq_false, if_false]
  by_cases hz : (file_sizes fs file_paths).sum = 0
  · rw [if_pos hz]
    exact ⟨[], by rw [hz], by rw [hz]; rfl⟩
  · rw [if_neg hz, hd]
    exact ⟨d, rfl, hdlen⟩

theorem boundary_table_length (fs : FileSystem) :
    ∀ (file_paths : List Path) (start : Nat),
      (boundary_table fs file_paths start).length = file_paths.length := by
  intro file_paths
  induction file_paths with
  | nil => intro _; rfl
  | cons p rest ih => intro start; simp [boundary_table, ih]

theorem boundary_table_size (fs : FileSystem) :
    ∀ (file_paths : List Path) (start : Nat),
      (boundary_table fs file_paths start).map (fun b => b.size) =
        (file_sizes fs file_paths).map Int.ofNat := by
  intro file_paths
  induction file_paths with
  | nil => intro _; rfl
  | cons p rest ih =>
    intro start
    simp only [boundary_table, List.map_cons, ih, file_sizes]
    rfl

theorem boundary_table_filename (fs : FileSystem) :
    ∀ (file_paths : List Path) (start : Nat),
      (boundary_table fs file_paths start).map (fun b => b.filename) =
        file_paths.map fun p => (base_name p).take (MAX_FILENAME_LENGTH - 1) := by
  intro file_paths
  induction file_paths with
  | nil => intro _; rfl
  | cons p rest ih =>
    intro start
    simp only [boundary_table, List.map_cons, ih]

theorem boundary_table_start (fs : FileSystem) :
    ∀ (file_paths : List Path) (start i : Nat), i < file_paths.length →
      ((boundary_table fs file_paths start).map (fun b => b.start_pos))[i]? =
        some ((start + ((file_sizes fs file_paths).take i).sum : Nat) : Int) := by
  intro file_paths
  induction file_paths with
  | nil => intro start i hi; simp at hi
  | cons p rest ih =>
    intro start i hi
    cases i with
    | zero => simp [boundary_table]
    | succ j =>
      simp only [List.length_cons] at hi
      simp only [boundary_table, List.map_cons, List.getElem?_cons_succ, file_sizes,
        List.take_succ_cons, List.sum_cons]
      rw [ih _ j (by omega)]
      simp only [file_sizes, Nat.add_assoc]

theorem boundary_table_ge (fs : FileSystem) :
    ∀ (file_paths : List Path) (start : Nat),
      ∀ b ∈ boundary_table fs file_paths start, (start : Int) ≤ b.start_pos ∧ 0 ≤ b.size := by
  intro file_paths
  induction file_paths with
  | nil => intro start b hb; simp [boundary_table] at hb
  | cons p rest ih =>
    intro start b hb
    simp only [boundary_table, List.mem_cons] at hb
    rcases hb with hb | hb
    · subst hb
      simp
    · have := ih _ b hb
      push_cast at this
      omega

theorem boundary_table_pairwise (fs : FileSystem) :
    ∀ (file_paths : List Path) (start : Nat),
      (boundary_table fs file_paths start).Pairwise
        (fun x y => x.start_pos + x.size ≤ y.start_pos) := by
  intro file_paths
  induction file_paths with
  | nil => intro _; exact List.Pairwise.nil
  | cons p rest ih =>
    intro start
    simp only [boundary_table]
    refine List.Pairwise.cons ?_ (ih _)
    intro b hb
    have := (boundary_table_ge fs rest _ b hb).1
    push_cast at this
    exact this

theorem Proper.one_leaf {t : HuffmanNode} (h : Proper t) (h1 : (leaves t).length = 1) :
    ∃ c f, t = .node c f .null .null true := by
  cases t with
  | null => exact absurd h (by simp [Proper])
  | node c f l r leaf =>
    cases leaf with
    | true =>
      simp only [Proper, if_true] at h
      exact ⟨c, f, by rw [h.1, h.2]⟩
    | false =>
      simp only [Proper, Bool.false_eq_true, if_false] at h
      have hl := leaves_length_pos h.2.1
      have hr := leaves_length_pos h.2.2
      simp only [leaves, Bool.false_eq_true, if_false, List.length_append] at h1
      omega

/-- A proper tree with two leaves is a root with two leaf children. -/
theorem Proper.two_leaves {t : HuffmanNode} (h : Proper t) (h2 : (leaves t).length = 2) :
    ∃ f x fx y fy, t = .node 0 f (.node x fx .null .null true) (.node y fy .null .null true)
      false := by
  cases t with
  | null => exact absurd h (by simp [Proper])
  | node c f l r leaf =>
    cases leaf with
    | true => simp [leaves] at h2
    | false =>
      simp only [Proper, Bool.false_eq_true, if_false] at h
      have hl := leaves_length_pos h.2.1
      have hr := leaves_length_pos h.2.2
      simp only [leaves, Bool.false_eq_true, if_false, List.length_append] at h2
      obtain ⟨x, fx, hx⟩ := h.2.1.one_leaf (by omega)
      obtain ⟨y, fy, hy⟩ := h.2.2.one_leaf (by omega)
      exact ⟨f, x, fx, y, fy, by rw [h.1, hx, hy]⟩

/-- The histogram of a buffer with exactly the two byte values `a` and `b` has the
two symbols `a` and `b`. -/
theorem symbols_two (B : List Byte) (a b : Byte) (hab : a ≠ b) (ha : a ∈ B) (hb : b ∈ B)
    (hall : ∀ x ∈ B, x = a ∨ x = b) (hfit : ∀ c, (B.count c : Int) ≤ INT_MAX) :
    (symbols (calculate_frequencies B zero_frequencies)).Perm [a, b] := by
  rw [List.perm_ext_iff_of_nodup (symbols_nodup _) (by simp [hab])]
  intro x
  rw [mem_symbols, calculate_frequencies_pos B hfit]
  constructor
  · intro hx
    rcases hall x hx with h | h <;> simp [h]
  · intro hx
    simp only [List.mem_cons, List.mem_singleton, List.not_mem_nil, or_false] at hx
    rcases hx with h | h <;> rw [h] <;> assumption

/-- A buffer of `n` bytes `a` followed by one byte `b`, where the counter of `a` has
wrapped to a non-positive `int`: only `b` has a positive count, and the entry of `a` in
the generated table stays empty. -/
theorem two_symbol_wrapped (n : Nat) (a b : Byte) (hab : a ≠ b) (hn : 0 < n)
    (hwrap : int_wrap n ≤ 0) :
    (∀ x ∈ List.replicate n a ++ [b], x = a ∨ x = b) ∧
    a ∈ List.replicate n a ++ [b] ∧ b ∈ List.replicate n a ++ [b] ∧
    ∃ codes cc,
      generate_codes
        (build_huffman_tree
          (calculate_frequencies (List.replicate n a ++ [b]) zero_frequencies))
        zero_code_table zero_current_code 0 = some (codes, cc) ∧
      (codes a).length = 0 := by
  have hcount : ∀ d, calculate_frequencies (List.replicate n a ++ [b]) zero_frequencies d =
      int_wrap ((if a = d then n else 0) + (if b = d then 1 else 0) : Nat) := by
    intro d
    rw [calculate_frequencies_zero, List.count_append, List.count_replicate,
      List.count_singleton]
    simp only [beq_iff_eq]
  have hb : calculate_frequencies (List.replicate n a ++ [b]) zero_frequencies b > 0 := by
    rw [hcount, if_neg hab, if_pos rfl]
    decide
  have ha : ¬ calculate_frequencies (List.replicate n a ++ [b]) zero_frequencies a > 0 := by
    rw [hcount, if_pos rfl, if_neg (fun h => hab h.symm), Nat.add_zero]
    omega
  obtain ⟨codes, cc, hgen, hzero, _⟩ := generate_codes_built
    (calculate_frequencies (List.replicate n a ++ [b]) zero_frequencies) ⟨b, hb⟩
  refine ⟨?_, ?_, ?_, codes, cc, hgen, ?_⟩
  · intro x hx
    rcases List.mem_append.mp hx with h | h
    · exact Or.inl (List.eq_of_mem_replicate h)
    · exact Or.inr (List.mem_singleton.mp h)
  · exact List.mem_append_left _ (List.mem_replicate.mpr ⟨by omega, rfl⟩)
  · exact List.mem_append_right _ (List.mem_singleton.mpr rfl)
  · rw [hzero a ha]
    rfl

/-- C13. Degenerate single-symbol case: for every histogram whose only positive entry
is at `s`, `build_huffman_tree` returns a non-leaf root whose left child is a leaf
carrying `s` and whose right child is absent, and `generate_codes` on that tree (with
zeroed table and buffer, depth 0) gives `s` the code "0" with length 1 and leaves
every other entry as it was. -/
theorem single_symbol_tree_codes (frequencies : Byte → Int) (s : Byte)
    (hs : frequencies s > 0) (hone : ∀ c, c ≠ s → ¬ frequencies c > 0) :
    build_huffman_tree frequencies =
      .node 0 (frequencies s) (.node s (frequencies s) .null .null true) .null false ∧
    ∃ codes cc,
      generate_codes (build_huffman_tree frequencies) zero_code_table zero_current_code 0 =
        some (codes, cc) ∧
      c_string (codes s).code = some ['0'] ∧ (codes s).length = 1 ∧
      ∀ c, c ≠ s → codes c = zero_code_table c := by
  have htree := build_huffman_tree_single frequencies s (symbols_single frequencies s hs hone)
  obtain ⟨codes, cc, hgen, hzero, hpaths⟩ := generate_codes_built frequencies ⟨s, hs⟩
  refine ⟨htree, codes, cc, hgen, ?_⟩
  rw [htree] at hpaths
  have hmem : (s, [false]) ∈
      paths (.node 0 (frequencies s) (create_node s (frequencies s) true) .null false) := by
    simp [paths, create_node]
  obtain ⟨h1, h2⟩ := hpaths s [false] hmem
  exact ⟨h1, h2, fun c hc => hzero c (hone c hc)⟩

/-- C13, at the histogram that counts three `A`. -/
theorem single_symbol_tree_codes_witness :
    Function.update zero_frequencies (65 : Byte) 3 65 > 0 ∧
    (∀ c, c ≠ (65 : Byte) → ¬ Function.update zero_frequencies (65 : Byte) 3 c > 0) ∧
    build_huffman_tree (Function.update zero_frequencies (65 : Byte) 3) =
      .node 0 (Function.update zero_frequencies (65 : Byte) 3 65)
        (.node 65 (Function.update zero_frequencies (65 : Byte) 3 65) .null .null true)
        .null false ∧
    ∃ codes cc,
      generate_codes (build_huffman_tree (Function.update zero_frequencies (65 : Byte) 3))
        zero_code_table zero_current_code 0 = some (codes, cc) ∧
      c_string (codes 65).code = some ['0'] ∧ (codes 65).length = 1 ∧
      ∀ c, c ≠ (65 : Byte) → codes c = zero_code_table c :=
  ⟨by decide, fun c hc => by rw [Function.update_noteq hc]; exact Int.lt_irrefl 0,
    single_symbol_tree_codes (Function.update zero_frequencies (65 : Byte) 3) 65 (by decide)
      (fun c hc => by rw [Function.update_noteq hc]; exact Int.lt_irrefl 0)⟩

/-- C15. Tree structure invariant: for every histogram with `k ≥ 2` positive entries,
in the tree that `build_huffman_tree` returns every non-leaf node has two children
(`Proper`), every leaf has none, the leaf characters are pairwise distinct and are
exactly the symbols with positive count; the tree has `k` leaves and `k - 1` internal
nodes. -/
theorem build_huffman_tree_structure (frequencies : Byte → Int)
    (h2 : 2 ≤ (symbols frequencies).length) :
    Proper (build_huffman_tree frequencies) ∧
    (leaves (build_huffman_tree frequencies)).Nodup ∧
    (∀ c, c ∈ leaves (build_huffman_tree frequencies) ↔ frequencies c > 0) ∧
    (leaves (build_huffman_tree frequencies)).length = (symbols frequencies).length ∧
    internal_nodes (build_huffman_tree frequencies) + 1 = (symbols frequencies).length := by
  obtain ⟨hproper, hperm⟩ := build_huffman_tree_forest frequencies h2
  refine ⟨hproper, hperm.nodup_iff.mpr (symbols_nodup frequencies), ?_, hperm.length_eq, ?_⟩
  · intro c
    rw [hperm.mem_iff, mem_symbols]
  · rw [hproper.internal_nodes_succ, hperm.length_eq]

/-- C15, at the histogram of the buffer `A B C`. -/
theorem build_huffman_tree_structure_witness :
    2 ≤ (symbols (calculate_frequencies [65, 66, 67] zero_frequencies)).length ∧
    Proper (build_huffman_tree (calculate_frequencies [65, 66, 67] zero_frequencies)) ∧
    (leaves (build_huffman_tree
      (calculate_frequencies [65, 66, 67] zero_frequencies))).Nodup ∧
    (∀ c, c ∈ leaves (build_huffman_tree
        (calculate_frequencies [65, 66, 67] zero_frequencies)) ↔
      calculate_frequencies [65, 66, 67] zero_frequencies c > 0) ∧
    (leaves (build_huffman_tree
      (calculate_frequencies [65, 66, 67] zero_frequencies))).length =
      (symbols (calculate_frequencies [65, 66, 67] zero_frequencies)).length ∧
    internal_nodes (build_huffman_tree
      (calculate_frequencies [65, 66, 67] zero_frequencies)) + 1 =
      (symbols (calculate_frequencies [65, 66, 67] zero_frequencies)).length :=
  ⟨by decide!,
    build_huffman_tree_structure (calculate_frequencies [65, 66, 67] zero_frequencies)
      (by decide!)⟩

/-- C16. Code length bound: for every histogram, `generate_codes` on the built tree
(zeroed table and buffer, depth 0) completes without a store outside a 256-byte
buffer; every entry then holds a NUL-terminated string of `length` characters with
`length ≤ 255`, and `length ≤ k - 1` when the histogram has `k ≥ 2` positive entries. -/
theorem generate_codes_length_bound (frequencies : Byte → Int) :
    ∃ codes cc,
      generate_codes (build_huffman_tree frequencies) zero_code_table zero_current_code 0 =
        some (codes, cc) ∧
      ∀ c, ∃ s, c_string (codes c).code = some s ∧ s.length = (codes c).length ∧
        (codes c).length ≤ 255 ∧
        (2 ≤ (symbols frequencies).length →
          (codes c).length + 1 ≤ (symbols frequencies).length) := by
  by_cases h : ∃ c, frequencies c > 0
  · obtain ⟨codes, cc, hgen, hzero, hpaths⟩ := generate_codes_built frequencies h
    have hbuilt := build_huffman_tree_built frequencies h
    refine ⟨codes, cc, hgen, fun c => ?_⟩
    by_cases hc : frequencies c > 0
    · obtain ⟨q, hq⟩ := mem_paths_of_mem_leaves _ c ((hbuilt.mem_leaves c).mpr hc)
      obtain ⟨h1, h2⟩ := hpaths c q hq
      have hle := paths_length_le _ c q hq
      refine ⟨code_chars q, h1, by rw [h2]; simp [code_chars], ?_, ?_⟩
      · rw [h2]
        exact hle.trans hbuilt.height_le
      · intro h2k
        obtain ⟨hproper, hperm⟩ := build_huffman_tree_forest frequencies h2k
        have := height_lt_leaves hproper
        rw [hperm.length_eq] at this
        rw [h2]
        omega
    · rw [hzero c hc]
      refine ⟨[], c_string_zero, rfl, ?_, ?_⟩
      · show 0 ≤ 255
        omega
      · intro h2k
        show 0 + 1 ≤ _
        omega
  · have hnil : symbols frequencies = [] := by
      rw [List.eq_nil_iff_forall_not_mem]
      intro c hc
      exact h ⟨c, (mem_symbols frequencies c).mp hc⟩
    rw [build_huffman_tree_none frequencies hnil]
    refine ⟨zero_code_table, zero_current_code, by simp [generate_codes], fun c => ?_⟩
    refine ⟨[], c_string_zero, rfl, ?_, ?_⟩
    · show 0 ≤ 255
      omega
    · intro h2k
      rw [hnil] at h2k
      simp at h2k

/-- C20. Extract-min correctness: for every heap in heap order, when `size ≥ 1` the
node that `heap_extract_min` returns is a node of the heap whose frequency is at most
that of every node of the heap, the heap afterwards holds exactly the other nodes
(as a multiset) and its size is one less; when `size = 0` it returns NULL and the
heap is unchanged. -/
theorem heap_extract_min_correct (heap : MinHeap) (h : HeapOrder heap.nodes) :
    (0 < heap.size →
      (heap_extract_min heap).1 ∈ heap.nodes ∧
      (∀ x ∈ heap.nodes, (heap_extract_min heap).1.frequency ≤ x.frequency) ∧
      heap.nodes.Perm ((heap_extract_min heap).1 :: (heap_extract_min heap).2.nodes) ∧
      (heap_extract_min heap).2.size + 1 = heap.size) ∧
    (heap.size = 0 → heap_extract_min heap = (.null, heap)) := by
  refine ⟨fun hpos => ⟨?_, heap_extract_min_le heap h, heap_extract_min_perm heap hpos,
    heap_extract_min_size heap hpos⟩, heap_extract_min_empty heap⟩
  exact (heap_extract_min_perm heap hpos).mem_iff.mpr (List.mem_cons_self _ _)

/-- C20, at a heap of three leaves with frequencies 1, 3, 2. -/
theorem heap_extract_min_correct_witness :
    HeapOrder three_heap.nodes ∧
    (0 < three_heap.size →
      (heap_extract_min three_heap).1 ∈ three_heap.nodes ∧
      (∀ x ∈ three_heap.nodes, (heap_extract_min three_heap).1.frequency ≤ x.frequency) ∧
      three_heap.nodes.Perm
        ((heap_extract_min three_heap).1 :: (heap_extract_min three_heap).2.nodes) ∧
      (heap_extract_min three_heap).2.size + 1 = three_heap.size) ∧
    (three_heap.size = 0 → heap_extract_min three_heap = (.null, three_heap)) :=
  have horder : HeapOrder three_heap.nodes := by
    intro i h0 hlt
    have hi : i = 1 ∨ i = 2 := by
      simp only [three_heap, List.length_cons, List.length_nil] at hlt
      omega
    rcases hi with hi | hi <;> subst hi <;> decide
  ⟨horder, heap_extract_min_correct three_heap horder⟩

/-- C11. An unknown marker is rejected only at the root. With the tree bytes `09`,
`read_compressed_file` reports failure. With the tree bytes `02 09 01 41` the marker
9 at the left child is taken for an absent child: `read_compressed_file` returns the
file count 1 and a root whose left child is NULL, and `decode_data` on that tree with
the bits `0 0` reads `is_leaf` through the NULL pointer. -/
theorem unknown_marker_nested_accepted :
    read_compressed_file (marker_container [9]) = some read_failed ∧
    read_compressed_file (marker_container [2, 9, 1, 65]) =
      some { num_files := 1, encoded_data := [0],
             tree := .node 0 0 .null (.node 65 0 .null .null true) false, padding := 6,
             boundaries := [{ filename := ['a', '.', 't', 'x', 't'], start_pos := 0, size := 1 }] } ∧
    decode_data [0] 1 (.node 0 0 .null (.node 65 0 .null .null true) false) 6 = none := by
  decide!

/-- C12, as stated, fails: the three tree bytes `02 01 41` end before the right child.
`deserialize_tree` does not return NULL there; it reads index 3, past the declared
length, and with `01 42` stored behind them it returns a tree with the leaf `B`. -/
theorem truncated_tree_not_rejected :
    ¬ TruncationRejected [2, 1, 65] ∧
    deserialize_tree [2, 1, 65] 0 = none ∧
    deserialize_tree ([2, 1, 65] ++ [1, 66]) 0 =
      some (.node 0 0 (.node 65 0 .null .null true) (.node 66 0 .null .null true) false, 5) := by
  have hnone : deserialize_tree [2, 1, 65] 0 = none := by decide!
  refine ⟨?_, hnone, by decide!⟩
  rintro ⟨pos, hpos⟩
  rw [hnone] at hpos
  cases hpos

/-- C12, amended. `deserialize_tree` takes no length and checks no bound. When the
first `tree_size` bytes (`buffer`) end before a complete tree, so that a marker or leaf
character is read at an index `≥ tree_size`, then on the buffer with any bytes `rest`
stored behind them the call either reads past those as well or returns with a position
greater than `tree_size`: what it returns was read from index `tree_size` on, and no
error is reported for the truncation. -/
theorem deserialize_tree_truncated (buffer rest : List Byte)
    (h : deserialize_tree buffer 0 = none) :
    deserialize_tree (buffer ++ rest) 0 = none ∨
    ∃ t p, deserialize_tree (buffer ++ rest) 0 = some (t, p) ∧ buffer.length < p := by
  cases hr : deserialize_tree (buffer ++ rest) 0 with
  | none => exact Or.inl rfl
  | some r =>
    refine Or.inr ⟨r.1, r.2, rfl, ?_⟩
    by_contra hle
    have hsome := deserialize_tree_fuel_restrict _ buffer rest 0 r hr (by omega)
    rw [deserialize_tree_fuel_of_le buffer 0 _
      (by simp only [List.length_append]; omega)] at hsome
    rw [h] at hsome
    cases hsome

/-- C12 amended, at the tree bytes `02 01 41` with `01 42` stored behind them. -/
theorem deserialize_tree_truncated_witness :
    deserialize_tree [2, 1, 65] 0 = none ∧
    (deserialize_tree ([2, 1, 65] ++ [1, 66]) 0 = none ∨
      ∃ t p, deserialize_tree ([2, 1, 65] ++ [1, 66]) 0 = some (t, p) ∧
        ([2, 1, 65] : List Byte).length < p) :=
  ⟨by decide!, deserialize_tree_truncated [2, 1, 65] [1, 66] (by decide!)⟩

theorem strip_ne_null {t : HuffmanNode} (h : t ≠ .null) : strip t ≠ .null := by
  cases t with
  | null => exact absurd rfl h
  | node c f l r leaf =>
    cases leaf <;> simp [strip]

/-- The read half of the container round trip: on a container that holds, after the
header for `n ≤ MAX_FILES` files, the serialized bytes of a non-null tree whose leaves
have no children (at most `MAX_TREE_SIZE * 3` of them) and the packed data,
`read_compressed_file` returns `n`, the boundaries, the padding, the packed bytes and
a tree of the same shape and leaf characters. -/
theorem read_compressed_file_layout (encoded_data : List Byte) (tree : HuffmanNode)
    (padding : Int) (boundaries : List FileBoundary) (n : Nat) (hn : n ≤ MAX_FILES)
    (hb : boundaries.length = n) (hnull : tree ≠ .null) (hclean : Clean tree)
    (hfit : (tree_bytes tree).length ≤ MAX_TREE_SIZE * 3) :
    read_compressed_file
      { header_size := sizeof_CompressionHeader,
        header :=
          { num_files := n, padding := padding,
            tree_size := ((tree_bytes tree).length : Nat),
            data_size := encoded_data.length,
            file_boundaries := boundaries },
        payload := tree_bytes tree ++ encoded_data } =
      some { num_files := n, encoded_data := encoded_data, tree := strip tree,
             padding := padding, boundaries := boundaries } ∧
    same_shape tree (strip tree) := by
  have hdes : deserialize_tree (tree_bytes tree) 0 =
      some (strip tree, 0 + (tree_bytes tree).length) :=
    deserialize_tree_fuel_spec tree _ _ 0 [] (by simp) (by omega)
  rw [Nat.zero_add] at hdes
  refine ⟨?_, same_shape_strip tree hclean⟩
  unfold read_compressed_file
  simp only
  rw [if_neg (by omega),
    if_neg (by unfold MAX_TREE_SIZE at hfit ⊢; push_cast; omega),
    if_neg (by simp)]
  simp only [Int.toNat_ofNat, List.take_left', hdes, Option.map_some']
  rw [if_neg (strip_ne_null hnull), if_neg (by omega), if_neg (by simp)]
  simp only [List.drop_left', List.take_length, ← hb]

/-- No call of `write_compressed_file` has a defined result: the stores of
`serialize_tree` go through the mistyped pointer. -/
theorem write_compressed_file_undefined (encoded_data : List Byte) (encoded_size : Nat)
    (tree : HuffmanNode) (padding : Int) (boundaries : List FileBoundary) (num_files : Nat) :
    write_compressed_file encoded_data encoded_size tree padding boundaries num_files =
      none := by
  unfold write_compressed_file
  split_ifs <;> rfl

/-- C19, at the failing input: for one file, the single-symbol tree, one packed byte
and padding 7, `write_compressed_file` has no defined result, because
`serialize_tree(tree, &tree_buffer, &tree_pos)` stores through a pointer read from the
uninitialised array; there are no bytes that `read_compressed_file` could be applied
to. On the container that should have been written, `read_compressed_file` does
return the file count, boundary, padding, tree shape and packed byte. -/
theorem container_write_undefined :
    write_compressed_file [0] 1 single_tree 7 [one_boundary] 1 = none ∧
    read_compressed_file
      { header_size := sizeof_CompressionHeader,
        header :=
          { num_files := 1, padding := 7, tree_size := 4, data_size := 1,
            file_boundaries := [one_boundary] },
        payload := [2, 1, 65, 0, 0] } =
      some { num_files := 1, encoded_data := [0],
             tree := .node 0 0 (.node 65 0 .null .null true) .null false,
             padding := 7, boundaries := [one_boundary] } := by
  decide!

theorem sum_map_ofNat (l : List Nat) : (l.map Int.ofNat).sum = (l.sum : Int) := by
  induction l with
  | nil => rfl
  | cons a t ih =>
    simp only [List.map_cons, List.sum_cons, ih]
    push_cast
    rfl

theorem file_sizes_zero (fs : FileSystem) (file_paths : List Path)
    (hzero : ∀ p ∈ file_paths, fs p = some []) : (file_sizes fs file_paths).sum = 0 := by
  induction file_paths with
  | nil => rfl
  | cons p rest ih =>
    simp only [file_sizes, List.map_cons, List.sum_cons, hzero p (List.mem_cons_self _ _),
      Option.getD_some, List.length_nil, Nat.zero_add]
    exact ih (fun q hq => hzero q (List.mem_cons_of_mem _ hq))

/-- C17, as stated, fails: for the empty file `e` followed by the file `a`, both
boundaries have `start_pos = 0`, so the start offsets are not strictly increasing. -/
theorem boundary_starts_not_strict :
    read_files empty_first_system [['e'], ['a']] =
      some (1, [65],
        [{ filename := ['e'], start_pos := 0, size := 0 },
         { filename := ['a'], start_pos := 0, size := 1 }]) ∧
    ¬ List.Pairwise (fun x y : FileBoundary => x.start_pos < y.start_pos)
      [{ filename := ['e'], start_pos := 0, size := 0 },
       { filename := ['a'], start_pos := 0, size := 1 }] := by
  decide!

/-- C17, amended. Boundary table: for every list of at most `MAX_FILES` files that can
be opened, `read_files` returns one boundary per file, in order; the name is the path
without its directory part, cut to 255 characters; `size` is the length of the file
and `start_pos` the sum of the sizes of the files before it; each file ends at or
before the start of every later one, so the spans do not overlap and the start offsets
do not decrease, and they increase strictly after a file that is not empty; the sizes
add up to the returned length, which is the length of the combined buffer. -/
theorem read_files_boundaries (fs : FileSystem) (file_paths : List Path)
    (hlen : file_paths.length ≤ MAX_FILES) (hopen : ∀ p ∈ file_paths, (fs p).isSome) :
    ∃ total data boundaries,
      read_files fs file_paths = some (total, data, boundaries) ∧
      boundaries.length = file_paths.length ∧
      boundaries.map (fun b => b.filename) =
        file_paths.map (fun p => (base_name p).take (MAX_FILENAME_LENGTH - 1)) ∧
      boundaries.map (fun b => b.size) = (file_sizes fs file_paths).map Int.ofNat ∧
      (∀ i, i < file_paths.length →
        (boundaries.map (fun b => b.start_pos))[i]? =
          some ((((file_sizes fs file_paths).take i).sum : Nat) : Int)) ∧
      boundaries.Pairwise (fun x y => x.start_pos + x.size ≤ y.start_pos) ∧
      boundaries.Pairwise (fun x y => 0 < x.size → x.start_pos < y.start_pos) ∧
      (boundaries.map (fun b => b.size)).sum = total ∧
      data.length = total := by
  obtain ⟨data, hread, hdata⟩ := read_files_spec fs file_paths hlen hopen
  refine ⟨_, data, _, hread, boundary_table_length fs file_paths 0,
    boundary_table_filename fs file_paths 0, boundary_table_size fs file_paths 0, ?_,
    boundary_table_pairwise fs file_paths 0, ?_, ?_, hdata⟩
  · intro i hi
    rw [boundary_table_start fs file_paths 0 i hi, Nat.zero_add]
  · refine (boundary_table_pairwise fs file_paths 0).imp ?_
    intro x y hxy hpos
    omega
  · rw [boundary_table_size, sum_map_ofNat]

/-- C17 amended, at the empty file `e` followed by the file `a`. -/
theorem read_files_boundaries_witness :
    ([['e'], ['a']] : List Path).length ≤ MAX_FILES ∧
    (∀ p ∈ ([['e'], ['a']] : List Path), (empty_first_system p).isSome) ∧
    ∃ total data boundaries,
      read_files empty_first_system [['e'], ['a']] = some (total, data, boundaries) ∧
      boundaries.length = ([['e'], ['a']] : List Path).length ∧
      boundaries.map (fun b => b.filename) =
        ([['e'], ['a']] : List Path).map
          (fun p => (base_name p).take (MAX_FILENAME_LENGTH - 1)) ∧
      boundaries.map (fun b => b.size) =
        (file_sizes empty_first_system [['e'], ['a']]).map Int.ofNat ∧
      (∀ i, i < ([['e'], ['a']] : List Path).length →
        (boundaries.map (fun b => b.start_pos))[i]? =
          some ((((file_sizes empty_first_system [['e'], ['a']]).take i).sum : Nat) : Int)) ∧
      boundaries.Pairwise (fun x y => x.start_pos + x.size ≤ y.start_pos) ∧
      boundaries.Pairwise (fun x y => 0 < x.size → x.start_pos < y.start_pos) ∧
      (boundaries.map (fun b => b.size)).sum = total ∧
      data.length = total :=
  ⟨by decide, by decide,
    read_files_boundaries empty_first_system [['e'], ['a']] (by decide) (by decide)⟩

/-- C18, as stated, fails: on the empty file list and on the list that holds only the
empty file `e`, `compress_files` returns the status 0, not a failure status. -/
theorem empty_input_not_failure :
    compress_files empty_first_system [] = some { status := 0, written := none } ∧
    compress_files empty_first_system [['e']] = some { status := 0, written := none } := by
  decide!

/-- C18, amended. Empty input is not an error: for every list of at most `MAX_FILES`
files that is empty or consists only of zero-length files, `compress_files` returns
the status 0 (after its warning that there is no data to compress) and writes no
container. -/
theorem compress_files_empty_input (fs : FileSystem) (file_paths : List Path)
    (hlen : file_paths.length ≤ MAX_FILES) (hzero : ∀ p ∈ file_paths, fs p = some []) :
    compress_files fs file_paths = some { status := 0, written := none } := by
  have hopen : ∀ p ∈ file_paths, (fs p).isSome := by
    intro p hp
    rw [hzero p hp]
    rfl
  have hany : file_paths.any (fun p => (fs p).isNone) = false := by
    rw [List.any_eq_false]
    intro p hp
    rw [hzero p hp]
    simp
  obtain ⟨data, hread, _⟩ := read_files_spec fs file_paths hlen hopen
  unfold compress_files
  rw [hany, hread, file_sizes_zero fs file_paths hzero]
  rfl

/-- C18 amended, at the list that holds only the empty file `e`. -/
theorem compress_files_empty_input_witness :
    ([['e']] : List Path).length ≤ MAX_FILES ∧
    (∀ p ∈ ([['e']] : List Path), empty_first_system p = some []) ∧
    compress_files empty_first_system [['e']] = some { status := 0, written := none } :=
  ⟨by decide, by decide,
    compress_files_empty_input empty_first_system [['e']] (by decide) (by decide)⟩

theorem flatMap_length_one {α β : Type} (l : List α) (f : α → List β)
    (h : ∀ a ∈ l, (f a).length = 1) : (l.flatMap f).length = l.length := by
  induction l with
  | nil => rfl
  | cons a t ih =>
    simp only [List.flatMap_cons, List.length_append, List.length_cons,
      h a (List.mem_cons_self _ _), ih (fun x hx => h x (List.mem_cons_of_mem _ hx))]
    omega

/-- C14, as stated, fails: in the buffer of `2^31` bytes `A` followed by one `B` the
counter of `A` wraps to `-2^31`; only `B` has a positive count, and the code of `A` has
length 0, not 1. -/
theorem two_symbol_counter_wraps :
    (∀ x ∈ List.replicate 2147483648 (65 : Byte) ++ [66], x = 65 ∨ x = 66) ∧
    (65 : Byte) ∈ List.replicate 2147483648 (65 : Byte) ++ [66] ∧
    (66 : Byte) ∈ List.replicate 2147483648 (65 : Byte) ++ [66] ∧
    ∃ codes cc,
      generate_codes
        (build_huffman_tree
          (calculate_frequencies (List.replicate 2147483648 (65 : Byte) ++ [66])
            zero_frequencies))
        zero_code_table zero_current_code 0 = some (codes, cc) ∧
      (codes 65).length = 0 :=
  two_symbol_wrapped 2147483648 65 66 (by decide) (by decide) (by decide)

/-- C14, amended. Two-symbol case: for every buffer of `n` bytes that holds exactly the
two byte values `a` and `b`, neither more than `INT_MAX = 2^31 - 1` times, the table
generated from the built tree gives both symbols a code of length 1, one of them "0"
and the other "1"; `encode_data` returns `ceil(n / 8)` packed bytes and the padding
`(8 - n mod 8) mod 8`. -/
theorem two_symbol_buffer (B : List Byte) (a b : Byte) (hab : a ≠ b) (ha : a ∈ B)
    (hb : b ∈ B) (hall : ∀ x ∈ B, x = a ∨ x = b)
    (hfit : ∀ c, (B.count c : Int) ≤ INT_MAX) :
    ∃ codes cc e,
      generate_codes (build_huffman_tree (calculate_frequencies B zero_frequencies))
        zero_code_table zero_current_code 0 = some (codes, cc) ∧
      encode_data B codes = some e ∧
      (codes a).length = 1 ∧ (codes b).length = 1 ∧
      ((c_string (codes a).code = some ['0'] ∧ c_string (codes b).code = some ['1']) ∨
        (c_string (codes a).code = some ['1'] ∧ c_string (codes b).code = some ['0'])) ∧
      e.encoded_bytes = (B.length + 7) / 8 ∧ e.encoded_data.length = (B.length + 7) / 8 ∧
      e.padding = (8 - B.length % 8) % 8 := by
  have hB : B ≠ [] := List.ne_nil_of_mem ha
  have hsym := symbols_two B a b hab ha hb hall hfit
  have h2 : 2 ≤ (symbols (calculate_frequencies B zero_frequencies)).length := by
    rw [hsym.length_eq]
    exact Nat.le_refl 2
  obtain ⟨hproper, hperm⟩ := build_huffman_tree_forest _ h2
  obtain ⟨codes, cc, e, hgen, henc, _, hmem, hlen, hpad, hbytes, _, _⟩ := encode_pipeline B hB hfit
  obtain ⟨codes2, cc2, hgen2, _, hpaths⟩ := generate_codes_built
    (calculate_frequencies B zero_frequencies) ⟨a, (calculate_frequencies_pos B hfit a).mpr ha⟩
  rw [hgen] at hgen2
  cases hgen2
  have hle : (leaves (build_huffman_tree (calculate_frequencies B zero_frequencies))).length =
      2 := by
    rw [(hperm.trans hsym).length_eq]
    rfl
  obtain ⟨f, x, fx, y, fy, hT⟩ := hproper.two_leaves hle
  have hxy := hperm.trans hsym
  rw [hT] at hpaths hmem hbytes hxy
  have hp : paths (.node 0 f (.node x fx .null .null true) (.node y fy .null .null true) false) =
      [(x, [false]), (y, [true])] := by
    simp [paths]
  rw [hp] at hpaths hmem
  have hleaves : leaves
      (.node 0 f (.node x fx .null .null true) (.node y fy .null .null true) false) = [x, y] := by
    simp [leaves]
  rw [hleaves] at hxy
  obtain ⟨hx1, hx2⟩ := hpaths x [false] (by simp)
  obtain ⟨hy1, hy2⟩ := hpaths y [true] (by simp)
  have hflat : (B.flatMap (path_of
      (.node 0 f (.node x fx .null .null true) (.node y fy .null .null true) false))).length =
      B.length := by
    apply flatMap_length_one
    intro c hc
    have := hmem c hc
    simp only [List.mem_cons, Prod.mk.injEq, List.mem_singleton, List.not_mem_nil,
      or_false] at this
    rcases this with h | h <;> rw [h.2] <;> rfl
  rw [hflat] at hbytes
  refine ⟨codes, cc, e, hgen, henc, ?_, ?_, ?_, by omega, by omega, by omega⟩
  all_goals
    have hamem : a ∈ [x, y] := hxy.mem_iff.mpr (by simp)
    have hbmem : b ∈ [x, y] := hxy.mem_iff.mpr (by simp)
    simp only [List.mem_cons, List.mem_singleton, List.not_mem_nil, or_false] at hamem hbmem
    rcases hamem with h | h <;> rcases hbmem with h' | h' <;> subst h <;> subst h'
    · exact absurd rfl hab
    · first
        | exact hx2
        | exact hy2
        | exact Or.inl ⟨hx1, hy1⟩
    · first
        | exact hy2
        | exact hx2
        | exact Or.inr ⟨hy1, hx1⟩
    · exact absurd rfl hab

/-- C14 amended, at nine `A` followed by one `B`: 2 packed bytes and padding 6. -/
theorem two_symbol_buffer_witness :
    (65 : Byte) ≠ 66 ∧
    (65 : Byte) ∈ ([65, 65, 65, 65, 65, 65, 65, 65, 65, 66] : List Byte) ∧
    (66 : Byte) ∈ ([65, 65, 65, 65, 65, 65, 65, 65, 65, 66] : List Byte) ∧
    (∀ x ∈ ([65, 65, 65, 65, 65, 65, 65, 65, 65, 66] : List Byte), x = 65 ∨ x = 66) ∧
    (∀ c, ((([65, 65, 65, 65, 65, 65, 65, 65, 65, 66] : List Byte).count c : Nat) : Int) ≤
      INT_MAX) ∧
    ∃ codes cc e,
      generate_codes (build_huffman_tree
        (calculate_frequencies [65, 65, 65, 65, 65, 65, 65, 65, 65, 66] zero_frequencies))
        zero_code_table zero_current_code 0 = some (codes, cc) ∧
      encode_data [65, 65, 65, 65, 65, 65, 65, 65, 65, 66] codes = some e ∧
      (codes 65).length = 1 ∧ (codes 66).length = 1 ∧
      ((c_string (codes 65).code = some ['0'] ∧ c_string (codes 66).code = some ['1']) ∨
        (c_string (codes 65).code = some ['1'] ∧ c_string (codes 66).code = some ['0'])) ∧
      e.encoded_bytes = 2 ∧ e.encoded_data.length = 2 ∧ e.padding = 6 :=
  ⟨by decide, by decide, by decide, by decide!,
    count_fits_of_length [65, 65, 65, 65, 65, 65, 65, 65, 65, 66] (by decide),
    two_symbol_buffer [65, 65, 65, 65, 65, 65, 65, 65, 65, 66] 65 66 (by decide) (by decide)
      (by decide) (by decide!)
      (count_fits_of_length [65, 65, 65, 65, 65, 65, 65, 65, 65, 66] (by decide))⟩

/-- C21. Heap-order invariant: the predicate `HeapOrder` (for every index `i` with
`0 < i < size`, `nodes[(i-1)/2].frequency ≤ nodes[i].frequency`) holds for the empty
heap that `create_min_heap` returns; on every heap in heap order it holds again after
`heap_insert`, which adds exactly the inserted node to the multiset of elements when
`size < capacity`, and after `heap_extract_min`. -/
theorem heap_order_invariant (heap : MinHeap) (node : HuffmanNode) (capacity : Nat)
    (h : HeapOrder heap.nodes) :
    HeapOrder (create_min_heap capacity).nodes ∧
    HeapOrder (heap_insert heap node).nodes ∧
    (heap.size < heap.capacity → (heap_insert heap node).nodes.Perm (node :: heap.nodes)) ∧
    HeapOrder (heap_extract_min heap).2.nodes :=
  ⟨HeapOrder_nil, heap_insert_order heap node h, heap_insert_perm heap node,
    heap_extract_min_order heap h⟩

/-- C21, at a heap of two leaves with frequencies 2 and 5 and room for a third, and a
new leaf with frequency 1. -/
theorem heap_order_invariant_witness :
    HeapOrder two_heap.nodes ∧
    HeapOrder (create_min_heap 3).nodes ∧
    HeapOrder (heap_insert two_heap (create_node 67 1 true)).nodes ∧
    (two_heap.size < two_heap.capacity →
      (heap_insert two_heap (create_node 67 1 true)).nodes.Perm
        (create_node 67 1 true :: two_heap.nodes)) ∧
    HeapOrder (heap_extract_min two_heap).2.nodes :=
  have horder : HeapOrder two_heap.nodes := by
    intro i h0 hlt
    have hi : i = 1 := by
      simp only [two_heap, List.length_cons, List.length_nil] at hlt
      omega
    subst hi
    decide
  ⟨horder, heap_order_invariant two_heap (create_node 67 1 true) 3 horder⟩

/-- C23. Serialized tree size: for every histogram and every tree buffer of
`MAX_TREE_SIZE * 3 = 1536` bytes, `serialize_tree` on the built tree stays inside the
buffer and leaves `*pos` at most at 767; with `k ≥ 2` positive entries it writes
exactly `3k - 1` bytes, one per internal node and two per leaf, and with `k = 1`
exactly 4 bytes. -/
theorem serialize_tree_size (frequencies : Byte → Int) (buffer : List Byte)
    (hbuf : buffer.length = MAX_TREE_SIZE * 3) :
    ∃ written n,
      serialize_tree (build_huffman_tree frequencies) buffer 0 = some (written, n) ∧
      written.length = MAX_TREE_SIZE * 3 ∧ n ≤ 767 ∧
      written.take n = tree_bytes (build_huffman_tree frequencies) ∧
      (2 ≤ (symbols frequencies).length →
        n + 1 = 3 * (symbols frequencies).length ∧
        n = internal_nodes (build_huffman_tree frequencies) +
          2 * (leaves (build_huffman_tree frequencies)).length) ∧
      ((symbols frequencies).length = 1 → n = 4) := by
  have hlen : (tree_bytes (build_huffman_tree frequencies)).length ≤ 767 := by
    by_cases h : ∃ c, frequencies c > 0
    · exact (build_huffman_tree_bytes frequencies h).2
    · have hnil : symbols frequencies = [] := by
        rw [List.eq_nil_iff_forall_not_mem]
        intro c hc
        exact h ⟨c, (mem_symbols frequencies c).mp hc⟩
      rw [build_huffman_tree_none frequencies hnil]
      simp [tree_bytes]
  have hfits : 0 + (tree_bytes (build_huffman_tree frequencies)).length ≤ buffer.length := by
    rw [hbuf]; unfold MAX_TREE_SIZE; omega
  have hser := serialize_tree_spec (build_huffman_tree frequencies) buffer 0 hfits
  rw [Nat.zero_add] at hser
  refine ⟨_, _, hser, ?_, hlen, ?_, ?_, ?_⟩
  · rw [splice_length _ _ _ hfits, hbuf]
  · simp [splice]
  · intro h2
    obtain ⟨hproper, hperm⟩ := build_huffman_tree_forest frequencies h2
    have h1 := hproper.tree_bytes_length
    have h3 := hproper.internal_nodes_succ
    have hk := hperm.length_eq
    omega
  · intro h1
    obtain ⟨s, hs⟩ := List.length_eq_one.mp h1
    rw [build_huffman_tree_single frequencies s hs]
    simp [tree_bytes, create_node]

/-- C23, at the histogram of the buffer `A B C` and a zeroed tree buffer. -/
theorem serialize_tree_size_witness :
    (List.replicate (MAX_TREE_SIZE * 3) (0 : Byte)).length = MAX_TREE_SIZE * 3 ∧
    ∃ written n,
      serialize_tree (build_huffman_tree (calculate_frequencies [65, 66, 67] zero_frequencies))
        (List.replicate (MAX_TREE_SIZE * 3) 0) 0 = some (written, n) ∧
      written.length = MAX_TREE_SIZE * 3 ∧ n ≤ 767 ∧
      written.take n =
        tree_bytes (build_huffman_tree (calculate_frequencies [65, 66, 67] zero_frequencies)) ∧
      (2 ≤ (symbols (calculate_frequencies [65, 66, 67] zero_frequencies)).length →
        n + 1 = 3 * (symbols (calculate_frequencies [65, 66, 67] zero_frequencies)).length ∧
        n = internal_nodes
            (build_huffman_tree (calculate_frequencies [65, 66, 67] zero_frequencies)) +
          2 * (leaves
            (build_huffman_tree (calculate_frequencies [65, 66, 67] zero_frequencies))).length) ∧
      ((symbols (calculate_frequencies [65, 66, 67] zero_frequencies)).length = 1 → n = 4) :=
  ⟨List.length_replicate _ _,
    serialize_tree_size (calculate_frequencies [65, 66, 67] zero_frequencies)
      (List.replicate (MAX_TREE_SIZE * 3) 0) (List.length_replicate _ _)⟩

theorem Full.not_null {t : HuffmanNode} (h : Full t) : t ≠ .null := by
  intro hn
  rw [hn] at h
  exact h

theorem Full.child {t : HuffmanNode} (h : Full t) (hl : t.is_leaf = false) (b : Bool) :
    Full (if b then t.right else t.left) := by
  cases t with
  | null => exact absurd h (by simp [Full])
  | node c f l r leaf =>
    simp only [HuffmanNode.is_leaf] at hl
    subst hl
    simp only [Full, Bool.false_eq_true, if_false] at h
    cases b
    · exact h.1
    · exact h.2

theorem Proper.full {t : HuffmanNode} (h : Proper t) : Full t := by
  induction t with
  | null => exact absurd h (by simp [Proper])
  | node c f l r leaf ihl ihr =>
    cases leaf with
    | true => simp [Full]
    | false =>
      simp only [Proper, Bool.false_eq_true, if_false] at h
      simp only [Full, Bool.false_eq_true, if_false]
      exact ⟨ihl h.2.1, ihr h.2.2⟩

/-- On a tree in which every non-leaf node has both children, no walk reaches an
absent child. -/
theorem Full.no_absent_child {tree : HuffmanNode} (htree : Full tree)
    (hroot : tree.is_leaf = false) (bits : List Bool) :
    ∀ current_node, Full current_node → current_node.is_leaf = false →
      reaches_absent_child tree current_node bits = false := by
  induction bits with
  | nil => intro _ _ _; rfl
  | cons b rest ih =>
    intro cur hcur hleaf
    have hnext := hcur.child hleaf b
    simp only [reaches_absent_child, if_neg hnext.not_null]
    by_cases hl : (if b then cur.right else cur.left).is_leaf = true
    · rw [if_pos hl]
      exact ih tree htree hroot
    · rw [if_neg hl]
      exact ih _ hnext (by simpa using hl)

/-- The walk of `decode_data` over bits that reach no absent child: every step is
defined, and at most one byte is written per bit. -/
theorem decode_stream_bound (tree : HuffmanNode) (max : Int) (hnull : tree ≠ .null)
    (hroot : tree.is_leaf = false) (bits : List Bool) :
    ∀ (current_node : HuffmanNode) (out : List Byte), current_node ≠ .null →
      current_node.is_leaf = false →
      reaches_absent_child tree current_node bits = false →
      ((out.length + bits.length : Nat) : Int) ≤ max →
      ∃ s, decode_stream tree max bits { decoded := out, current_node := current_node } =
          some s ∧
        s.decoded.length ≤ out.length + bits.length := by
  induction bits with
  | nil =>
    intro cur out _ _ _ _
    exact ⟨_, decode_stream_nil tree max _, Nat.le_refl _⟩
  | cons b rest ih =>
    intro cur out hcur hleaf hwalk hmax
    simp only [List.length_cons] at hmax
    simp only [reaches_absent_child] at hwalk
    have hnext : (if b then cur.right else cur.left) ≠ .null := by
      intro hn
      rw [if_pos hn] at hwalk
      cases hwalk
    rw [if_neg hnext] at hwalk
    rw [decode_stream_cons]
    by_cases hl : (if b then cur.right else cur.left).is_leaf = true
    · rw [if_pos hl] at hwalk
      rw [decode_bit_emit tree max out cur b hcur hleaf hnext hl (by omega)]
      obtain ⟨s, hs, hlen⟩ := ih tree (out ++ [(if b then cur.right else cur.left).character])
        hnull hroot hwalk (by simp only [List.length_append, List.length_singleton]; omega)
      refine ⟨s, hs, ?_⟩
      simp only [List.length_append, List.length_singleton] at hlen
      simp only [List.length_cons]
      omega
    · rw [if_neg hl] at hwalk
      have hl' : (if b then cur.right else cur.left).is_leaf = false := by simpa using hl
      rw [decode_bit_move tree max out cur b hcur hleaf hl']
      obtain ⟨s, hs, hlen⟩ := ih _ out hnext hl' hwalk (by omega)
      refine ⟨s, hs, ?_⟩
      simp only [List.length_cons]
      omega

/-- On every tree with a non-leaf root in which every non-leaf node has both
children, `decode_data` is defined for every packed byte array and every padding. -/
theorem decode_data_total_full (tree : HuffmanNode) (hfull : Full tree)
    (hroot : tree.is_leaf = false) (P : List Byte) (padding : Int) :
    ∃ out, decode_data P P.length tree padding = some out := by
  rw [decode_data_eq_stream P tree padding hfull.not_null]
  by_cases htotal : 0 < (P.length : Int) * 8 - padding
  · obtain ⟨s, hs, _⟩ := decode_stream_bound tree ((P.length : Int) * 8 - padding)
      hfull.not_null hroot ((bits_of P).take ((P.length : Int) * 8 - padding).toNat) tree []
      hfull.not_null hroot (hfull.no_absent_child hroot _ tree hfull hroot)
      (by
        simp only [List.length_nil, List.length_take, Nat.zero_add]
        omega)
    exact ⟨s.decoded, by rw [hs]; rfl⟩
  · have hz : ((P.length : Int) * 8 - padding).toNat = 0 := by omega
    rw [hz, List.take_zero, decode_stream_nil]
    exact ⟨[], rfl⟩

/-- On every tree that `build_huffman_tree` returns for two or more symbols,
`decode_data` is defined for every packed byte array and every padding, and no walk
over the tree reaches an absent child. -/
theorem decode_data_total_built (frequencies : Byte → Int)
    (h2 : 2 ≤ (symbols frequencies).length) (P : List Byte) (padding : Int) :
    (∃ out, decode_data P P.length (build_huffman_tree frequencies) padding = some out) ∧
    ∀ bits, reaches_absent_child (build_huffman_tree frequencies)
      (build_huffman_tree frequencies) bits = false := by
  obtain ⟨hproper, _⟩ := build_huffman_tree_forest frequencies h2
  have hex : ∃ c, frequencies c > 0 := by
    cases hs : symbols frequencies with
    | nil => rw [hs] at h2; simp at h2
    | cons c rest =>
      exact ⟨c, (mem_symbols frequencies c).mp (by rw [hs]; exact List.mem_cons_self _ _)⟩
  have hroot := (build_huffman_tree_built frequencies hex).not_leaf
  exact ⟨decode_data_total_full _ hproper.full hroot P padding,
    fun bits => hproper.full.no_absent_child hroot bits _ hproper.full hroot⟩

/-- C24. Decode output bound: for every tree whose root is a non-leaf node, every
packed byte array and every padding with `totalBits = 8 * encoded_size - padding > 0`
on which the walk over the data bits does not reach an absent child, `decode_data`
completes (every write into the output buffer of `totalBits` bytes is in bounds) and
returns at most `totalBits` bytes, at most one per consumed bit. -/
theorem decode_data_output_bound (tree : HuffmanNode) (P : List Byte) (padding : Int)
    (hnull : tree ≠ .null) (hroot : tree.is_leaf = false)
    (htotal : 0 < (P.length : Int) * 8 - padding)
    (hwalk : reaches_absent_child tree tree
      ((bits_of P).take ((P.length : Int) * 8 - padding).toNat) = false) :
    ∃ out, decode_data P P.length tree padding = some out ∧
      (out.length : Int) ≤ (P.length : Int) * 8 - padding ∧
      out.length ≤ ((bits_of P).take ((P.length : Int) * 8 - padding).toNat).length := by
  rw [decode_data_eq_stream P tree padding hnull]
  obtain ⟨s, hs, hlen⟩ := decode_stream_bound tree ((P.length : Int) * 8 - padding)
    hnull hroot ((bits_of P).take ((P.length : Int) * 8 - padding).toNat) tree []
    hnull hroot hwalk
    (by
      simp only [List.length_nil, List.length_take, Nat.zero_add]
      omega)
  refine ⟨s.decoded, by rw [hs]; rfl, ?_, ?_⟩
  · simp only [List.length_nil, List.length_take, Nat.zero_add] at hlen
    omega
  · simpa using hlen

/-- C24, at the tree with the leaves `A` and `B`, the packed byte `01000000` and
padding 6. -/
theorem decode_data_output_bound_witness :
    ab_tree ≠ .null ∧ ab_tree.is_leaf = false ∧
    0 < ((([64] : List Byte).length : Nat) : Int) * 8 - 6 ∧
    reaches_absent_child ab_tree ab_tree
      ((bits_of [64]).take (((([64] : List Byte).length : Nat) : Int) * 8 - 6).toNat) = false ∧
    ∃ out, decode_data [64] ([64] : List Byte).length ab_tree 6 = some out ∧
      (out.length : Int) ≤ ((([64] : List Byte).length : Nat) : Int) * 8 - 6 ∧
      out.length ≤
        ((bits_of [64]).take (((([64] : List Byte).length : Nat) : Int) * 8 - 6).toNat).length :=
  ⟨by decide, by decide, by decide, by decide,
    decode_data_output_bound ab_tree [64] 6 (by decide) (by decide) (by decide) (by decide)⟩

/-- C25. On the tree that is a single leaf, in which every non-leaf node has both
children (there is none), the first bit sends `current_node` to the absent left child
of the leaf, and with a second bit `decode_data` reads `is_leaf` through that NULL
pointer. -/
theorem decode_data_leaf_root :
    Full leaf_root ∧
    decode_stream leaf_root 2 [false] { decoded := [], current_node := leaf_root } =
      some { decoded := [65], current_node := .null } ∧
    decode_data [0] 1 leaf_root 6 = none := by
  refine ⟨by simp [leaf_root, Full], by decide!, by decide!⟩

theorem insert_fold_traced_heap (frequencies : Byte → Int) (xs : List Byte) :
    ∀ t : BuildTrace,
      (xs.foldl
        (fun t i =>
          if frequencies i > 0 then heap_insert_traced t (create_node i (frequencies i) true)
          else t) t).heap =
      xs.foldl
        (fun h i =>
          if frequencies i > 0 then heap_insert h (create_node i (frequencies i) true) else h)
        t.heap := by
  induction xs with
  | nil => intro t; rfl
  | cons x rest ih =>
    intro t
    simp only [List.foldl_cons]
    rw [ih]
    by_cases hx : frequencies x > 0
    · simp only [if_pos hx, heap_insert_traced]
    · simp only [if_neg hx]

/-- The traced insertion loop computes the heap of `insert_leaves`. -/
theorem insert_leaves_traced_heap (frequencies : Byte → Int) (t : BuildTrace) :
    (insert_leaves_traced frequencies t).heap = insert_leaves frequencies t.heap :=
  insert_fold_traced_heap frequencies all_bytes t

/-- The traced merge loop computes the heap of `merge_loop`. -/
theorem merge_loop_traced_heap (fuel : Nat) :
    ∀ t : BuildTrace, (merge_loop_traced fuel t).heap = merge_loop fuel t.heap := by
  induction fuel with
  | zero => intro t; rfl
  | succ n ih =>
    intro t
    unfold merge_loop_traced
    rw [merge_loop_succ]
    by_cases hsz : t.heap.size > 1
    · rw [if_pos hsz, if_pos hsz]
      simp only
      by_cases hn : (heap_extract_min t.heap).1 = .null ∨
          (heap_extract_min (heap_extract_min t.heap).2).1 = .null
      · rw [if_pos hn, if_pos hn]
      · rw [if_neg hn, if_neg hn, ih]
        rfl
    · rw [if_neg hsz, if_neg hsz]

theorem insert_fold_traced_counts (frequencies : Byte → Int) (xs : List Byte) :
    ∀ t : BuildTrace,
      t.heap.size + (xs.filter (fun i => frequencies i > 0)).length ≤ t.heap.capacity →
      t.peak ≤ t.heap.capacity →
      (xs.foldl
        (fun t i =>
          if frequencies i > 0 then heap_insert_traced t (create_node i (frequencies i) true)
          else t) t).dropped = t.dropped ∧
      (xs.foldl
        (fun t i =>
          if frequencies i > 0 then heap_insert_traced t (create_node i (frequencies i) true)
          else t) t).iterations = t.iterations ∧
      (xs.foldl
        (fun t i =>
          if frequencies i > 0 then heap_insert_traced t (create_node i (frequencies i) true)
          else t) t).peak ≤ t.heap.capacity := by
  induction xs with
  | nil => intro t _ hpeak; exact ⟨rfl, rfl, hpeak⟩
  | cons x rest ih =>
    intro t hcap hpeak
    simp only [List.foldl_cons]
    by_cases hx : frequencies x > 0
    · simp only [if_pos hx]
      simp only [List.filter_cons, decide_eq_true hx, if_true, List.length_cons] at hcap
      have hlt : t.heap.size < t.heap.capacity := by omega
      have hsize := heap_insert_size t.heap (create_node x (frequencies x) true) hlt
      have hcapacity := heap_insert_capacity t.heap (create_node x (frequencies x) true)
      obtain ⟨h1, h2, h3⟩ := ih (heap_insert_traced t (create_node x (frequencies x) true))
        (by
          simp only [heap_insert_traced]
          rw [hsize, hcapacity]
          omega)
        (by
          simp only [heap_insert_traced]
          rw [hsize, hcapacity]
          omega)
      refine ⟨?_, ?_, ?_⟩
      · rw [h1]
        simp only [heap_insert_traced]
        rw [if_neg (by omega)]
      · rw [h2]
        rfl
      · simp only [heap_insert_traced, hcapacity] at h3
        exact h3
    · simp only [if_neg hx]
      simp only [List.filter_cons, decide_eq_false hx] at hcap
      exact ih t (by simpa using hcap) hpeak

/-- The merge loop on a heap of non-null nodes never drops a node: from a heap of
`size ≥ 1` it completes `size - 1` iterations and stops with one node. -/
theorem merge_loop_traced_counts (fuel : Nat) :
    ∀ t : BuildTrace, (∀ x ∈ t.heap.nodes, x ≠ HuffmanNode.null) → 1 ≤ t.heap.size →
      t.heap.size ≤ fuel + 1 → t.heap.size ≤ t.heap.capacity → t.peak ≤ t.heap.capacity →
      (merge_loop_traced fuel t).dropped = t.dropped ∧
      (merge_loop_traced fuel t).iterations + 1 = t.iterations + t.heap.size ∧
      (merge_loop_traced fuel t).heap.size = 1 ∧
      (merge_loop_traced fuel t).peak ≤ t.heap.capacity := by
  induction fuel with
  | zero =>
    intro t _ h1 hf _ hpeak
    have : t.heap.size = 1 := by omega
    exact ⟨rfl, by rw [this]; rfl, this, hpeak⟩
  | succ n ih =>
    intro t hnn h1 hf hcap hpeak
    unfold merge_loop_traced
    by_cases hsz : t.heap.size > 1
    · rw [if_pos hsz]
      simp only
      have hp1 := heap_extract_min_perm t.heap (by omega)
      have hs1 := heap_extract_min_size t.heap (by omega)
      have hc1 := heap_extract_min_capacity t.heap
      have hp2 := heap_extract_min_perm (heap_extract_min t.heap).2 (by omega)
      have hs2 := heap_extract_min_size (heap_extract_min t.heap).2 (by omega)
      have hc2 := heap_extract_min_capacity (heap_extract_min t.heap).2
      generalize heap_extract_min t.heap = r1 at *
      generalize heap_extract_min r1.2 = r2 at *
      have hperm2 : t.heap.nodes.Perm (r1.1 :: r2.1 :: r2.2.nodes) :=
        hp1.trans (List.Perm.cons _ hp2)
      have hn1 : r1.1 ≠ .null := hnn _ (hperm2.mem_iff.mpr (by simp))
      have hn2 : r2.1 ≠ .null := hnn _ (hperm2.mem_iff.mpr (by simp))
      rw [if_neg (by simp [hn1, hn2])]
      have hlt : r2.2.size < r2.2.capacity := by omega
      have hins := heap_insert_perm r2.2 (HuffmanNode.node 0 (int_add r1.1.frequency r2.1.frequency)
        r1.1 r2.1 false) hlt
      have hsize := heap_insert_size r2.2 (HuffmanNode.node 0 (int_add r1.1.frequency r2.1.frequency)
        r1.1 r2.1 false) hlt
      have hcapacity := heap_insert_capacity r2.2
        (HuffmanNode.node 0 (int_add r1.1.frequency r2.1.frequency) r1.1 r2.1 false)
      obtain ⟨h1', h2', h3', h4'⟩ := ih
        { heap := heap_insert r2.2
            (HuffmanNode.node 0 (int_add r1.1.frequency r2.1.frequency) r1.1 r2.1 false),
          dropped := if r2.2.size ≥ r2.2.capacity then t.dropped + 1 else t.dropped,
          peak := max t.peak (heap_insert r2.2
            (HuffmanNode.node 0 (int_add r1.1.frequency r2.1.frequency) r1.1 r2.1 false)).size,
          iterations := t.iterations + 1 }
        (by
          intro x hx
          rcases List.mem_cons.mp (hins.mem_iff.mp hx) with h | h
          · rw [h]; simp
          · exact hnn x (hperm2.mem_iff.mpr (by simp [h])))
        (by simp only; rw [hsize]; omega)
        (by simp only; rw [hsize]; omega)
        (by simp only; rw [hsize, hcapacity]; omega)
        (by simp only; rw [hsize, hcapacity]; omega)
      dsimp only at h1' h2' h4'
      simp only [heap_insert_traced]
      refine ⟨?_, ?_, h3', ?_⟩
      · rw [h1', if_neg (by omega)]
      · omega
      · omega
    · rw [if_neg hsz]
      exact ⟨rfl, by omega, by omega, hpeak⟩

/-- For two or more symbols `build_huffman_tree` returns the first slot of the heap
that the merge loop leaves. -/
theorem build_huffman_tree_many (frequencies : Byte → Int)
    (h2 : 2 ≤ (symbols frequencies).length) :
    build_huffman_tree frequencies =
      if (merge_loop (insert_leaves frequencies
            (create_min_heap (symbols frequencies).length)).size
          (insert_leaves frequencies (create_min_heap (symbols frequencies).length))).size > 0
      then (merge_loop (insert_leaves frequencies
            (create_min_heap (symbols frequencies).length)).size
          (insert_leaves frequencies
            (create_min_heap (symbols frequencies).length))).nodes.getD 0 .null
      else .null := by
  unfold build_huffman_tree build_huffman_tree_with
  have hs : (all_bytes.filter (fun i => decide (frequencies i > 0))) = symbols frequencies := rfl
  rw [hs]
  simp only []
  rw [if_neg (by omega), if_neg (by omega)]
  rfl

theorem sum_filter_pos (frequencies : Byte → Int) (hnonneg : ∀ c, 0 ≤ frequencies c)
    (l : List Byte) :
    ((l.filter (fun i => frequencies i > 0)).map frequencies).sum = (l.map frequencies).sum := by
  induction l with
  | nil => rfl
  | cons x rest ih =>
    by_cases hx : frequencies x > 0
    · simp only [List.filter_cons, decide_eq_true hx, if_true, List.map_cons, List.sum_cons, ih]
    · have hz : frequencies x = 0 := by
        have := hnonneg x
        omega
      simp only [List.filter_cons, decide_eq_false hx, Bool.false_eq_true, if_false,
        List.map_cons, List.sum_cons, hz, zero_add]
      exact ih

theorem sum_nonneg_of_forall (l : List Int) (h : ∀ x ∈ l, 0 ≤ x) : 0 ≤ l.sum := by
  induction l with
  | nil => exact Int.le_refl 0
  | cons a t ih =>
    have ha := h a (List.mem_cons_self _ _)
    have ht := ih (fun x hx => h x (List.mem_cons_of_mem _ hx))
    simp only [List.sum_cons]
    omega

/-- While the sum of the positive histogram entries fits an `int`, no merged frequency
wraps, and the root's frequency is that sum. -/
theorem build_huffman_tree_frequency (frequencies : Byte → Int)
    (h2 : 2 ≤ (symbols frequencies).length)
    (hsum : ((symbols frequencies).map frequencies).sum ≤ INT_MAX) :
    (build_huffman_tree frequencies).frequency = ((symbols frequencies).map frequencies).sum := by
  have h := build_huffman_tree_invariant
    (fun F => (∀ t ∈ F, t ≠ HuffmanNode.null ∧ 0 ≤ t.frequency) ∧
      (F.map HuffmanNode.frequency).sum = ((symbols frequencies).map frequencies).sum)
    (fun F G hp hF => ⟨fun t ht => hF.1 t (hp.mem_iff.mpr ht),
      by rw [← hF.2]; exact ((hp.map _).sum_eq).symm⟩)
    (fun F hF t ht => (hF.1 t ht).1)
    (fun a b R hI _ _ => by
      have ha := (hI.1 a (by simp)).2
      have hb := (hI.1 b (by simp)).2
      have hR : 0 ≤ (R.map HuffmanNode.frequency).sum := by
        apply sum_nonneg_of_forall
        intro x hx
        obtain ⟨t, ht, rfl⟩ := List.mem_map.mp hx
        exact (hI.1 t (by simp [ht])).2
      have hs := hI.2
      simp only [List.map_cons, List.sum_cons] at hs
      have hexact : int_add a.frequency b.frequency = a.frequency + b.frequency :=
        int_wrap_of_range _ (by omega) (by omega)
      refine ⟨?_, ?_⟩
      · intro t ht
        rcases List.mem_cons.mp ht with h | h
        · rw [h]
          refine ⟨by simp [merge_nodes_int], ?_⟩
          show 0 ≤ int_add a.frequency b.frequency
          rw [hexact]
          omega
        · exact hI.1 t (by simp [h])
      · show int_add a.frequency b.frequency + (R.map HuffmanNode.frequency).sum = _
        rw [hexact]
        omega)
    frequencies h2
    (by
      refine ⟨?_, ?_⟩
      · intro t ht
        obtain ⟨i, hi, rfl⟩ := List.mem_map.mp ht
        refine ⟨by simp [create_node], ?_⟩
        have := (mem_symbols frequencies i).mp hi
        simp only [create_node, HuffmanNode.frequency]
        omega
      · rw [List.map_map]
        rfl)
  simpa using h.2

/-- C22, as stated, fails: for the histogram with four entries `2^30` the merged
frequencies wrap (`2^30 + 2^30` is `-2^31` as an `int`) and the root's frequency is 0,
while the entries add up to `2^32`. -/
theorem root_frequency_wraps :
    2 ≤ (symbols quarter_histogram).length ∧
    (build_huffman_tree quarter_histogram).frequency = 0 ∧
    ((symbols quarter_histogram).map quarter_histogram).sum = 4294967296 ∧
    (all_bytes.map quarter_histogram).sum = 4294967296 := by
  decide!

/-- C22, amended. No node is dropped during construction: for every histogram with
`k ≥ 2` positive entries, in the run of `build_huffman_tree` no call of `heap_insert`
returns at its `heap full` test, the heap size never exceeds the capacity `k`, the
merge loop completes exactly `k - 1` iterations and stops with exactly one node in the
heap, the returned root; when the sum of the positive histogram entries is at most
`INT_MAX = 2^31 - 1`, the root's frequency is that sum, which is the sum of all
entries when none is negative. -/
theorem build_never_drops (frequencies : Byte → Int)
    (h2 : 2 ≤ (symbols frequencies).length) :
    (build_trace frequencies).dropped = 0 ∧
    (build_trace frequencies).peak ≤ (symbols frequencies).length ∧
    (build_trace frequencies).iterations + 1 = (symbols frequencies).length ∧
    (build_trace frequencies).heap.nodes = [build_huffman_tree frequencies] ∧
    (((symbols frequencies).map frequencies).sum ≤ INT_MAX →
      (build_huffman_tree frequencies).frequency =
        ((symbols frequencies).map frequencies).sum ∧
      ((∀ c, 0 ≤ frequencies c) →
        (build_huffman_tree frequencies).frequency = (all_bytes.map frequencies).sum)) := by
  obtain ⟨hp, hc, _⟩ := insert_leaves_spec frequencies
  have hheap := insert_leaves_traced_heap frequencies
    { heap := create_min_heap (symbols frequencies).length, dropped := 0, peak := 0,
      iterations := 0 }
  have hcounts : (insert_leaves_traced frequencies
        { heap := create_min_heap (symbols frequencies).length, dropped := 0, peak := 0,
          iterations := 0 }).dropped = 0 ∧
      (insert_leaves_traced frequencies
        { heap := create_min_heap (symbols frequencies).length, dropped := 0, peak := 0,
          iterations := 0 }).iterations = 0 ∧
      (insert_leaves_traced frequencies
        { heap := create_min_heap (symbols frequencies).length, dropped := 0, peak := 0,
          iterations := 0 }).peak ≤ (symbols frequencies).length :=
    insert_fold_traced_counts frequencies all_bytes
      { heap := create_min_heap (symbols frequencies).length, dropped := 0, peak := 0,
        iterations := 0 }
      (by
        show 0 + (symbols frequencies).length ≤ (symbols frequencies).length
        omega)
      (Nat.zero_le _)
  have hmany := build_huffman_tree_many frequencies h2
  have htrace : build_trace frequencies =
      merge_loop_traced
        (insert_leaves_traced frequencies
          { heap := create_min_heap (symbols frequencies).length, dropped := 0, peak := 0,
            iterations := 0 }).heap.size
        (insert_leaves_traced frequencies
          { heap := create_min_heap (symbols frequencies).length, dropped := 0, peak := 0,
            iterations := 0 }) := rfl
  rw [htrace]
  generalize insert_leaves_traced frequencies
    { heap := create_min_heap (symbols frequencies).length, dropped := 0, peak := 0,
      iterations := 0 } = t1 at *
  simp only at hheap
  rw [← hheap] at hp hc hmany
  obtain ⟨hd, hi, hpk⟩ := hcounts
  have hsize : t1.heap.size = (symbols frequencies).length := by
    have := hp.length_eq
    simpa [MinHeap.size] using this
  obtain ⟨m1, m2, m3, m4⟩ := merge_loop_traced_counts t1.heap.size t1
    (by
      intro x hx
      obtain ⟨i, _, hi⟩ := List.mem_map.mp (hp.mem_iff.mp hx)
      rw [← hi]
      simp [create_node])
    (by omega) (by omega) (by omega) (by omega)
  have hm := merge_loop_traced_heap t1.heap.size t1
  rw [← hm] at hmany
  obtain ⟨x, hx⟩ := List.length_eq_one.mp m3
  refine ⟨by rw [m1, hd], by omega, by omega, ?_, ?_⟩
  · rw [hmany, if_pos (by omega), hx]
    rfl
  · intro hsum
    have hfreq := build_huffman_tree_frequency frequencies h2 hsum
    refine ⟨hfreq, ?_⟩
    intro hnonneg
    rw [hfreq]
    exact sum_filter_pos frequencies hnonneg all_bytes

/-- C22 amended, at the histogram of the buffer `A B C`. -/
theorem build_never_drops_witness :
    2 ≤ (symbols (calculate_frequencies [65, 66, 67] zero_frequencies)).length ∧
    (build_trace (calculate_frequencies [65, 66, 67] zero_frequencies)).dropped = 0 ∧
    (build_trace (calculate_frequencies [65, 66, 67] zero_frequencies)).peak ≤
      (symbols (calculate_frequencies [65, 66, 67] zero_frequencies)).length ∧
    (build_trace (calculate_frequencies [65, 66, 67] zero_frequencies)).iterations + 1 =
      (symbols (calculate_frequencies [65, 66, 67] zero_frequencies)).length ∧
    (build_trace (calculate_frequencies [65, 66, 67] zero_frequencies)).heap.nodes =
      [build_huffman_tree (calculate_frequencies [65, 66, 67] zero_frequencies)] ∧
    (((symbols (calculate_frequencies [65, 66, 67] zero_frequencies)).map
        (calculate_frequencies [65, 66, 67] zero_frequencies)).sum ≤ INT_MAX →
      (build_huffman_tree (calculate_frequencies [65, 66, 67] zero_frequencies)).frequency =
        ((symbols (calculate_frequencies [65, 66, 67] zero_frequencies)).map
          (calculate_frequencies [65, 66, 67] zero_frequencies)).sum ∧
      ((∀ c, 0 ≤ calculate_frequencies [65, 66, 67] zero_frequencies c) →
        (build_huffman_tree (calculate_frequencies [65, 66, 67] zero_frequencies)).frequency =
          (all_bytes.map (calculate_frequencies [65, 66, 67] zero_frequencies)).sum)) :=
  ⟨by decide!,
    build_never_drops (calculate_frequencies [65, 66, 67] zero_frequencies) (by decide!)⟩

/-- While the frequencies in the heap are not negative and add up to at most
`INT_MAX`, the merge loop with `int` addition and the merge loop with exact addition
compute the same heap: no sum wraps. -/
theorem merge_loop_eq_unbounded (S : Int) (hS : S ≤ INT_MAX) (fuel : Nat) :
    ∀ heap : MinHeap, (∀ t ∈ heap.nodes, t ≠ HuffmanNode.null ∧ 0 ≤ t.frequency) →
      (heap.nodes.map HuffmanNode.frequency).sum = S → heap.size ≤ heap.capacity →
      merge_loop_with int_add fuel heap = merge_loop_with (fun a b => a + b) fuel heap := by
  induction fuel with
  | zero => intro heap _ _ _; rfl
  | succ n ih =>
    intro heap hnn hsum hcap
    rw [merge_loop_with_succ, merge_loop_with_succ]
    by_cases hsz : heap.size > 1
    · rw [if_pos hsz, if_pos hsz]
      have hp1 := heap_extract_min_perm heap (by omega)
      have hs1 := heap_extract_min_size heap (by omega)
      have hc1 := heap_extract_min_capacity heap
      have hp2 := heap_extract_min_perm (heap_extract_min heap).2 (by omega)
      have hs2 := heap_extract_min_size (heap_extract_min heap).2 (by omega)
      have hc2 := heap_extract_min_capacity (heap_extract_min heap).2
      generalize heap_extract_min heap = r1 at *
      generalize heap_extract_min r1.2 = r2 at *
      have hperm2 : heap.nodes.Perm (r1.1 :: r2.1 :: r2.2.nodes) :=
        hp1.trans (List.Perm.cons _ hp2)
      have h1 := hnn r1.1 (hperm2.mem_iff.mpr (by simp))
      have h2 := hnn r2.1 (hperm2.mem_iff.mpr (by simp))
      have hR : ∀ t ∈ r2.2.nodes, t ≠ HuffmanNode.null ∧ 0 ≤ t.frequency :=
        fun t ht => hnn t (hperm2.mem_iff.mpr (by simp [ht]))
      have hRsum : 0 ≤ (r2.2.nodes.map HuffmanNode.frequency).sum := by
        apply sum_nonneg_of_forall
        intro x hx
        obtain ⟨t, ht, rfl⟩ := List.mem_map.mp hx
        exact (hR t ht).2
      have hsum2 : r1.1.frequency + (r2.1.frequency +
          (r2.2.nodes.map HuffmanNode.frequency).sum) = S := by
        rw [← hsum, ((hperm2.map HuffmanNode.frequency).sum_eq)]
        simp only [List.map_cons, List.sum_cons]
      have hexact : int_add r1.1.frequency r2.1.frequency =
          r1.1.frequency + r2.1.frequency :=
        int_wrap_of_range _ (by omega) (by omega)
      rw [if_neg (by simp [h1.1, h2.1]), if_neg (by simp [h1.1, h2.1]), hexact]
      have hlt : r2.2.size < r2.2.capacity := by omega
      have hins := heap_insert_perm r2.2
        (HuffmanNode.node 0 (r1.1.frequency + r2.1.frequency) r1.1 r2.1 false) hlt
      apply ih
      · intro t ht
        rcases List.mem_cons.mp (hins.mem_iff.mp ht) with h | h
        · rw [h]
          refine ⟨by simp, ?_⟩
          show 0 ≤ r1.1.frequency + r2.1.frequency
          omega
        · exact hR t h
      · rw [((hins.map HuffmanNode.frequency).sum_eq)]
        show r1.1.frequency + r2.1.frequency + (r2.2.nodes.map HuffmanNode.frequency).sum = S
        omega
      · rw [heap_insert_size _ _ hlt, heap_insert_capacity]
        omega
    · rw [if_neg hsz, if_neg hsz]

/-- While the sum of the positive histogram entries is at most `INT_MAX`,
`build_huffman_tree` returns the tree that it returns with unbounded frequencies. -/
theorem build_huffman_tree_eq_unbounded (frequencies : Byte → Int)
    (hsum : ((symbols frequencies).map frequencies).sum ≤ INT_MAX) :
    build_huffman_tree frequencies = build_huffman_tree_unbounded frequencies := by
  obtain ⟨hp, hc, _⟩ := insert_leaves_spec frequencies
  have hloop := merge_loop_eq_unbounded _ hsum
    (insert_leaves frequencies (create_min_heap (symbols frequencies).length)).size
    (insert_leaves frequencies (create_min_heap (symbols frequencies).length))
    (by
      intro t ht
      obtain ⟨i, hi, rfl⟩ := List.mem_map.mp (hp.mem_iff.mp ht)
      refine ⟨by simp [create_node], ?_⟩
      have := (mem_symbols frequencies i).mp hi
      show 0 ≤ frequencies i
      omega)
    (by
      rw [((hp.map HuffmanNode.frequency).sum_eq), List.map_map]
      rfl)
    (by
      have := hp.length_eq
      simp only [List.length_map] at this
      unfold MinHeap.size
      omega)
  unfold build_huffman_tree build_huffman_tree_unbounded build_huffman_tree_with
  have hs : (all_bytes.filter (fun i => decide (frequencies i > 0))) = symbols frequencies := rfl
  rw [hs]
  simp only []
  rw [hloop]

end Archiver
